import Mathlib

/-!
# gotime: the timer queue, the settable clock and the warping clock

A shallow embedding of `internal/queue/queue.go` (the `timeQueue` min-heap, driven by Go's
`container/heap`), of `fake.go` (the settable clock `faketime`) and of `simulated.go` (the
warping clock `simulation`).

Modelling conventions.

* A `time.Time` is the integer number of nanoseconds since the zero `time.Time`; the zero value
  `time.Time{}` is `0`, `Before`/`After` are `<`/`>` and `Time.Add d` is `+ d`.  Times are
  unbounded (the range of a Go `time.Time`, some 292 billion years, is outside the model).
* A `time.Duration` is an `int64` number of nanoseconds, written as an integer: `Time.Sub`
  saturates at `minDuration` and `maxDuration` as the standard library documents, the sum of
  two durations wraps around, and a `float64` outside the `int64` range converts to `-2^63`.
  A method takes a duration argument as any integer.
* A `float64` is an IEEE 754 binary64 value; conversion from an integer, product and quotient
  round to nearest, ties to even, and conversion to an integer discards the fraction.
* The backing clock of the warping clock is outside the state: a method takes the reading of
  `s.c.Now()` as an argument, and `After` the readings of its two calls of `s.lockedNow()`.
* A channel is a handle (a natural number).  The queue only stores and returns handles; the
  settable clock keeps the buffers of the channels it made in a store indexed by handle.
* The slice `items []*item` is a list of item values; `Swap` writes the `index` fields exactly
  where the source does.
* The Go `int` fields `counter` and `id` are natural numbers (a queue would need `2^63` calls of
  `Add` to wrap the counter); `index` is an integer because `Pop` stores `-1` in it.
* Loops run on a fuel argument that is a structural bound of the loop; for every loop there is an
  adequacy lemma showing that more fuel never changes the result.
-/

set_option autoImplicit false

namespace queue

/-- The Go struct `item`: `id`, deadline `t`, sink `ch` and heap position `index`. -/
structure item where
  id : Nat
  t : Int
  ch : Nat
  index : Int
deriving DecidableEq, Repr, Inhabited

/-- The Go struct `timeQueue`. -/
structure timeQueue where
  counter : Nat
  items : List item
deriving DecidableEq, Repr

/-- The value `&timeQueue{}` returned by `NewTimeQueue`. -/
def NewTimeQueue : timeQueue := { counter := 0, items := [] }

/-- The element `o.items[i]` (the default item stands for an out-of-range read). -/
def timeQueue.elem (o : timeQueue) (i : Nat) : item := o.items.getD i default

/-- Go `func (o *timeQueue) Len() int`. -/
def timeQueue.Len (o : timeQueue) : Nat := o.items.length

/-- Go `func (o *timeQueue) Less(i, j int) bool`: `o.items[i].t.Before(o.items[j].t)`. -/
def timeQueue.Less (o : timeQueue) (i j : Nat) : Bool := decide ((o.elem i).t < (o.elem j).t)

/-- Go `func (o *timeQueue) Swap(i, j int)`: exchange the two slots, then write both `index`
fields. -/
def timeQueue.Swap (o : timeQueue) (i j : Nat) : timeQueue :=
  let a := o.elem i
  let b := o.elem j
  let o1 : timeQueue := { o with items := (o.items.set i b).set j a }
  let o2 : timeQueue := { o1 with items := o1.items.set i { o1.elem i with index := (i : Int) } }
  { o2 with items := o2.items.set j { o2.elem j with index := (j : Int) } }

/-- Go `func (o *timeQueue) Push(x interface{})`. -/
def timeQueue.Push (o : timeQueue) (x : item) : timeQueue :=
  let n := o.items.length
  { o with items := o.items ++ [{ x with index := (n : Int) }] }

/-- Go `func (o *timeQueue) Pop() interface{}`: the last item, its `index` set to `-1`, and the
queue without it. -/
def timeQueue.Pop (o : timeQueue) : item × timeQueue :=
  let n := o.items.length
  let t := o.elem (n - 1)
  ({ t with index := -1 }, { o with items := o.items.take (n - 1) })

/-- Go `func (o *timeQueue) Peek() (time.Time, bool)`. -/
def timeQueue.Peek (o : timeQueue) : Int × Bool :=
  if o.Len = 0 then (0, false) else ((o.elem 0).t, true)

end queue

namespace heap

open queue

/-- The loop of `container/heap.up`, one iteration per unit of fuel. -/
def upLoop : Nat → timeQueue → Nat → timeQueue
  | 0, h, _ => h
  | fuel + 1, h, j =>
    let i := (j - 1) / 2
    if i = j ∨ !h.Less j i then h
    else upLoop fuel (h.Swap i j) i

/-- Go `container/heap.up(h, j)`; the loop runs at most `j + 1` times. -/
def up (h : timeQueue) (j : Nat) : timeQueue := upLoop (j + 1) h j

/-- The loop of `container/heap.down`: the final queue and the final value of `i`. -/
def downLoop : Nat → timeQueue → Nat → Nat → timeQueue × Nat
  | 0, h, i, _ => (h, i)
  | fuel + 1, h, i, n =>
    let j1 := 2 * i + 1
    if n ≤ j1 then (h, i)
    else
      let j := if j1 + 1 < n ∧ h.Less (j1 + 1) j1 then j1 + 1 else j1
      if !h.Less j i then (h, i)
      else downLoop fuel (h.Swap i j) j n

/-- Go `container/heap.down(h, i0, n)`: the queue afterwards and the result `i > i0`; the loop
runs at most `n` times. -/
def down (h : timeQueue) (i0 n : Nat) : timeQueue × Bool :=
  let r := downLoop n h i0 n
  (r.1, decide (i0 < r.2))

/-- Go `container/heap.Push(h, x)`. -/
def Push (h : timeQueue) (x : item) : timeQueue :=
  let h1 := h.Push x
  up h1 (h1.Len - 1)

/-- Go `container/heap.Pop(h)`. -/
def Pop (h : timeQueue) : item × timeQueue :=
  let n := h.Len - 1
  let h1 := h.Swap 0 n
  let h2 := (down h1 0 n).1
  h2.Pop

/-- Go `container/heap.Remove(h, i)`. -/
def Remove (h : timeQueue) (i : Nat) : item × timeQueue :=
  let n := h.Len - 1
  if n ≠ i then
    let h1 := h.Swap i n
    let d := down h1 i n
    let h2 := if !d.2 then up d.1 i else d.1
    h2.Pop
  else h.Pop

end heap

namespace queue

/-- Go `func (o *timeQueue) Add(t time.Time, ch chan<- time.Time) func() bool`: the queue
afterwards and the id captured by the returned cancel closure. -/
def timeQueue.Add (o : timeQueue) (t : Int) (ch : Nat) : Nat × timeQueue :=
  let id := o.counter
  let o1 : timeQueue := { o with counter := o.counter + 1 }
  (id, heap.Push o1 { id := id, t := t, ch := ch, index := 0 })

/-- The loop of `PopBeforeOrEqual`, one iteration per unit of fuel: while `Peek` gives a deadline
that is not after `t`, append the sink of `heap.Pop(o)` to `chs`. -/
def timeQueue.popLoop : Nat → timeQueue → Int → List Nat → List Nat × timeQueue
  | 0, o, _, chs => (chs, o)
  | fuel + 1, o, t, chs =>
    let p := o.Peek
    if p.2 ∧ ¬ (p.1 > t) then
      let r := heap.Pop o
      timeQueue.popLoop fuel r.2 t (chs ++ [r.1.ch])
    else (chs, o)

/-- Go `func (o *timeQueue) PopBeforeOrEqual(t time.Time) []chan<- time.Time`: the returned sinks
and the queue afterwards; the loop runs at most `Len()` times. -/
def timeQueue.PopBeforeOrEqual (o : timeQueue) (t : Int) : List Nat × timeQueue :=
  timeQueue.popLoop o.Len o t []

/-- The same loop as `popLoop`, keeping the whole popped item instead of only its sink. -/
def timeQueue.popItemsLoop : Nat → timeQueue → Int → List item → List item × timeQueue
  | 0, o, _, acc => (acc, o)
  | fuel + 1, o, t, acc =>
    let p := o.Peek
    if p.2 ∧ ¬ (p.1 > t) then
      let r := heap.Pop o
      timeQueue.popItemsLoop fuel r.2 t (acc ++ [r.1])
    else (acc, o)

/-- The items behind the sinks returned by `PopBeforeOrEqual(t)`, in the order popped, and the
queue afterwards. -/
def timeQueue.popItems (o : timeQueue) (t : Int) : List item × timeQueue :=
  timeQueue.popItemsLoop o.Len o t []

/-- Go `func (o *timeQueue) remove(id int) bool`: the first item with this id is removed at its
stored `index`. -/
def timeQueue.remove (o : timeQueue) (id : Nat) : Bool × timeQueue :=
  match o.items.find? (fun i => i.id == id) with
  | some i => (true, (heap.Remove o i.index.toNat).2)
  | none => (false, o)

end queue

namespace queue

/-- What an entry is made of: its id, its deadline and its sink (the `index` field is the
bookkeeping of the heap). -/
def item.ent (x : item) : Nat × Int × Nat := (x.id, x.t, x.ch)

/-- The pending entries, in slice order. -/
def timeQueue.ents (o : timeQueue) : List (Nat × Int × Nat) := o.items.map item.ent

/-- The deadline stored at position `k`. -/
def timeQueue.key (o : timeQueue) (k : Nat) : Int := (o.elem k).t

/-- Heap order on the first `n` positions: no position holds a deadline before the one of its
parent `(k - 1) / 2`. -/
def timeQueue.HeapUpto (o : timeQueue) (n : Nat) : Prop :=
  ∀ k, 0 < k → k < n → o.key ((k - 1) / 2) ≤ o.key k

/-- Every stored `index` field is the position of its item. -/
def timeQueue.IndexOk (o : timeQueue) : Prop :=
  ∀ k, k < o.Len → (o.elem k).index = (k : Int)

/-- The invariant of the queue: heap order, `index` fields equal to positions, pairwise distinct
ids, all below the counter. -/
structure timeQueue.Inv (o : timeQueue) : Prop where
  heap : o.HeapUpto o.Len
  index : o.IndexOk
  nodup : (o.items.map item.id).Nodup
  below : ∀ x ∈ o.items, x.id < o.counter

/-- The loop invariant of `heap.up` at position `j` on the first `n` positions: heap order
everywhere except between `j` and its parent, and the children of `j` are not before the parent
of `j`. -/
def timeQueue.UpInv (o : timeQueue) (n j : Nat) : Prop :=
  (∀ k, 0 < k → k < n → k ≠ j → o.key ((k - 1) / 2) ≤ o.key k) ∧
  (∀ k, 0 < k → k < n → (k - 1) / 2 = j → 0 < j → o.key ((j - 1) / 2) ≤ o.key k)

/-- The loop invariant of `heap.down` at position `i` on the first `n` positions: heap order
everywhere except around `i` (towards its parent and towards its children), and the children of
`i` are not before the parent of `i`. -/
def timeQueue.DownInv (o : timeQueue) (n i : Nat) : Prop :=
  (∀ k, 0 < k → k < n → k ≠ i → (k - 1) / 2 ≠ i → o.key ((k - 1) / 2) ≤ o.key k) ∧
  (∀ k, 0 < k → k < n → (k - 1) / 2 = i → 0 < i → o.key ((i - 1) / 2) ≤ o.key k)

/-- What `up`, `down` and `Swap` leave alone when they work below position `n`: the counter, the
length, the entries as a multiset, every position from `n` on, and the `index` discipline. -/
structure timeQueue.Frame (o o' : timeQueue) (n : Nat) : Prop where
  counter : o'.counter = o.counter
  len : o'.Len = o.Len
  perm : List.Perm o'.ents o.ents
  above : ∀ k, n ≤ k → o'.elem k = o.elem k
  index : o.IndexOk → o'.IndexOk

/-- What taking the entry `x` out of `o` must give: `r.1` is that entry, and `r.2` is a heap
holding the other entries, with the same counter and a sound `index` discipline. -/
structure timeQueue.Removes (o : timeQueue) (x : item) (r : item × timeQueue) : Prop where
  ent : r.1.ent = x.ent
  counter : r.2.counter = o.counter
  len : r.2.Len + 1 = o.Len
  perm : List.Perm (x.ent :: r.2.ents) o.ents
  heap : r.2.HeapUpto r.2.Len
  index : o.IndexOk → r.2.IndexOk

/-- One call of the `TimeQueue` interface; `cancel id` is a call of the closure returned by the
`Add` that handed out `id`. -/
inductive Call where
  | Add (t : Int) (ch : Nat)
  | cancel (id : Nat)
  | PopBeforeOrEqual (t : Int)
  | Peek
  | Len
deriving DecidableEq, Repr

/-- The queue after a call.  `Peek` and `Len` contain no assignment in the source, so they hand
back the queue they were given. -/
def timeQueue.call (o : timeQueue) : Call → timeQueue
  | Call.Add t ch => (o.Add t ch).2
  | Call.cancel id => (o.remove id).2
  | Call.PopBeforeOrEqual t => (o.PopBeforeOrEqual t).2
  | Call.Peek => o
  | Call.Len => o

/-- The queue after a sequence of calls. -/
def timeQueue.calls (o : timeQueue) (cs : List Call) : timeQueue := cs.foldl timeQueue.call o

/-- The queues reached from `NewTimeQueue()` by calls of the interface. -/
inductive Reachable : timeQueue → Prop
  | new : Reachable NewTimeQueue
  | call {o : timeQueue} (c : Call) : Reachable o → Reachable (o.call c)

/-- The entry with this id is pending: it is in the queue. -/
def timeQueue.pending (o : timeQueue) (id : Nat) : Prop := ∃ x ∈ o.items, x.id = id

/-- The call `c`, made on the queue `o`, takes the entry `id` out of the pending set: it is a
call of that entry's cancel closure, or a `PopBeforeOrEqual` that pops the entry. -/
def timeQueue.takes (o : timeQueue) (c : Call) (id : Nat) : Bool :=
  match c with
  | Call.cancel i => i == id
  | Call.PopBeforeOrEqual t => (o.popItems t).1.any (fun x => x.id == id)
  | _ => false

/-- No call of the sequence `cs`, made from the queue `o` on, is a cancel of the entry `id` or a
`PopBeforeOrEqual` that pops it. -/
def timeQueue.alive (o : timeQueue) (id : Nat) : List Call → Bool
  | [] => true
  | c :: cs => !(o.takes c id) && (o.call c).alive id cs

/-- Three entries with the same deadline `5`, added in the order of their sinks `10`, `11`, `12`
(ids `0`, `1`, `2`). -/
def tieQueue : timeQueue :=
  ((NewTimeQueue.call (Call.Add 5 10)).call (Call.Add 5 11)).call (Call.Add 5 12)

/-- The queue of the test "bunch of timers": deadlines `1` to `6`, sinks `21` to `26`. -/
def sixQueue : timeQueue :=
  NewTimeQueue.calls [Call.Add 1 21, Call.Add 2 22, Call.Add 3 23, Call.Add 4 24, Call.Add 5 25,
    Call.Add 6 26]

/-- Two entries that were given the same sink `7`: deadline `5` under id `0`, deadline `6` under
id `1`. -/
def sharedSinkQueue : timeQueue := NewTimeQueue.calls [Call.Add 5 7, Call.Add 6 7]

end queue

namespace gotime

open queue

/-- The Go struct `faketime`, together with the buffers of the `chan time.Time` values this clock
has made (`chans`, by handle; every one of them has capacity 1).  `timerAdded` is the buffered
channel of capacity 1 of the struct: `true` when it holds a signal. -/
structure faketime where
  now : Int
  timers : timeQueue
  timerAdded : Bool
  chans : List (List Int)
deriving DecidableEq, Repr

/-- The instant `time.Date(1970, time.January, 1, 0, 0, 0, 0, time.UTC)`, in nanoseconds since
the zero `time.Time`. -/
def unixEpoch : Int := 62135596800 * 1000000000

/-- Go `NewSettableClock()`. -/
def NewSettableClock : faketime :=
  { now := unixEpoch, timers := NewTimeQueue, timerAdded := false, chans := [] }

/-- The buffer of the channel `c`. -/
def faketime.buf (f : faketime) (c : Nat) : List Int := f.chans.getD c []

/-- The send `c <- v` on a channel of capacity 1: `none` when the send blocks (the buffer is
full, or there is no such channel). -/
def send (chans : List (List Int)) (c : Nat) (v : Int) : Option (List (List Int)) :=
  match chans[c]? with
  | some b => if b.length < 1 then some (chans.set c (b ++ [v])) else none
  | none => none

/-- The loop `for _, c := range chs { c <- v }`. -/
def sendAll : List (List Int) → List Nat → Int → Option (List (List Int))
  | chans, [], _ => some chans
  | chans, c :: cs, v =>
    match send chans c v with
    | some chans1 => sendAll chans1 cs v
    | none => none

/-- Go `func (f *faketime) SetNow(t time.Time)`: the clock when the call returns, `none` when a
send blocks and the call never returns. -/
def faketime.SetNow (f : faketime) (t : Int) : Option faketime :=
  let f1 : faketime := { f with now := t }
  let r := f1.timers.PopBeforeOrEqual t
  match sendAll f1.chans r.1 t with
  | some chans => some { f1 with timers := r.2, chans := chans }
  | none => none

/-- Go `func (f *faketime) notifyTimer()`: the non-blocking send on `timerAdded`. -/
def faketime.notifyTimer (f : faketime) : faketime := { f with timerAdded := true }

/-- Go `func (f *faketime) After(d time.Duration) <-chan time.Time`: the handle of the returned
channel and the clock afterwards, `none` when the call never returns because its send blocks.
`make(chan time.Time, 1)` gives the next handle, with an empty buffer. -/
def faketime.After (f : faketime) (d : Int) : Option (Nat × faketime) :=
  if d ≤ 0 then
    let ch := f.chans.length
    let f1 : faketime := { f with chans := f.chans ++ [[]] }
    match send f1.chans ch f1.now with
    | some chans => some (ch, { f1 with chans := chans })
    | none => none
  else
    let ch := f.chans.length
    let f1 : faketime := { f with chans := f.chans ++ [[]] }
    let f2 : faketime := { f1 with timers := (f1.timers.Add (f1.now + d) ch).2 }
    some (ch, f2.notifyTimer)

/-- Go `func (f *faketime) Now() time.Time`. -/
def faketime.Now (f : faketime) : Int := f.now

/-- A receive `<-c` by the holder of the channel: the value taken, if the buffer holds one. -/
def faketime.recv (f : faketime) (c : Nat) : Option Int × faketime :=
  match f.buf c with
  | [] => (none, f)
  | v :: rest => (some v, { f with chans := f.chans.set c rest })

/-- A sequence of `SetNow` calls, each returning before the next. -/
def faketime.SetNows : faketime → List Int → Option faketime
  | f, [] => some f
  | f, t :: ts =>
    match f.SetNow t with
    | some f1 => faketime.SetNows f1 ts
    | none => none

/-- The clocks reached from `NewSettableClock()`.  Besides `SetNow` and `After` there are the
steps that the timer facade and its helper goroutine take on the state of the clock: making a
channel (`make`), receiving from a channel (`recv`), sending on a channel that is not the sink of
a pending entry (`forward`, the goroutine writing into the channel of its timer), calling a
cancel closure (`cancel`), and a test reading `timerAdded`. -/
inductive faketime.Reachable : faketime → Prop
  | new : faketime.Reachable NewSettableClock
  | SetNow {f f1 : faketime} (t : Int) : faketime.Reachable f → f.SetNow t = some f1 →
      faketime.Reachable f1
  | After {f f1 : faketime} (d : Int) (ch : Nat) : faketime.Reachable f →
      f.After d = some (ch, f1) → faketime.Reachable f1
  | make {f : faketime} : faketime.Reachable f →
      faketime.Reachable { f with chans := f.chans ++ [[]] }
  | recv {f : faketime} (c : Nat) : faketime.Reachable f → faketime.Reachable (f.recv c).2
  | forward {f : faketime} (c : Nat) (v : Int) (chans : List (List Int)) :
      faketime.Reachable f → (∀ x ∈ f.timers.items, x.ch ≠ c) → send f.chans c v = some chans →
      faketime.Reachable { f with chans := chans }
  | cancel {f : faketime} (id : Nat) : faketime.Reachable f →
      faketime.Reachable { f with timers := (f.timers.remove id).2 }
  | readTimerAdded {f : faketime} : faketime.Reachable f →
      faketime.Reachable { f with timerAdded := false }

/-- The invariant of the settable clock: the queue invariant, and every pending sink is a
channel of the clock, with an empty buffer, held by one entry only. -/
structure faketime.Inv (f : faketime) : Prop where
  queue : f.timers.Inv
  sinks : (f.timers.items.map item.ch).Nodup
  fresh : ∀ x ∈ f.timers.items, x.ch < f.chans.length ∧ f.buf x.ch = []

end gotime

namespace time

/-- Go `minDuration`, the least `time.Duration`. -/
def minDuration : Int := -(2 ^ 63)

/-- Go `maxDuration`, the greatest `time.Duration`. -/
def maxDuration : Int := 2 ^ 63 - 1

/-- Go `func (t Time) Sub(u Time) Duration`, for times without a monotonic reading: "If the
result exceeds the maximum (or minimum) value that can be stored in a Duration, the maximum (or
minimum) duration will be returned." -/
def Sub (t u : Int) : Int :=
  if maxDuration < t - u then maxDuration
  else if t - u < minDuration then minDuration
  else t - u

/-- The Go sum `x + y` of two `time.Duration`: the sum of two `int64`, which wraps around. -/
def addDuration (x y : Int) : Int := (x + y + 2 ^ 63) % 2 ^ 64 - 2 ^ 63

/-- Whether the integer `d` is a `time.Duration`, that is, in the `int64` range. -/
def fits (d : Int) : Bool := decide (minDuration ≤ d ∧ d ≤ maxDuration)

end time

namespace gotime

open queue

/-- Go `func (f *faketime) Since(t time.Time) time.Duration`: `f.Now().Sub(t)`. -/
def faketime.Since (f : faketime) (t : Int) : Int := time.Sub f.Now t

/-- Modelled from the spec: the method `Add` of the settable clock, which `fake_test.go` calls
(`old := c.Add(tt.d)`) and `fake.go` does not define.  The spec: "`Add(d) → old`: semantically
`SetNow(Now()+d)`", where `SetNow` "returns previous now".  The result is the previous now and
the clock afterwards, `none` when the `SetNow` inside never returns. -/
def faketime.Add (f : faketime) (d : Int) : Option (Int × faketime) :=
  let old := f.Now
  match f.SetNow (f.Now + d) with
  | some f1 => some (old, f1)
  | none => none

/-- A Go `float64` (IEEE 754 binary64) by its value: not a number, an infinity, or the finite
value `(-1)^neg * m * 2^e`.  Zero keeps its sign.  A finite value may be written with more than
one pair `(m, e)`; every operation below depends on the value only. -/
inductive float64 where
  | nan
  | inf (neg : Bool)
  | fin (neg : Bool) (m : Nat) (e : Int)
deriving DecidableEq, Repr

/-- The loop counting the binary digits of `m`, one digit per unit of fuel. -/
def float64.bitLenAux : Nat → Nat → Nat
  | 0, _ => 0
  | fuel + 1, m => if m = 0 then 0 else float64.bitLenAux fuel (m / 2) + 1

/-- The number of binary digits of `m` (`0` for `0`); `m` units of fuel are more than enough. -/
def float64.bitLen (m : Nat) : Nat := float64.bitLenAux m m

/-- The binary64 nearest to `(-1)^neg * m * 2^e`, ties to even: at most 53 digits are kept, no
digit below `2^(-1074)`, and a result of `2^1024` or more is an infinity. -/
def float64.round (neg : Bool) (m : Nat) (e : Int) : float64 :=
  if m = 0 then float64.fin neg 0 0
  else
    let bits : Int := (float64.bitLen m : Int)
    let e1 : Int := max (e + bits - 53) (-1074)
    if e1 ≤ e then
      if 1024 < e + bits then float64.inf neg else float64.fin neg m e
    else
      let k : Nat := (e1 - e).toNat
      let q := m / 2 ^ k
      let r := m % 2 ^ k
      let half := 2 ^ (k - 1)
      let q1 := if half < r ∨ (r = half ∧ q % 2 = 1) then q + 1 else q
      if q1 = 0 then float64.fin neg 0 0
      else if 1024 < e1 + (float64.bitLen q1 : Int) then float64.inf neg
      else float64.fin neg q1 e1

/-- The Go conversion `float64(d)` of an integer. -/
def float64.ofInt (d : Int) : float64 := float64.round (decide (d < 0)) d.natAbs 0

/-- The Go product `x * y` of two `float64`. -/
def float64.mul : float64 → float64 → float64
  | float64.nan, _ => float64.nan
  | _, float64.nan => float64.nan
  | float64.inf s1, float64.inf s2 => float64.inf (xor s1 s2)
  | float64.inf s1, float64.fin s2 m _ => if m = 0 then float64.nan else float64.inf (xor s1 s2)
  | float64.fin s1 m _, float64.inf s2 => if m = 0 then float64.nan else float64.inf (xor s1 s2)
  | float64.fin s1 m1 e1, float64.fin s2 m2 e2 => float64.round (xor s1 s2) (m1 * m2) (e1 + e2)

/-- The Go quotient `x / y` of two `float64`: the integer quotient is taken with 64 digits to
spare and one sticky digit for the remainder, then rounded. -/
def float64.div : float64 → float64 → float64
  | float64.nan, _ => float64.nan
  | _, float64.nan => float64.nan
  | float64.inf _, float64.inf _ => float64.nan
  | float64.inf s1, float64.fin s2 _ _ => float64.inf (xor s1 s2)
  | float64.fin s1 _ _, float64.inf s2 => float64.fin (xor s1 s2) 0 0
  | float64.fin s1 m1 e1, float64.fin s2 m2 e2 =>
    if m2 = 0 then (if m1 = 0 then float64.nan else float64.inf (xor s1 s2))
    else
      let sh := float64.bitLen m2 + 64
      let n := m1 * 2 ^ sh
      let q := n / m2
      let sticky := if n % m2 = 0 then 0 else 1
      float64.round (xor s1 s2) (2 * q + sticky) (e1 - e2 - (sh : Int) - 1)

/-- The Go conversion `time.Duration(x)` of a `float64`: the fraction is discarded.  For a value
that is not finite, or whose integer part is not an `int64`, Go leaves the result to the
implementation; `-2^63` is what amd64 gives. -/
def float64.toInt64 : float64 → Int
  | float64.fin neg m e =>
    let a : Nat := if 0 ≤ e then m * 2 ^ e.toNat else m / 2 ^ (-e).toNat
    let v : Int := if neg then -(a : Int) else (a : Int)
    if -(2 ^ 63) ≤ v ∧ v < 2 ^ 63 then v else -(2 ^ 63)
  | _ => -(2 ^ 63)

/-- The Go comparison `x <= 0`: false for a NaN, true for both zeros. -/
def float64.leZero : float64 → Bool
  | float64.nan => false
  | float64.inf neg => neg
  | float64.fin neg m _ => decide (m = 0) || neg

/-- A positive finite `float64`. -/
def float64.posFinite : float64 → Bool
  | float64.fin false m _ => decide (m ≠ 0)
  | _ => false

end gotime

namespace math

open gotime

/-- Go `math.IsNaN(f)`. -/
def IsNaN : float64 → Bool
  | float64.nan => true
  | _ => false

/-- Go `math.IsInf(f, sign)`: with `sign > 0` a positive infinity, with `sign < 0` a negative
one, with `sign == 0` either. -/
def IsInf (f : float64) (sign : Int) : Bool :=
  match f with
  | float64.inf neg => (decide (0 ≤ sign) && !neg) || (decide (sign ≤ 0) && neg)
  | _ => false

end math

namespace gotime

open queue

/-- The error values of `common.go`. -/
inductive error where
  | ErrNegativeRatio
  | ErrTimeInPast
deriving DecidableEq, Repr

/-- A backing timer made by `makeTimer`: the backing time at which `s.c.Timer` was called, the
duration given to it, and whether the context made with it has been cancelled. -/
structure wake where
  made : Int
  interval : Int
  cancelled : Bool
deriving DecidableEq, Repr

/-- The Go struct `simulation`.  The backing clock `c` is outside: every method that reads
`s.c.Now()` takes the reading `b` as an argument, the backing clock standing still during the
call; for `After`, whose two calls of `s.lockedNow()` decide different things, `AfterAt` takes
the two readings.  `wakes` lists the backing timers made so far, and `timerCancel` is the position in it of
the timer whose cancel function the field holds (`none` for `nil`).  `chans` holds the buffers
of the `chan time.Time` values made by `After`, by handle; every one of them has capacity 1. -/
structure simulation where
  start : Int
  drift : Int
  ratio : float64
  timers : timeQueue
  timerCancel : Option Nat
  wakes : List wake
  chans : List (List Int)
deriving DecidableEq, Repr

/-- Go `NewTimeWarpableClock()`, `b` being the `time.Now()` of the construction. -/
def NewTimeWarpableClock (b : Int) : simulation :=
  { start := b, drift := 0, ratio := float64.ofInt 1, timers := NewTimeQueue,
    timerCancel := none, wakes := [], chans := [] }

/-- Go `func (s *simulation) toSimulatedDuration(d time.Duration) time.Duration`:
`time.Duration(float64(d) * s.ratio)`. -/
def simulation.toSimulatedDuration (s : simulation) (d : Int) : Int :=
  ((float64.ofInt d).mul s.ratio).toInt64

/-- Go `func (s *simulation) fromSimulatedDuration(d time.Duration) time.Duration`:
`time.Duration(float64(d) / s.ratio)`. -/
def simulation.fromSimulatedDuration (s : simulation) (d : Int) : Int :=
  ((float64.ofInt d).div s.ratio).toInt64

/-- Go `func (s *simulation) lockedNow() time.Time`. -/
def simulation.lockedNow (s : simulation) (b : Int) : Int :=
  s.start + time.addDuration (s.toSimulatedDuration (time.Sub b s.start)) s.drift

/-- The calling side of Go `func (s *simulation) makeTimer(d time.Duration)`, at backing time
`b`: the cancel function held is called, a context and a backing timer for
`fromSimulatedDuration(d)` are made, and the new cancel function is stored.  (The two
goroutines it starts are `wakeUp` below.) -/
def simulation.makeTimer (s : simulation) (b : Int) (d : Int) : simulation :=
  let wakes1 : List wake :=
    match s.timerCancel with
    | some k => s.wakes.set k { s.wakes.getD k { made := 0, interval := 0, cancelled := true } with
        cancelled := true }
    | none => s.wakes
  { s with
    timerCancel := some wakes1.length,
    wakes := wakes1 ++
      [{ made := b, interval := s.fromSimulatedDuration d, cancelled := false }] }

/-- Go `func (s *simulation) triggerTimers(t time.Time)`, at backing time `b`. -/
def simulation.triggerTimers (s : simulation) (b : Int) (t : Int) : simulation :=
  let p := s.timers.Peek
  if p.2 then s.makeTimer b (time.Sub p.1 t) else s

/-- Go `func (s *simulation) Add(d time.Duration) time.Time`: the value returned and the clock
afterwards. -/
def simulation.Add (s : simulation) (b : Int) (d : Int) : Int × simulation :=
  let old := b
  let t := old + d
  let s1 : simulation := { s with start := t }
  let s2 : simulation := { s1 with drift := time.Sub old s1.start }
  (old, s2.triggerTimers b t)

/-- Go `func (s *simulation) SetNow(t time.Time) time.Time`: the value returned and the clock
afterwards. -/
def simulation.SetNow (s : simulation) (b : Int) (t : Int) : Int × simulation :=
  let old := b
  let s1 : simulation := { s with start := t }
  let s2 : simulation := { s1 with drift := time.Sub old s1.start }
  (old, s2.triggerTimers b t)

/-- Go `func (s *simulation) SetWarpSpeed(ratio float64) error`: the error returned (`none` for
`nil`) and the clock afterwards. -/
def simulation.SetWarpSpeed (s : simulation) (b : Int) (ratio : float64) :
    Option error × simulation :=
  if ratio.leZero || math.IsNaN ratio || math.IsInf ratio 0 then
    (some error.ErrNegativeRatio, s)
  else
    let now := s.lockedNow b
    let s1 : simulation := { s with start := b }
    let s2 : simulation := { s1 with drift := time.Sub now s1.start }
    let s3 : simulation := { s2 with ratio := ratio }
    let p := s3.timers.Peek
    if p.2 then (none, s3.makeTimer b (time.Sub p.1 now)) else (none, s3)

/-- Go `func (s *simulation) Now() time.Time`. -/
def simulation.Now (s : simulation) (b : Int) : Int := s.lockedNow b

/-- Go `func (s *simulation) Since(t time.Time) time.Duration`. -/
def simulation.Since (s : simulation) (b : Int) (t : Int) : Int :=
  s.fromSimulatedDuration (time.Sub (s.Now b) t)

/-- A run of the warping clock from backing time `b`: for each pair `(r, Δ)` a call
`SetWarpSpeed(r)`, after which the backing clock advances by `Δ`.  The result is the clock and
the backing time at the end. -/
def simulation.warpRun : simulation → Int → List (float64 × Int) → simulation × Int
  | s, b, [] => (s, b)
  | s, b, (r, Δ) :: rest => simulation.warpRun (s.SetWarpSpeed b r).2 (b + Δ) rest

/-- The runs of `warpRun` in which no duration leaves the `int64` range: at each call the
simulated now is within a `time.Duration` of the backing now, the advance that follows is a
`time.Duration`, and so is the distance from the backing time of the call to the simulated now
after the advance. -/
def simulation.warpFits : simulation → Int → List (float64 × Int) → Bool
  | _, _, [] => true
  | s, b, (r, Δ) :: rest =>
    time.fits (s.Now b - b) && time.fits Δ &&
      time.fits (((float64.ofInt Δ).mul r).toInt64 + (s.Now b - b)) &&
      simulation.warpFits (s.SetWarpSpeed b r).2 (b + Δ) rest

/-- The run of warp speed `60` for one backing minute, then warp speed `1/60` for one backing
minute. -/
def hourThenSecond : List (float64 × Int) :=
  [(float64.ofInt 60, 60000000000), ((float64.ofInt 1).div (float64.ofInt 60), 60000000000)]

/-- The run of warp speed `2^61` for three backing nanoseconds, twice. -/
def twiceFarAhead : List (float64 × Int) :=
  [(float64.ofInt (2 ^ 61), 3), (float64.ofInt (2 ^ 61), 3)]

/-- The warping clock made at backing time `0` and set to `-2^62` at once. -/
def setFarBack : simulation := ((NewTimeWarpableClock 0).SetNow 0 (-(2 ^ 62))).2

/-- The warping clock made at backing time `0` and set to warp speed `2` at once. -/
def doubleSpeed : simulation := ((NewTimeWarpableClock 0).SetWarpSpeed 0 (float64.ofInt 2)).2

/-- The warping clock made at backing time `0` and set to warp speed `60` at once. -/
def sixtySpeed : simulation := ((NewTimeWarpableClock 0).SetWarpSpeed 0 (float64.ofInt 60)).2

end gotime

namespace gotime

open queue

/-- The buffer of the channel `c` of the warping clock. -/
def simulation.buf (s : simulation) (c : Nat) : List Int := s.chans.getD c []

/-- Go `func (s *simulation) After(d time.Duration) <-chan time.Time`: the handle of the
returned channel and the clock afterwards.  `make(chan time.Time, 1)` gives the next handle, with
an empty buffer.  The function calls `s.lockedNow()` twice: the first call, for
`t := s.lockedNow().Add(d)`, reads the backing clock at `b1`; the second, for the deadline given
to `s.timers.Add`, reads it at `b2`, which is also the backing time at which `makeTimer` is
called. -/
def simulation.AfterAt (s : simulation) (b1 b2 : Int) (d : Int) : Nat × simulation :=
  let p := s.timers.Peek
  let ch := s.chans.length
  let s1 : simulation := { s with chans := s.chans ++ [[]] }
  let t := s1.lockedNow b1 + d
  let s2 : simulation := { s1 with timers := (s1.timers.Add (s1.lockedNow b2 + d) ch).2 }
  if !p.2 || decide (p.1 > t) then (ch, s2.makeTimer b2 d) else (ch, s2)

/-- The call `After(d)` during which the backing clock stands still at `b`: both calls of
`s.lockedNow()` read it there. -/
def simulation.After (s : simulation) (b : Int) (d : Int) : Nat × simulation := s.AfterAt b b d

/-- The second goroutine of Go `makeTimer`, from the point where it has received a value from
`ch` (the backing timer has fired and the first goroutine has passed the signal on), at backing
time `b`: under the lock it sends the simulated now to the sinks popped, then makes the next
backing timer or clears `timerCancel`.  The result is `none` when a send blocks. -/
def simulation.wakeUp (s : simulation) (b : Int) : Option simulation :=
  let now := s.lockedNow b
  let r := s.timers.PopBeforeOrEqual now
  match sendAll s.chans r.1 now with
  | some chans =>
    let s1 : simulation := { s with timers := r.2, chans := chans }
    let p := s1.timers.Peek
    if !p.2 then some { s1 with timerCancel := none }
    else some (s1.makeTimer b (time.Sub p.1 now))
  | none => none

/-- A receive `<-c` by the holder of a channel returned by `After`: the value taken, if the
buffer holds one. -/
def simulation.recv (s : simulation) (c : Nat) : Option Int × simulation :=
  match s.buf c with
  | [] => (none, s)
  | v :: rest => (some v, { s with chans := s.chans.set c rest })

/-- The warping clocks reached from a new one (made at any backing time) by `After`, `SetNow`,
`Add`, `SetWarpSpeed`, runs of the wake-up handler and receives, each at any backing time, the
two reads of the backing clock in `After` being any two backing times.  A wake-up handler may
run here whether or not its backing timer has fired: more runs are covered than the program
has. -/
inductive simulation.Reachable : simulation → Prop
  | new (b : Int) : simulation.Reachable (NewTimeWarpableClock b)
  | After {s : simulation} (b1 b2 d : Int) : simulation.Reachable s →
      simulation.Reachable (s.AfterAt b1 b2 d).2
  | SetNow {s : simulation} (b t : Int) : simulation.Reachable s →
      simulation.Reachable (s.SetNow b t).2
  | Add {s : simulation} (b d : Int) : simulation.Reachable s →
      simulation.Reachable (s.Add b d).2
  | SetWarpSpeed {s : simulation} (b : Int) (r : float64) : simulation.Reachable s →
      simulation.Reachable (s.SetWarpSpeed b r).2
  | wakeUp {s s1 : simulation} (b : Int) : simulation.Reachable s → s.wakeUp b = some s1 →
      simulation.Reachable s1
  | recv {s : simulation} (c : Nat) : simulation.Reachable s → simulation.Reachable (s.recv c).2

/-- The invariant of the warping clock: the queue invariant; every pending sink is a channel of
the clock, with an empty buffer, held by one entry only; and a cancel function is held exactly
when the queue is not empty. -/
structure simulation.Inv (s : simulation) : Prop where
  queue : s.timers.Inv
  sinks : (s.timers.items.map item.ch).Nodup
  fresh : ∀ x ∈ s.timers.items, x.ch < s.chans.length ∧ s.buf x.ch = []
  handle : s.timerCancel.isSome = decide (0 < s.timers.Len)

/-- The backing timer `w` is outstanding at backing time `b`: its context has not been cancelled
and it has not fired.  (It fires when the backing clock, which has not gone back since the timer
was made, reaches `made + interval`.) -/
def wake.outstanding (w : wake) (b : Int) : Bool :=
  !w.cancelled && decide (b < w.made + w.interval)

/-- The backing timers of the clock that are outstanding at backing time `b`. -/
def simulation.outstanding (s : simulation) (b : Int) : List wake :=
  s.wakes.filter (fun w => w.outstanding b)

end gotime

namespace gotime

open queue

/-- The Go struct `fakeTimer`: the handles of the channels `c`, `close` (`none` for `nil`) and
`done`.  The field `newTimer` is the method of the clock that made the timer. -/
structure fakeTimer where
  c : Nat
  close : Option Nat
  done : Nat
deriving DecidableEq, Repr

/-- The goroutine started by `newTimer`: the channels it holds (`ch`, the sink given to the
queue; `c`, the channel of the timer; `closeCh`; `done`), the id behind its `cancel`, and
whether it has returned. -/
structure helper where
  ch : Nat
  c : Nat
  close : Nat
  done : Nat
  id : Nat
  returned : Bool
deriving DecidableEq, Repr

/-- The settable clock with its timers: the clock, the `chan struct{}` values made by `newTimer`
(by handle; they are only ever closed, `true` standing for closed), and the goroutines
started. -/
structure fakeClock where
  clock : faketime
  signals : List Bool
  helpers : List helper
deriving DecidableEq, Repr

/-- The clock `NewSettableClock()` with no timer made yet. -/
def NewFakeClock : fakeClock := { clock := NewSettableClock, signals := [], helpers := [] }

/-- Go `func (f *faketime) newTimer(d time.Duration) *fakeTimer`: the timer and the clock
afterwards, `none` when the send in the first branch blocks.  The channels are made in the order
of the source: `c`, `closeCh`, `done`, `ch`. -/
def fakeClock.newTimer (w : fakeClock) (d : Int) : Option (fakeTimer × fakeClock) :=
  if d ≤ 0 then
    let c := w.clock.chans.length
    let f1 : faketime := { w.clock with chans := w.clock.chans ++ [[]] }
    match send f1.chans c f1.now with
    | some chans =>
      let done := w.signals.length
      some ({ c := c, close := none, done := done },
        { w with clock := { f1 with chans := chans }, signals := w.signals ++ [true] })
    | none => none
  else
    let c := w.clock.chans.length
    let f1 : faketime := { w.clock with chans := w.clock.chans ++ [[]] }
    let closeCh := w.signals.length
    let done := w.signals.length + 1
    let ch := f1.chans.length
    let f2 : faketime := { f1 with chans := f1.chans ++ [[]] }
    let r := f2.timers.Add (f2.now + d) ch
    let f3 : faketime := { f2 with timers := r.2 }
    some ({ c := c, close := some closeCh, done := done },
      { clock := f3.notifyTimer,
        signals := w.signals ++ [false, false],
        helpers := w.helpers ++
          [{ ch := ch, c := c, close := closeCh, done := done, id := r.1, returned := false }] })

/-- Go `func (f *faketime) Timer(d time.Duration) Timer`. -/
def fakeClock.Timer (w : fakeClock) (d : Int) : Option (fakeTimer × fakeClock) := w.newTimer d

/-- Go `func (t *fakeTimer) Reset(d time.Duration) bool`: the result, the fields of `t`
afterwards and the clock afterwards. -/
def fakeClock.Reset (w : fakeClock) (_t : fakeTimer) (d : Int) :
    Option (Bool × fakeTimer × fakeClock) :=
  match w.newTimer d with
  | some (newT, w1) => some (false, { c := newT.c, close := newT.close, done := newT.done }, w1)
  | none => none

/-- Go `func (t *fakeTimer) Stop() bool`: the result and the clock afterwards, `none` when the
call panics (closing a nil channel, or a channel that is closed already). -/
def fakeClock.Stop (w : fakeClock) (t : fakeTimer) : Option (Bool × fakeClock) :=
  if w.signals.getD t.done false then some (true, w)
  else
    match t.close with
    | none => none
    | some cl =>
      if w.signals.getD cl false then none
      else some (false, { w with signals := w.signals.set cl true })

/-- The goroutine `k` of `newTimer` runs, from its `select` to its return: with `closed = false`
it takes the case `now := <-ch` and sends `now` on `c`; with `closed = true` it takes the case
`<-closeCh`, sends `f.Now()` on `c` and calls `cancel()`; then `done` is closed.  The result is
`none` when the goroutine has returned already, when the case is not ready, or when the send on
`c` blocks. -/
def fakeClock.helperRun (w : fakeClock) (k : Nat) (closed : Bool) : Option fakeClock :=
  match w.helpers[k]? with
  | none => none
  | some h =>
    if h.returned then none
    else if closed then
      if w.signals.getD h.close false then
        match send w.clock.chans h.c w.clock.Now with
        | some chans =>
          some { clock := { w.clock with chans := chans,
                                         timers := (w.clock.timers.remove h.id).2 },
                 signals := w.signals.set h.done true,
                 helpers := w.helpers.set k { h with returned := true } }
        | none => none
      else none
    else
      match w.clock.buf h.ch with
      | [] => none
      | v :: rest =>
        match send (w.clock.chans.set h.ch rest) h.c v with
        | some chans =>
          some { clock := { w.clock with chans := chans },
                 signals := w.signals.set h.done true,
                 helpers := w.helpers.set k { h with returned := true } }
        | none => none

/-- What happens around a timer once it is made: a `SetNow` call, a run of a goroutine of
`newTimer`, or the holder of the timer receiving from `C()` if a value is there. -/
inductive timerAct where
  | SetNow (t : Int)
  | helper (k : Nat) (closed : Bool)
  | recv
deriving DecidableEq, Repr

/-- One act around the timer whose channel is `c`: the clock afterwards and the values received
from `c`; `none` when the act cannot be done. -/
def fakeClock.act (w : fakeClock) (c : Nat) : timerAct → Option (fakeClock × List Int)
  | timerAct.SetNow t =>
    match w.clock.SetNow t with
    | some f => some ({ w with clock := f }, [])
    | none => none
  | timerAct.helper k closed =>
    match w.helperRun k closed with
    | some w1 => some (w1, [])
    | none => none
  | timerAct.recv =>
    match (w.clock.recv c).1 with
    | some v => some ({ w with clock := (w.clock.recv c).2 }, [v])
    | none => some (w, [])

/-- A sequence of acts around the timer whose channel is `c`: the clock afterwards and the
values received from `c`, in order. -/
def fakeClock.acts (w : fakeClock) (c : Nat) : List timerAct → Option (fakeClock × List Int)
  | [] => some (w, [])
  | a :: rest =>
    match w.act c a with
    | some r1 =>
      match fakeClock.acts r1.1 c rest with
      | some r2 => some (r2.1, r1.2 ++ r2.2)
      | none => none
    | none => none

/-- The settable clocks with timers reached from a new one by `SetNow`, `After`, `Timer` and
`Reset` (both are `newTimer`), `Stop`, runs of the goroutines and receives. -/
inductive fakeClock.Reachable : fakeClock → Prop
  | new : fakeClock.Reachable NewFakeClock
  | SetNow {w : fakeClock} {f : faketime} (t : Int) : fakeClock.Reachable w →
      w.clock.SetNow t = some f → fakeClock.Reachable { w with clock := f }
  | After {w : fakeClock} {f : faketime} (d : Int) (ch : Nat) : fakeClock.Reachable w →
      w.clock.After d = some (ch, f) → fakeClock.Reachable { w with clock := f }
  | newTimer {w w1 : fakeClock} (d : Int) (t : fakeTimer) : fakeClock.Reachable w →
      w.newTimer d = some (t, w1) → fakeClock.Reachable w1
  | Stop {w w1 : fakeClock} (t : fakeTimer) (r : Bool) : fakeClock.Reachable w →
      w.Stop t = some (r, w1) → fakeClock.Reachable w1
  | helperRun {w w1 : fakeClock} (k : Nat) (closed : Bool) : fakeClock.Reachable w →
      w.helperRun k closed = some w1 → fakeClock.Reachable w1
  | recv {w : fakeClock} (c : Nat) : fakeClock.Reachable w →
      fakeClock.Reachable { w with clock := (w.clock.recv c).2 }

/-- What holds of every reached settable clock with timers: the clock is a reached settable
clock, and the channels held by a goroutine are channels of the clock, the channel `c` of a
timer never being the sink of a pending entry. -/
structure fakeClock.WF (w : fakeClock) : Prop where
  clock : w.clock.Reachable
  handles : ∀ h ∈ w.helpers,
    h.ch < w.clock.chans.length ∧ h.c < w.clock.chans.length ∧ h.done < w.signals.length
  apart : ∀ h ∈ w.helpers, ∀ x ∈ w.clock.timers.items, x.ch ≠ h.c

/-- The goroutine at position `k` is `h`, with `r` for its `returned` field, and it alone works
on the channels of `h`: no other goroutine holds `h.c` or `h.ch` or closes `h.close`, which is
open; `h.c` and the channels `c` of the other goroutines are not sinks of pending entries; and
every pending entry with the sink `h.ch` has a deadline of `D` or later. -/
structure fakeClock.Tracks (w : fakeClock) (k : Nat) (h : helper) (D : Int) (r : Bool) :
    Prop where
  inv : w.clock.Inv
  mine : w.helpers[k]? = some { h with returned := r }
  others : ∀ j g, w.helpers[j]? = some g → j ≠ k →
    g.c ≠ h.c ∧ g.ch ≠ h.c ∧ g.c ≠ h.ch ∧ g.ch ≠ h.ch ∧ g.done ≠ h.close
  apart : ∀ g ∈ w.helpers, ∀ x ∈ w.clock.timers.items, x.ch ≠ g.c
  isOpen : w.signals.getD h.close false = false
  own : h.done ≠ h.close ∧ h.c ≠ h.ch
  range : h.c < w.clock.chans.length ∧ h.ch < w.clock.chans.length
  due : ∀ x ∈ w.clock.timers.items, x.ch = h.ch → D ≤ x.t

/-- The run behind the stale wake-up: on a new warping clock made at backing time `0`,
`After(10)`; the backing clock moves to `10`, where the backing timer fires; `SetNow(5)` is
called before the wake-up handler of that timer gets the lock; the handler runs; `After(100)`. -/
def staleWake : Option simulation :=
  match ((((NewTimeWarpableClock 0).After 0 10).2.SetNow 10 5).2).wakeUp 10 with
  | some s => some (s.After 10 100).2
  | none => none

/-- The clock made at backing time `0`, with `After(100)` called at once: the entry for `100` is
the head of the queue and the backing timer is for `100`. -/
def headPending : simulation := ((NewTimeWarpableClock 0).After 0 100).2

/-- The clock made at backing time `0`, set to warp speed `2` at once, with `After(100)` called
at once. -/
def doubleSpeedPending : simulation := (doubleSpeed.After 0 100).2

/-- The clock made at backing time `0`, set to warp speed `3` at once, with `After(10)` called
at once. -/
def tripleSpeedPending : simulation :=
  (((NewTimeWarpableClock 0).SetWarpSpeed 0 (float64.ofInt 3)).2.After 0 10).2

/-- The clock of the test `TestSimulatedTime_Sleep_Warped_fake` before its last advance: made at
backing time `0`, `After(3 min)`, warp speed `60` for one backing second, warp speed `1` for
one backing minute, then warp speed `60`. -/
def sleepWarped : simulation :=
  ((((((NewTimeWarpableClock 0).After 0 180000000000).2.SetWarpSpeed 0 (float64.ofInt 60)).2
    ).SetWarpSpeed 1000000000 (float64.ofInt 1)).2.SetWarpSpeed 61000000000
      (float64.ofInt 60)).2

end gotime

/-! ## The timers of the warping clock, and `Stop` called twice -/

namespace gotime

open queue

/-- The goroutine started by `simulation.newTimer`: the duration `d` it passes to `After`, the
channels it holds (`c`, the channel of the timer; `closeCh`; `done`), the channel that its call
`s.After(d)` has returned (`none` until it has entered its `select`), and whether it has
returned. -/
structure warpHelper where
  d : Int
  c : Nat
  close : Nat
  done : Nat
  ch : Option Nat
  returned : Bool
deriving DecidableEq, Repr

/-- The warping clock with its timers: the clock, the `chan struct{}` values made by `newTimer`
(by handle; they are only ever closed, `true` standing for closed), and the goroutines
started. -/
structure warpClock where
  clock : simulation
  signals : List Bool
  helpers : List warpHelper
deriving DecidableEq, Repr

/-- The clock `NewTimeWarpableClock()`, made at backing time `b`, with no timer made yet. -/
def NewWarpClock (b : Int) : warpClock :=
  { clock := NewTimeWarpableClock b, signals := [], helpers := [] }

/-- Go `func (s *simulation) newTimer(d time.Duration) *fakeTimer`: the timer and the clock
afterwards.  There is no branch for `d ≤ 0`; the channels are made in the order of the source:
`c`, `closeCh`, `done`; the goroutine is started and has not run. -/
def warpClock.newTimer (w : warpClock) (d : Int) : fakeTimer × warpClock :=
  let c := w.clock.chans.length
  let closeCh := w.signals.length
  let done := w.signals.length + 1
  ({ c := c, close := some closeCh, done := done },
    { clock := { w.clock with chans := w.clock.chans ++ [[]] },
      signals := w.signals ++ [false, false],
      helpers := w.helpers ++
        [{ d := d, c := c, close := closeCh, done := done, ch := none, returned := false }] })

/-- Go `func (s *simulation) Timer(d time.Duration) Timer`. -/
def warpClock.Timer (w : warpClock) (d : Int) : fakeTimer × warpClock := w.newTimer d

/-- Go `func (t *fakeTimer) Stop() bool` on a timer of the warping clock: the result and the
clock afterwards, `none` when the call panics (closing a nil channel, or a channel that is
closed already). -/
def warpClock.Stop (w : warpClock) (t : fakeTimer) : Option (Bool × warpClock) :=
  if w.signals.getD t.done false then some (true, w)
  else
    match t.close with
    | none => none
    | some cl =>
      if w.signals.getD cl false then none
      else some (false, { w with signals := w.signals.set cl true })

/-- The goroutine `k` of `simulation.newTimer` enters its `select`, at backing time `b`: the
channel operand `s.After(d)` is evaluated, whether or not `closeCh` is closed.  The result is
`none` when there is no such goroutine or it has entered already. -/
def warpClock.helperEnter (w : warpClock) (b : Int) (k : Nat) : Option warpClock :=
  match w.helpers[k]? with
  | none => none
  | some h =>
    if h.returned || h.ch.isSome then none
    else
      let r := w.clock.After b h.d
      some { w with clock := r.2, helpers := w.helpers.set k { h with ch := some r.1 } }

/-- The goroutine `k` of `simulation.newTimer` leaves its `select` and returns: with
`closed = false` it takes the case `now := <-s.After(d)` and sends `now` on `c`; with
`closed = true` it takes the case `<-closeCh`; then `done` is closed.  The result is `none` when
the goroutine has not entered its `select` or has returned, when the case is not ready, or when
the send on `c` blocks. -/
def warpClock.helperRun (w : warpClock) (k : Nat) (closed : Bool) : Option warpClock :=
  match w.helpers[k]? with
  | none => none
  | some h =>
    if h.returned then none
    else
      match h.ch with
      | none => none
      | some ch =>
        if closed then
          if w.signals.getD h.close false then
            some { w with signals := w.signals.set h.done true,
                          helpers := w.helpers.set k { h with returned := true } }
          else none
        else
          match w.clock.buf ch with
          | [] => none
          | v :: rest =>
            match send (w.clock.chans.set ch rest) h.c v with
            | some chans =>
              some { clock := { w.clock with chans := chans },
                     signals := w.signals.set h.done true,
                     helpers := w.helpers.set k { h with returned := true } }
            | none => none

/-- Two calls of `Stop()` in a row on a new timer of the settable clock, made by `Timer(d)` on a
new clock: the result of the second call, `none` if one of the calls panics. -/
def stopTwice (d : Int) : Option Bool :=
  match NewFakeClock.Timer d with
  | some (t, w1) =>
    match w1.Stop t with
    | some (_, w2) =>
      match w2.Stop t with
      | some (r, _) => some r
      | none => none
    | none => none
  | none => none

/-- Two calls of `Stop()` in a row on a new timer of the warping clock, made by `Timer(d)` on a
new clock: the result of the second call, `none` if one of the calls panics. -/
def stopTwiceWarping (d : Int) : Option Bool :=
  match ((NewWarpClock 0).Timer d).2.Stop ((NewWarpClock 0).Timer d).1 with
  | some (_, w2) =>
    match w2.Stop ((NewWarpClock 0).Timer d).1 with
    | some (r, _) => some r
    | none => none
  | none => none

end gotime

/-! # Theorems -/

/-! ## Lists: exchanging two positions -/

section ListFacts

variable {α : Type}

theorem cons_set_perm (x b : α) : ∀ (xs : List α) (j : Nat), xs[j]? = some b →
    List.Perm (b :: xs.set j x) (x :: xs)
  | [], j, h => by simp at h
  | y :: ys, 0, h => by
    simp at h
    subst h
    simpa using List.Perm.swap x y ys
  | y :: ys, j + 1, h => by
    have h1 : ys[j]? = some b := by simpa using h
    have ih := cons_set_perm x b ys j h1
    simp only [List.set_cons_succ]
    exact (List.Perm.swap y b _).trans (((List.Perm.cons y ih)).trans (List.Perm.swap x y ys))

theorem set_set_perm_of_getElem? : ∀ (l : List α) (i j : Nat) (a b : α),
    l[i]? = some a → l[j]? = some b → List.Perm ((l.set i b).set j a) l
  | [], i, _, _, _, h, _ => by simp at h
  | x :: xs, 0, 0, a, b, hi, hj => by
    simp at hi hj
    subst hi
    simp
  | x :: xs, 0, j + 1, a, b, hi, hj => by
    simp at hi
    subst hi
    have h1 : xs[j]? = some b := by simpa using hj
    simpa using cons_set_perm x b xs j h1
  | x :: xs, i + 1, 0, a, b, hi, hj => by
    simp at hj
    subst hj
    have h1 : xs[i]? = some a := by simpa using hi
    simpa using cons_set_perm x a xs i h1
  | x :: xs, i + 1, j + 1, a, b, hi, hj => by
    have h1 : xs[i]? = some a := by simpa using hi
    have h2 : xs[j]? = some b := by simpa using hj
    simpa using set_set_perm_of_getElem? xs i j a b h1 h2

end ListFacts

/-! ## `Swap` -/

namespace queue

theorem item.ent_index (x : item) (v : Int) : ({ x with index := v } : item).ent = x.ent := rfl

theorem timeQueue.elem_eq_getElem (o : timeQueue) (k : Nat) (h : k < o.Len) :
    o.items[k]? = some (o.elem k) := by
  unfold timeQueue.Len at h
  simp [timeQueue.elem, h]

theorem timeQueue.elem_mem (o : timeQueue) (k : Nat) (h : k < o.Len) : o.elem k ∈ o.items :=
  List.mem_iff_getElem?.2 ⟨k, o.elem_eq_getElem k h⟩

theorem timeQueue.exists_elem_of_mem (o : timeQueue) (x : item) (h : x ∈ o.items) :
    ∃ k, k < o.Len ∧ o.elem k = x := by
  obtain ⟨k, hk, rfl⟩ := List.mem_iff_getElem.1 h
  exact ⟨k, hk, by simp [timeQueue.elem, hk]⟩

theorem timeQueue.Swap_counter (o : timeQueue) (i j : Nat) : (o.Swap i j).counter = o.counter :=
  rfl

theorem timeQueue.Swap_Len (o : timeQueue) (i j : Nat) : (o.Swap i j).Len = o.Len := by
  simp [timeQueue.Swap, timeQueue.Len]

theorem timeQueue.Swap_elem (o : timeQueue) (i j k : Nat) (hi : i < o.Len) (hj : j < o.Len) :
    (o.Swap i j).elem k =
      if k = j then { o.elem i with index := (j : Int) }
      else if k = i then { o.elem j with index := (i : Int) }
      else o.elem k := by
  unfold timeQueue.Len at hi hj
  simp only [timeQueue.Swap, timeQueue.elem, List.getD_eq_getElem?_getD, List.getElem?_set,
    List.length_set]
  by_cases h1 : k = j
  · subst h1
    by_cases h2 : i = k
    · subst h2
      simp [hi]
    · simp [hi, hj, h2]
  · by_cases h2 : k = i
    · subst h2
      have h3 : ¬ j = k := fun h => h1 h.symm
      simp [hi, hj, h1, h3]
    · have h3 : ¬ j = k := fun h => h1 h.symm
      have h4 : ¬ i = k := fun h => h2 h.symm
      simp [h1, h2, h3, h4]

theorem timeQueue.map_ent_set_index (l : List item) (j : Nat) (v : Int) :
    (l.set j { l.getD j default with index := v }).map item.ent = l.map item.ent := by
  apply List.ext_getElem?
  intro k
  simp only [List.getElem?_map, List.getElem?_set, List.getD_eq_getElem?_getD]
  by_cases h : j = k
  · subst h
    by_cases hl : j < l.length
    · simp [hl, item.ent]
    · simp [hl, List.getElem?_eq_none (Nat.le_of_not_lt hl)]
  · simp [h]

theorem timeQueue.Swap_ents (o : timeQueue) (i j : Nat) (hi : i < o.Len) (hj : j < o.Len) :
    List.Perm (o.Swap i j).ents o.ents := by
  have e : (o.Swap i j).ents = ((o.items.set i (o.elem j)).set j (o.elem i)).map item.ent := by
    simp only [timeQueue.Swap, timeQueue.ents, timeQueue.elem]
    rw [timeQueue.map_ent_set_index, timeQueue.map_ent_set_index]
  rw [e]
  exact (set_set_perm_of_getElem? o.items i j _ _ (o.elem_eq_getElem i hi)
    (o.elem_eq_getElem j hj)).map _

end queue

/-! ## The frame of `Swap`, `up` and `down` -/

namespace queue

theorem timeQueue.Swap_key (o : timeQueue) (i j k : Nat) (hi : i < o.Len) (hj : j < o.Len) :
    (o.Swap i j).key k = if k = j then o.key i else if k = i then o.key j else o.key k := by
  unfold timeQueue.key
  rw [o.Swap_elem i j k hi hj]
  split_ifs <;> rfl

theorem timeQueue.Swap_IndexOk (o : timeQueue) (i j : Nat) (hi : i < o.Len) (hj : j < o.Len)
    (h : o.IndexOk) : (o.Swap i j).IndexOk := by
  intro k hk
  rw [o.Swap_Len] at hk
  rw [o.Swap_elem i j k hi hj]
  split_ifs with h1 h2
  · simp [h1]
  · simp [h2]
  · exact h k hk

theorem timeQueue.Frame.refl (o : timeQueue) (n : Nat) : o.Frame o n :=
  ⟨rfl, rfl, List.Perm.refl _, fun _ _ => rfl, id⟩

theorem timeQueue.Frame.trans {a b c : timeQueue} {n : Nat} (h1 : a.Frame b n)
    (h2 : b.Frame c n) : a.Frame c n :=
  ⟨h2.counter.trans h1.counter, h2.len.trans h1.len, h2.perm.trans h1.perm,
    fun k hk => (h2.above k hk).trans (h1.above k hk), fun h => h2.index (h1.index h)⟩

theorem timeQueue.Swap_Frame (o : timeQueue) (i j n : Nat) (hi : i < n) (hj : j < n)
    (hn : n ≤ o.Len) : o.Frame (o.Swap i j) n := by
  have hi' : i < o.Len := Nat.lt_of_lt_of_le hi hn
  have hj' : j < o.Len := Nat.lt_of_lt_of_le hj hn
  refine ⟨rfl, o.Swap_Len i j, o.Swap_ents i j hi' hj', ?_, o.Swap_IndexOk i j hi' hj'⟩
  intro k hk
  rw [o.Swap_elem i j k hi' hj']
  have h1 : ¬ k = j := by omega
  have h2 : ¬ k = i := by omega
  simp [h1, h2]

end queue

namespace heap

open queue

theorem upLoop_Frame : ∀ (fuel : Nat) (o : timeQueue) (j n : Nat), j < n → n ≤ o.Len →
    o.Frame (upLoop fuel o j) n
  | 0, o, _, n, _, _ => timeQueue.Frame.refl o n
  | fuel + 1, o, j, n, hj, hn => by
    simp only [upLoop]
    split_ifs with h
    · exact timeQueue.Frame.refl o n
    · have hi : (j - 1) / 2 < n := by omega
      have f1 := o.Swap_Frame ((j - 1) / 2) j n hi hj hn
      have f2 := upLoop_Frame fuel (o.Swap ((j - 1) / 2) j) ((j - 1) / 2) n hi
        (by rw [o.Swap_Len]; exact hn)
      exact f1.trans f2

theorem downLoop_Frame : ∀ (fuel : Nat) (o : timeQueue) (i n : Nat), i < n → n ≤ o.Len →
    o.Frame (downLoop fuel o i n).1 n
  | 0, o, _, n, _, _ => timeQueue.Frame.refl o n
  | fuel + 1, o, i, n, hi, hn => by
    simp only [downLoop]
    split_ifs with h1 h2 h3 h4
    · exact timeQueue.Frame.refl o n
    · exact timeQueue.Frame.refl o n
    · have hj : 2 * i + 1 + 1 < n := h2.1
      have f1 := o.Swap_Frame i (2 * i + 1 + 1) n hi hj hn
      have f2 := downLoop_Frame fuel (o.Swap i (2 * i + 1 + 1)) (2 * i + 1 + 1) n hj
        (by rw [o.Swap_Len]; exact hn)
      exact f1.trans f2
    · exact timeQueue.Frame.refl o n
    · have hj : 2 * i + 1 < n := by omega
      have f1 := o.Swap_Frame i (2 * i + 1) n hi hj hn
      have f2 := downLoop_Frame fuel (o.Swap i (2 * i + 1)) (2 * i + 1) n hj
        (by rw [o.Swap_Len]; exact hn)
      exact f1.trans f2

theorem downLoop_index_le : ∀ (fuel : Nat) (o : timeQueue) (i n : Nat),
    i ≤ (downLoop fuel o i n).2
  | 0, _, _, _ => Nat.le_refl _
  | fuel + 1, o, i, n => by
    simp only [downLoop]
    split_ifs with h1 h2 h3 h4
    · exact Nat.le_refl _
    · exact Nat.le_refl _
    · have := downLoop_index_le fuel (o.Swap i (2 * i + 1 + 1)) (2 * i + 1 + 1) n
      omega
    · exact Nat.le_refl _
    · have := downLoop_index_le fuel (o.Swap i (2 * i + 1)) (2 * i + 1) n
      omega

end heap

/-! ## Heap order through `up` and `down` -/

theorem parent_lt (j : Nat) (h : 0 < j) : (j - 1) / 2 < j := by omega

theorem upInv_step (f g : Nat → Int) (n j : Nat) (hj0 : 0 < j)
    (hg : ∀ k, g k = if k = j then f ((j - 1) / 2) else if k = (j - 1) / 2 then f j else f k)
    (hlt : f j < f ((j - 1) / 2))
    (h1 : ∀ k, 0 < k → k < n → k ≠ j → f ((k - 1) / 2) ≤ f k)
    (h2 : ∀ k, 0 < k → k < n → (k - 1) / 2 = j → 0 < j → f ((j - 1) / 2) ≤ f k) :
    (∀ k, 0 < k → k < n → k ≠ (j - 1) / 2 → g ((k - 1) / 2) ≤ g k) ∧
    (∀ k, 0 < k → k < n → (k - 1) / 2 = (j - 1) / 2 → 0 < (j - 1) / 2 →
      g (((j - 1) / 2 - 1) / 2) ≤ g k) := by
  have hp : (j - 1) / 2 < j := parent_lt j hj0
  constructor
  · intro k hk0 hkn hkp
    rw [hg k, hg ((k - 1) / 2)]
    by_cases hkj : k = j
    · subst hkj
      have e1 : ¬ (k - 1) / 2 = k := by omega
      simp only [e1, if_true, if_false]
      omega
    · have a1 := h1 k hk0 hkn hkj
      simp only [hkj, hkp, if_false]
      by_cases hq : (k - 1) / 2 = j
      · have a2 := h2 k hk0 hkn hq hj0
        simp only [hq, if_true]
        exact a2
      · simp only [hq, if_false]
        by_cases hq2 : (k - 1) / 2 = (j - 1) / 2
        · simp only [hq2, if_true]
          rw [hq2] at a1
          omega
        · simp only [hq2, if_false]
          exact a1
  · intro k hk0 hkn hkp hp0
    have hpp : ((j - 1) / 2 - 1) / 2 < (j - 1) / 2 := parent_lt _ hp0
    have a3 := h1 ((j - 1) / 2) hp0 (by omega) (by omega)
    rw [hg k, hg (((j - 1) / 2 - 1) / 2)]
    have e1 : ¬ ((j - 1) / 2 - 1) / 2 = j := by omega
    have e2 : ¬ ((j - 1) / 2 - 1) / 2 = (j - 1) / 2 := by omega
    simp only [e1, e2, if_false]
    by_cases hkj : k = j
    · simp only [hkj, if_true]
      exact a3
    · have e3 : ¬ k = (j - 1) / 2 := by omega
      have a1 := h1 k hk0 hkn hkj
      rw [hkp] at a1
      simp only [hkj, e3, if_false]
      omega

theorem downInv_step (f g : Nat → Int) (n i j : Nat) (hj : j = 2 * i + 1 ∨ j = 2 * i + 2)
    (hg : ∀ k, g k = if k = j then f i else if k = i then f j else f k)
    (hmin : ∀ k, 0 < k → k < n → (k - 1) / 2 = i → f j ≤ f k)
    (hlt : f j < f i)
    (h1 : ∀ k, 0 < k → k < n → k ≠ i → (k - 1) / 2 ≠ i → f ((k - 1) / 2) ≤ f k)
    (h2 : ∀ k, 0 < k → k < n → (k - 1) / 2 = i → 0 < i → f ((i - 1) / 2) ≤ f k) (hjn : j < n) :
    (∀ k, 0 < k → k < n → k ≠ j → (k - 1) / 2 ≠ j → g ((k - 1) / 2) ≤ g k) ∧
    (∀ k, 0 < k → k < n → (k - 1) / 2 = j → 0 < j → g ((j - 1) / 2) ≤ g k) ∧
    g ((j - 1) / 2) ≤ g j := by
  have hpj : (j - 1) / 2 = i := by omega
  have hij : ¬ i = j := by omega
  have hj0 : 0 < j := by omega
  refine ⟨?_, ?_, ?_⟩
  · intro k hk0 hkn hkj hqj
    rw [hg k, hg ((k - 1) / 2)]
    simp only [hkj, hqj, if_false]
    by_cases hki : k = i
    · subst hki
      have e1 : ¬ (k - 1) / 2 = k := by omega
      simp only [e1, if_true, if_false]
      exact h2 j hj0 hjn hpj hk0
    · simp only [hki, if_false]
      by_cases hq : (k - 1) / 2 = i
      · simp only [hq, if_true]
        exact hmin k hk0 hkn hq
      · simp only [hq, if_false]
        exact h1 k hk0 hkn hki hq
  · intro k hk0 hkn hq _
    rw [hg k, hg ((j - 1) / 2), hpj]
    have e1 : ¬ k = j := by omega
    have e2 : ¬ k = i := by omega
    simp only [e1, e2, hij, if_true, if_false]
    have a1 := h1 k hk0 hkn e2 (by omega)
    rw [hq] at a1
    exact a1
  · rw [hg j, hg ((j - 1) / 2), hpj]
    simp only [hij, if_true, if_false]
    omega

namespace queue

theorem timeQueue.Less_iff (o : timeQueue) (a b : Nat) :
    o.Less a b = true ↔ o.key a < o.key b := by
  simp [timeQueue.Less, timeQueue.key]

theorem timeQueue.UpInv.heapUpto {o : timeQueue} {n j : Nat} (h : o.UpInv n j)
    (hp : 0 < j → o.key ((j - 1) / 2) ≤ o.key j) : o.HeapUpto n := by
  intro k hk0 hkn
  by_cases hkj : k = j
  · subst hkj
    exact hp hk0
  · exact h.1 k hk0 hkn hkj

theorem timeQueue.DownInv.to_upInv {o : timeQueue} {n i : Nat} (h : o.DownInv n i)
    (hc : ∀ k, 0 < k → k < n → (k - 1) / 2 = i → o.key i ≤ o.key k) : o.UpInv n i := by
  refine ⟨?_, h.2⟩
  intro k hk0 hkn hki
  by_cases hq : (k - 1) / 2 = i
  · rw [hq]
    exact hc k hk0 hkn hq
  · exact h.1 k hk0 hkn hki hq

theorem timeQueue.HeapUpto.upInv_at {o : timeQueue} {n : Nat} (h : o.HeapUpto n) (j : Nat) :
    o.UpInv n j := by
  refine ⟨fun k hk0 hkn _ => h k hk0 hkn, ?_⟩
  intro k hk0 hkn hq hj0
  have a1 := h k hk0 hkn
  have a2 := h j hj0 (by omega)
  rw [hq] at a1
  omega

end queue

namespace heap
open queue

theorem upLoop_HeapUpto : ∀ (fuel : Nat) (o : timeQueue) (j n : Nat), j < fuel → j < n →
    n ≤ o.Len → o.UpInv n j → (upLoop fuel o j).HeapUpto n
  | 0, _, _, _, hf, _, _, _ => absurd hf (Nat.not_lt_zero _)
  | fuel + 1, o, j, n, hf, hj, hn, hinv => by
    simp only [upLoop]
    split_ifs with h
    · apply hinv.heapUpto
      intro hj0
      rcases h with h | h
      · omega
      · have := (o.Less_iff j ((j - 1) / 2)).not.1 (by simpa using h)
        omega
    · have hne : ¬ (j - 1) / 2 = j := fun e => h (Or.inl e)
      have hj0 : 0 < j := by omega
      have hlt : o.key j < o.key ((j - 1) / 2) := by
        apply (o.Less_iff j ((j - 1) / 2)).1
        by_contra hc
        exact h (Or.inr (by simpa using hc))
      have hi : (j - 1) / 2 < o.Len := by omega
      have hj' : j < o.Len := by omega
      have st := upInv_step o.key (o.Swap ((j - 1) / 2) j).key n j hj0
        (fun k => o.Swap_key ((j - 1) / 2) j k hi hj') hlt hinv.1 hinv.2
      exact upLoop_HeapUpto fuel (o.Swap ((j - 1) / 2) j) ((j - 1) / 2) n (by omega) (by omega)
        (by rw [o.Swap_Len]; exact hn) st

theorem downLoop_spec : ∀ (fuel : Nat) (o : timeQueue) (i n : Nat), n ≤ fuel + i → i < n →
    n ≤ o.Len → o.DownInv n i →
    (downLoop fuel o i n = (o, i) ∧ o.UpInv n i) ∨
      (i < (downLoop fuel o i n).2 ∧ (downLoop fuel o i n).1.HeapUpto n)
  | 0, _, _, _, hf, hi, _, _ => by omega
  | fuel + 1, o, i, n, hf, hi, hn, hinv => by
    have hstep : ∀ j, (j = 2 * i + 1 ∨ j = 2 * i + 2) → j < n →
        (∀ k, 0 < k → k < n → (k - 1) / 2 = i → o.key j ≤ o.key k) → o.key j < o.key i →
        (i < (downLoop fuel (o.Swap i j) j n).2 ∧
          (downLoop fuel (o.Swap i j) j n).1.HeapUpto n) := by
      intro j hj hjn hmin hlt
      have st := downInv_step o.key (o.Swap i j).key n i j hj
        (fun k => o.Swap_key i j k (by omega) (by omega)) hmin hlt hinv.1 hinv.2 hjn
      have hd : (o.Swap i j).DownInv n j := ⟨st.1, st.2.1⟩
      rcases downLoop_spec fuel (o.Swap i j) j n (by omega) hjn
        (by rw [o.Swap_Len]; exact hn) hd with ⟨e, hu⟩ | ⟨hlt2, hh⟩
      · rw [e]
        exact ⟨by show i < j; omega, hu.heapUpto (fun _ => st.2.2)⟩
      · exact ⟨by omega, hh⟩
    simp only [downLoop]
    split_ifs with h1 h2 h3 h4
    · left
      refine ⟨rfl, hinv.to_upInv ?_⟩
      intro k hk0 hkn hq
      omega
    · left
      refine ⟨rfl, hinv.to_upInv ?_⟩
      have a1 := (o.Less_iff (2 * i + 1 + 1) (2 * i + 1)).1 h2.2
      have a2 := (o.Less_iff (2 * i + 1 + 1) i).not.1 (by simpa using h3)
      intro k hk0 hkn hq
      have hk : k = 2 * i + 1 ∨ k = 2 * i + 1 + 1 := by omega
      rcases hk with rfl | rfl <;> omega
    · right
      have a1 := (o.Less_iff (2 * i + 1 + 1) (2 * i + 1)).1 h2.2
      have a2 : o.key (2 * i + 1 + 1) < o.key i := by
        apply (o.Less_iff _ _).1
        by_contra hc
        exact h3 (by simpa using hc)
      apply hstep (2 * i + 1 + 1) (Or.inr rfl) h2.1 _ a2
      intro k hk0 hkn hq
      have hk : k = 2 * i + 1 ∨ k = 2 * i + 1 + 1 := by omega
      rcases hk with rfl | rfl <;> omega
    · left
      refine ⟨rfl, hinv.to_upInv ?_⟩
      have a2 := (o.Less_iff (2 * i + 1) i).not.1 (by simpa using h4)
      intro k hk0 hkn hq
      have hk : k = 2 * i + 1 ∨ k = 2 * i + 1 + 1 := by omega
      rcases hk with rfl | rfl
      · omega
      · have a1 := (o.Less_iff (2 * i + 1 + 1) (2 * i + 1)).not.1 (fun hc => h2 ⟨hkn, hc⟩)
        omega
    · right
      have a2 : o.key (2 * i + 1) < o.key i := by
        apply (o.Less_iff _ _).1
        by_contra hc
        exact h4 (by simpa using hc)
      apply hstep (2 * i + 1) (Or.inl rfl) (by omega) _ a2
      intro k hk0 hkn hq
      have hk : k = 2 * i + 1 ∨ k = 2 * i + 1 + 1 := by omega
      rcases hk with rfl | rfl
      · omega
      · have a1 := (o.Less_iff (2 * i + 1 + 1) (2 * i + 1)).not.1 (fun hc => h2 ⟨hkn, hc⟩)
        omega

end heap

/-! ## Fuel -/

namespace heap
open queue

theorem upLoop_fuel : ∀ (f1 f2 : Nat) (o : timeQueue) (j : Nat), j < f1 → j < f2 →
    upLoop f1 o j = upLoop f2 o j
  | 0, _, _, _, h, _ => absurd h (Nat.not_lt_zero _)
  | _ + 1, 0, _, _, _, h => absurd h (Nat.not_lt_zero _)
  | f1 + 1, f2 + 1, o, j, h1, h2 => by
    simp only [upLoop]
    split_ifs with h
    · rfl
    · have hne : ¬ (j - 1) / 2 = j := fun e => h (Or.inl e)
      exact upLoop_fuel f1 f2 _ _ (by omega) (by omega)

theorem downLoop_fuel : ∀ (f1 f2 : Nat) (o : timeQueue) (i n : Nat), n ≤ f1 + i → n ≤ f2 + i →
    downLoop f1 o i n = downLoop f2 o i n
  | 0, 0, _, _, _, _, _ => rfl
  | 0, f2 + 1, o, i, n, h1, _ => by
    simp only [downLoop]
    rw [if_pos (by omega)]
  | f1 + 1, 0, o, i, n, _, h2 => by
    simp only [downLoop]
    rw [if_pos (by omega)]
  | f1 + 1, f2 + 1, o, i, n, h1, h2 => by
    simp only [downLoop]
    split_ifs with a b c d
    · rfl
    · rfl
    · exact downLoop_fuel f1 f2 _ _ n (by omega) (by omega)
    · rfl
    · exact downLoop_fuel f1 f2 _ _ n (by omega) (by omega)

end heap

/-! ## `Push`, `Pop` and `Remove` -/

namespace queue

theorem timeQueue.Push_Len (o : timeQueue) (x : item) : (o.Push x).Len = o.Len + 1 := by
  simp [timeQueue.Push, timeQueue.Len]

theorem timeQueue.Push_elem_lt (o : timeQueue) (x : item) (k : Nat) (h : k < o.Len) :
    (o.Push x).elem k = o.elem k := by
  unfold timeQueue.Len at h
  simp [timeQueue.Push, timeQueue.elem, List.getElem?_append, h]

theorem timeQueue.Push_elem_last (o : timeQueue) (x : item) :
    (o.Push x).elem o.Len = { x with index := (o.Len : Int) } := by
  simp [timeQueue.Push, timeQueue.elem, timeQueue.Len, List.getElem?_append]

theorem timeQueue.Push_ents (o : timeQueue) (x : item) :
    (o.Push x).ents = o.ents ++ [x.ent] := by
  simp [timeQueue.Push, timeQueue.ents, item.ent]

theorem timeQueue.Push_IndexOk (o : timeQueue) (x : item) (h : o.IndexOk) :
    (o.Push x).IndexOk := by
  intro k hk
  rw [o.Push_Len] at hk
  by_cases hk' : k < o.Len
  · rw [o.Push_elem_lt x k hk']
    exact h k hk'
  · have e : k = o.Len := by omega
    subst e
    rw [o.Push_elem_last]

theorem timeQueue.Pop_fst (o : timeQueue) :
    o.Pop.1 = { o.elem (o.Len - 1) with index := -1 } := rfl

theorem timeQueue.Pop_counter (o : timeQueue) : o.Pop.2.counter = o.counter := rfl

theorem timeQueue.Pop_Len (o : timeQueue) : o.Pop.2.Len = o.Len - 1 := by
  simp [timeQueue.Pop, timeQueue.Len]

theorem timeQueue.Pop_elem (o : timeQueue) (k : Nat) (h : k < o.Len - 1) :
    o.Pop.2.elem k = o.elem k := by
  unfold timeQueue.Len at h
  simp [timeQueue.Pop, timeQueue.elem, List.getElem?_take_of_lt h]

theorem timeQueue.Pop_ents (o : timeQueue) (h : 0 < o.Len) :
    o.ents = o.Pop.2.ents ++ [(o.elem (o.Len - 1)).ent] := by
  have h1 := o.elem_eq_getElem (o.Len - 1) (by omega)
  unfold timeQueue.Len at h h1
  have h2 : o.items = o.items.take (o.items.length - 1) ++ [o.elem (o.items.length - 1)] := by
    conv_lhs => rw [← List.take_length o.items]
    have e : o.items.length = (o.items.length - 1) + 1 := by omega
    conv_lhs => rw [e, List.take_succ, h1]
    simp
  simp only [timeQueue.ents, timeQueue.Pop, timeQueue.Len]
  conv_lhs => rw [h2]
  simp

end queue

namespace queue

theorem timeQueue.HeapUpto.congr {a b : timeQueue} {n : Nat} (h : a.HeapUpto n)
    (e : ∀ k, k < n → b.elem k = a.elem k) : b.HeapUpto n := by
  intro k hk0 hkn
  have := h k hk0 hkn
  unfold timeQueue.key at *
  rw [e k hkn, e ((k - 1) / 2) (by omega)]
  exact this

theorem timeQueue.HeapUpto.root_le_key {o : timeQueue} {n : Nat} (h : o.HeapUpto n) :
    ∀ k, k < n → o.key 0 ≤ o.key k := by
  intro k
  induction k using Nat.strong_induction_on with
  | _ k ih =>
    intro hk
    by_cases hk0 : k = 0
    · subst hk0
      exact le_refl _
    · have h1 := h k (by omega) hk
      have h2 := ih ((k - 1) / 2) (by omega) (by omega)
      omega

/-- Popping the last slot of a queue `h2` that holds the entries of `o`, is a heap below its last
slot and has the entry `x` in its last slot, takes `x` out of `o`. -/
theorem timeQueue.Removes.of_Pop (o h2 : timeQueue) (x : item) (hlen : 0 < o.Len)
    (hc : h2.counter = o.counter) (hl : h2.Len = o.Len) (hp : List.Perm h2.ents o.ents)
    (hi : o.IndexOk → h2.IndexOk) (hh : h2.HeapUpto (o.Len - 1))
    (hx : (h2.elem (o.Len - 1)).ent = x.ent) : o.Removes x h2.Pop := by
  have hl2 : h2.Pop.2.Len = o.Len - 1 := by rw [h2.Pop_Len, hl]
  refine ⟨?_, ?_, ?_, ?_, ?_, ?_⟩
  · rw [h2.Pop_fst, hl, item.ent_index, hx]
  · rw [h2.Pop_counter, hc]
  · rw [hl2]
    omega
  · have e := h2.Pop_ents (by omega)
    rw [hl, hx] at e
    have p1 : List.Perm ([x.ent] ++ h2.Pop.2.ents) (h2.Pop.2.ents ++ [x.ent]) :=
      List.perm_append_comm
    rw [← e] at p1
    exact p1.trans hp
  · rw [hl2]
    apply hh.congr
    intro k hk
    exact h2.Pop_elem k (by omega)
  · intro hio k hk
    rw [hl2] at hk
    rw [h2.Pop_elem k (by omega)]
    exact hi hio k (by omega)

end queue

namespace heap
open queue

theorem Push_spec (o : timeQueue) (x : item) (hh : o.HeapUpto o.Len) :
    (Push o x).counter = o.counter ∧ (Push o x).Len = o.Len + 1 ∧
    List.Perm (Push o x).ents (x.ent :: o.ents) ∧ (Push o x).HeapUpto (Push o x).Len ∧
    (o.IndexOk → (Push o x).IndexOk) := by
  have hl := o.Push_Len x
  have hu : (o.Push x).UpInv (o.Len + 1) o.Len := by
    constructor
    · intro k hk0 hkn hk
      have := hh k hk0 (by omega)
      unfold timeQueue.key at *
      rw [o.Push_elem_lt x k (by omega), o.Push_elem_lt x _ (by omega)]
      exact this
    · intro k hk0 hkn hq
      omega
  have fr := upLoop_Frame (o.Len + 1) (o.Push x) o.Len (o.Len + 1) (by omega) (by omega)
  have hp := upLoop_HeapUpto (o.Len + 1) (o.Push x) o.Len (o.Len + 1) (by omega) (by omega)
    (by omega) hu
  have e : Push o x = upLoop (o.Len + 1) (o.Push x) o.Len := by
    simp only [Push, up, hl]
    rfl
  rw [e]
  refine ⟨fr.counter, by rw [fr.len, hl], ?_, ?_, fun h => fr.index (o.Push_IndexOk x h)⟩
  · refine fr.perm.trans ?_
    rw [o.Push_ents]
    exact List.perm_append_comm
  · rw [fr.len, hl]
    exact hp

/-- After `Swap(i, n)` with `n` the last position, the first `n` positions satisfy the loop
invariant of `down` at `i`. -/
theorem Swap_last_DownInv (o : timeQueue) (i : Nat) (hh : o.HeapUpto o.Len)
    (hi : i < o.Len - 1) : (o.Swap i (o.Len - 1)).DownInv (o.Len - 1) i := by
  have key_eq : ∀ k, k < o.Len - 1 → k ≠ i → (o.Swap i (o.Len - 1)).key k = o.key k := by
    intro k hk hki
    rw [o.Swap_key i (o.Len - 1) k (by omega) (by omega)]
    have e1 : ¬ k = o.Len - 1 := by omega
    simp [e1, hki]
  constructor
  · intro k hk0 hkn hki hq
    rw [key_eq k hkn hki, key_eq _ (by omega) hq]
    exact hh k hk0 (by omega)
  · intro k hk0 hkn hq hi0
    rw [key_eq k hkn (by omega), key_eq _ (by omega) (by omega)]
    have a1 := hh k hk0 (by omega)
    have a2 := hh i hi0 (by omega)
    rw [hq] at a1
    omega

theorem Swap_last_elem (o : timeQueue) (i : Nat) (hi : i < o.Len) :
    ((o.Swap i (o.Len - 1)).elem (o.Len - 1)).ent = (o.elem i).ent := by
  rw [o.Swap_elem i (o.Len - 1) (o.Len - 1) hi (by omega)]
  simp [item.ent]

theorem Pop_spec (o : timeQueue) (hh : o.HeapUpto o.Len) (hlen : 0 < o.Len) :
    o.Removes (o.elem 0) (Pop o) := by
  have f1 := o.Swap_Frame 0 (o.Len - 1) o.Len hlen (by omega) (Nat.le_refl _)
  have hx := Swap_last_elem o 0 hlen
  have hl1 : o.Len - 1 ≤ (o.Swap 0 (o.Len - 1)).Len := by rw [f1.len]; omega
  simp only [Pop, down]
  by_cases hn : o.Len - 1 = 0
  · have e : downLoop (o.Len - 1) (o.Swap 0 (o.Len - 1)) 0 (o.Len - 1)
        = (o.Swap 0 (o.Len - 1), 0) := by
      rw [hn]
      rfl
    rw [e]
    refine timeQueue.Removes.of_Pop o _ _ hlen f1.counter f1.len f1.perm f1.index ?_ hx
    intro k hk0 hkn
    omega
  · have hn0 : 0 < o.Len - 1 := by omega
    have f2 := downLoop_Frame (o.Len - 1) (o.Swap 0 (o.Len - 1)) 0 (o.Len - 1) hn0 hl1
    have hd := Swap_last_DownInv o 0 hh hn0
    have sp := downLoop_spec (o.Len - 1) (o.Swap 0 (o.Len - 1)) 0 (o.Len - 1) (by omega) hn0
      hl1 hd
    refine timeQueue.Removes.of_Pop o _ _ hlen (f2.counter.trans f1.counter)
      (f2.len.trans f1.len) (f2.perm.trans f1.perm) (fun h => f2.index (f1.index h)) ?_ ?_
    · rcases sp with ⟨e, hu⟩ | ⟨_, h⟩
      · rw [e]
        exact hu.heapUpto (fun h0 => absurd h0 (Nat.lt_irrefl 0))
      · exact h
    · rw [f2.above _ (Nat.le_refl _)]
      exact hx

theorem Remove_spec (o : timeQueue) (i : Nat) (hh : o.HeapUpto o.Len) (hi : i < o.Len) :
    o.Removes (o.elem i) (Remove o i) := by
  simp only [Remove, down]
  by_cases hn : o.Len - 1 = i
  · rw [if_neg (by simpa using hn)]
    subst hn
    refine timeQueue.Removes.of_Pop o o _ (by omega) rfl rfl (List.Perm.refl _) id ?_ rfl
    intro k hk0 hkn
    exact hh k hk0 (by omega)
  · rw [if_pos (by simpa using hn)]
    have hin : i < o.Len - 1 := by omega
    have f1 := o.Swap_Frame i (o.Len - 1) o.Len hi (by omega) (Nat.le_refl _)
    have hx := Swap_last_elem o i hi
    have hl1 : o.Len - 1 ≤ (o.Swap i (o.Len - 1)).Len := by rw [f1.len]; omega
    have f2 := downLoop_Frame (o.Len - 1) (o.Swap i (o.Len - 1)) i (o.Len - 1) hin hl1
    have hd := Swap_last_DownInv o i hh hin
    have sp := downLoop_spec (o.Len - 1) (o.Swap i (o.Len - 1)) i (o.Len - 1) (by omega) hin
      hl1 hd
    rcases sp with ⟨e, hu⟩ | ⟨hlt, h⟩
    · rw [e]
      simp only [Nat.lt_irrefl, decide_False, Bool.not_false, if_true]
      have f3 := upLoop_Frame (i + 1) (o.Swap i (o.Len - 1)) i (o.Len - 1) hin hl1
      have h3 := upLoop_HeapUpto (i + 1) (o.Swap i (o.Len - 1)) i (o.Len - 1) (by omega) hin
        hl1 hu
      refine timeQueue.Removes.of_Pop o _ _ (by omega) (f3.counter.trans f1.counter)
        (f3.len.trans f1.len) (f3.perm.trans f1.perm) (fun h => f3.index (f1.index h)) h3 ?_
      show ((upLoop (i + 1) (o.Swap i (o.Len - 1)) i).elem (o.Len - 1)).ent = _
      rw [f3.above _ (Nat.le_refl _)]
      exact hx
    · simp only [hlt, decide_True, Bool.not_true, Bool.false_eq_true, if_false]
      refine timeQueue.Removes.of_Pop o _ _ (by omega) (f2.counter.trans f1.counter)
        (f2.len.trans f1.len) (f2.perm.trans f1.perm) (fun h => f2.index (f1.index h)) h ?_
      rw [f2.above _ (Nat.le_refl _)]
      exact hx

end heap

/-! ## The queue operations keep the invariant -/

namespace queue

theorem timeQueue.ids_eq (o : timeQueue) : o.items.map item.id = o.ents.map Prod.fst := by
  simp [timeQueue.ents, item.ent, Function.comp_def]

theorem timeQueue.mem_ents {o : timeQueue} {e : Nat × Int × Nat} :
    e ∈ o.ents ↔ ∃ x ∈ o.items, x.ent = e := by
  simp [timeQueue.ents]

theorem timeQueue.Inv.new : NewTimeQueue.Inv := by
  refine ⟨?_, ?_, ?_, ?_⟩
  · intro k _ hk
    exact absurd hk (Nat.not_lt_zero _)
  · intro k hk
    exact absurd hk (Nat.not_lt_zero _)
  · simp [NewTimeQueue]
  · simp [NewTimeQueue]

theorem timeQueue.Inv.root_le_of_mem {o : timeQueue} (h : o.Inv) (x : item) (hx : x ∈ o.items) :
    o.key 0 ≤ x.t := by
  obtain ⟨k, hk, rfl⟩ := o.exists_elem_of_mem x hx
  exact h.heap.root_le_key k hk

theorem timeQueue.Add_spec (o : timeQueue) (t : Int) (ch : Nat) (h : o.Inv) :
    (o.Add t ch).1 = o.counter ∧ (o.Add t ch).2.Inv ∧
    (o.Add t ch).2.counter = o.counter + 1 ∧ (o.Add t ch).2.Len = o.Len + 1 ∧
    List.Perm (o.Add t ch).2.ents ((o.counter, t, ch) :: o.ents) := by
  have sp := heap.Push_spec { o with counter := o.counter + 1 }
    { id := o.counter, t := t, ch := ch, index := 0 } h.heap
  obtain ⟨hc, hl, hp, hh, hi⟩ := sp
  have hp' : List.Perm (o.Add t ch).2.ents ((o.counter, t, ch) :: o.ents) := hp
  have hids : List.Perm ((o.Add t ch).2.items.map item.id) (o.counter :: o.items.map item.id) := by
    rw [timeQueue.ids_eq, timeQueue.ids_eq]
    exact hp'.map Prod.fst
  refine ⟨rfl, ⟨hh, hi h.index, ?_, ?_⟩, hc, hl, hp'⟩
  · rw [hids.nodup_iff, List.nodup_cons]
    refine ⟨?_, h.nodup⟩
    intro hm
    obtain ⟨x, hx, e⟩ := List.mem_map.1 hm
    have := h.below x hx
    omega
  · intro x hx
    have hm : x.id ∈ (o.Add t ch).2.items.map item.id := List.mem_map.2 ⟨x, hx, rfl⟩
    have hm2 := hids.subset hm
    have hcc : (o.Add t ch).2.counter = o.counter + 1 := hc
    rw [hcc]
    rcases List.mem_cons.1 hm2 with e | hm3
    · omega
    · obtain ⟨y, hy, e⟩ := List.mem_map.1 hm3
      have := h.below y hy
      omega

theorem timeQueue.Removes.ids {o : timeQueue} {x : item} {r : item × timeQueue}
    (hr : o.Removes x r) :
    List.Perm (x.id :: r.2.items.map item.id) (o.items.map item.id) := by
  rw [timeQueue.ids_eq, timeQueue.ids_eq]
  exact hr.perm.map Prod.fst

theorem timeQueue.Removes.inv_rest {o : timeQueue} {x : item} {r : item × timeQueue}
    (hr : o.Removes x r) (h : o.Inv) : r.2.Inv := by
  have hids := hr.ids
  have hnd : (x.id :: r.2.items.map item.id).Nodup := hids.nodup_iff.2 h.nodup
  refine ⟨hr.heap, hr.index h.index, (List.nodup_cons.1 hnd).2, ?_⟩
  intro y hy
  have hm : y.id ∈ x.id :: r.2.items.map item.id :=
    List.mem_cons_of_mem _ (List.mem_map.2 ⟨y, hy, rfl⟩)
  obtain ⟨z, hz, e⟩ := List.mem_map.1 (hids.subset hm)
  have := h.below z hz
  rw [hr.counter]
  omega

theorem timeQueue.Removes.id_not_mem {o : timeQueue} {x : item} {r : item × timeQueue}
    (hr : o.Removes x r) (h : o.Inv) : ∀ y ∈ r.2.items, y.id ≠ x.id := by
  have hnd : (x.id :: r.2.items.map item.id).Nodup := hr.ids.nodup_iff.2 h.nodup
  intro y hy e
  exact (List.nodup_cons.1 hnd).1 (List.mem_map.2 ⟨y, hy, e⟩)

/-- Two items of a queue with the same id are the same item. -/
theorem timeQueue.Inv.eq_of_id {o : timeQueue} (h : o.Inv) {x y : item} (hx : x ∈ o.items)
    (hy : y ∈ o.items) (e : x.id = y.id) : x = y :=
  List.inj_on_of_nodup_map h.nodup hx hy e

theorem timeQueue.remove_none (o : timeQueue) (id : Nat)
    (h : ∀ x ∈ o.items, x.id ≠ id) : o.remove id = (false, o) := by
  have e : o.items.find? (fun i => i.id == id) = none := by
    rw [List.find?_eq_none]
    intro x hx
    simpa using h x hx
  simp only [timeQueue.remove, e]

theorem timeQueue.remove_some (o : timeQueue) (id : Nat) (h : o.Inv) (x : item)
    (hx : x ∈ o.items) (hid : x.id = id) :
    (o.remove id).1 = true ∧ o.Removes x ((heap.Remove o x.index.toNat).1, (o.remove id).2) := by
  cases e : o.items.find? (fun i => i.id == id) with
  | none =>
    rw [List.find?_eq_none] at e
    have := e x hx
    simp [hid] at this
  | some y =>
    have hy : y ∈ o.items := List.mem_of_find?_eq_some e
    have hyid : y.id = id := by simpa using List.find?_some e
    have hxy : y = x := h.eq_of_id hy hx (hyid.trans hid.symm)
    subst hxy
    obtain ⟨k, hk, hke⟩ := o.exists_elem_of_mem y hx
    have hidx : y.index.toNat = k := by
      rw [← hke, h.index k hk]
      simp
    have sp := heap.Remove_spec o k h.heap hk
    rw [hke] at sp
    simp only [timeQueue.remove, e, hidx]
    exact ⟨trivial, sp⟩

end queue

/-! ## `PopBeforeOrEqual` -/

section ListSplit

variable {α : Type}

theorem perm_filter_of_split (p : α → Bool) (P R E : List α) (h : List.Perm (P ++ R) E)
    (hP : ∀ x ∈ P, p x = true) (hR : ∀ x ∈ R, p x = false) :
    List.Perm P (E.filter p) ∧ List.Perm R (E.filter (fun x => !p x)) := by
  have e1 : (P ++ R).filter p = P := by
    rw [List.filter_append, List.filter_eq_self.2 hP, List.filter_eq_nil_iff.2, List.append_nil]
    intro x hx
    simp [hR x hx]
  have e2 : (P ++ R).filter (fun x => !p x) = R := by
    rw [List.filter_append, List.filter_eq_nil_iff.2, List.filter_eq_self.2, List.nil_append]
    · intro x hx
      simp [hR x hx]
    · intro x hx
      simp [hP x hx]
  constructor
  · have := h.filter p
    rw [e1] at this
    exact this
  · have := h.filter (fun x => !p x)
    rw [e2] at this
    exact this

end ListSplit

namespace queue

theorem item.ent_t {x y : item} (h : x.ent = y.ent) : x.t = y.t :=
  congrArg (fun e => e.2.1) h

theorem item.ent_id {x y : item} (h : x.ent = y.ent) : x.id = y.id :=
  congrArg (fun e => e.1) h

theorem item.ent_ch {x y : item} (h : x.ent = y.ent) : x.ch = y.ch :=
  congrArg (fun e => e.2.2) h

theorem timeQueue.Peek_pos (o : timeQueue) (t : Int)
    (h : o.Peek.2 = true ∧ ¬ o.Peek.1 > t) : 0 < o.Len ∧ o.key 0 ≤ t := by
  unfold timeQueue.Peek at h
  by_cases h0 : o.Len = 0
  · simp [h0] at h
  · simp only [h0, if_false] at h
    exact ⟨by omega, by simpa [timeQueue.key] using h.2⟩

theorem timeQueue.Peek_neg (o : timeQueue) (t : Int)
    (h : ¬ (o.Peek.2 = true ∧ ¬ o.Peek.1 > t)) : o.Len = 0 ∨ t < o.key 0 := by
  unfold timeQueue.Peek at h
  by_cases h0 : o.Len = 0
  · exact Or.inl h0
  · simp only [h0, if_false] at h
    right
    by_contra hc
    exact h ⟨trivial, by simpa [timeQueue.key] using hc⟩

theorem timeQueue.popLoop_eq : ∀ (fuel : Nat) (o : timeQueue) (t : Int) (acc : List item),
    timeQueue.popLoop fuel o t (acc.map item.ch) =
      ((timeQueue.popItemsLoop fuel o t acc).1.map item.ch,
        (timeQueue.popItemsLoop fuel o t acc).2)
  | 0, _, _, _ => rfl
  | fuel + 1, o, t, acc => by
    simp only [timeQueue.popLoop, timeQueue.popItemsLoop]
    split_ifs with h
    · have := timeQueue.popLoop_eq fuel (heap.Pop o).2 t (acc ++ [(heap.Pop o).1])
      simpa using this
    · rfl

theorem timeQueue.PopBeforeOrEqual_eq (o : timeQueue) (t : Int) :
    o.PopBeforeOrEqual t = ((o.popItems t).1.map item.ch, (o.popItems t).2) :=
  timeQueue.popLoop_eq o.Len o t []

theorem timeQueue.popItemsLoop_spec : ∀ (fuel : Nat) (o : timeQueue) (t : Int)
    (acc : List item), o.Inv → o.Len ≤ fuel →
    ∃ popped, (timeQueue.popItemsLoop fuel o t acc).1 = acc ++ popped ∧
      (timeQueue.popItemsLoop fuel o t acc).2.Inv ∧
      (timeQueue.popItemsLoop fuel o t acc).2.counter = o.counter ∧
      List.Perm (popped.map item.ent ++ (timeQueue.popItemsLoop fuel o t acc).2.ents) o.ents ∧
      (∀ x ∈ popped, x.t ≤ t) ∧
      (∀ x ∈ (timeQueue.popItemsLoop fuel o t acc).2.items, t < x.t) ∧
      popped.Pairwise (fun a b => a.t ≤ b.t)
  | 0, o, t, acc, h, hl => by
    have h0 : o.items = [] := List.length_eq_zero.1 (Nat.le_zero.1 hl)
    refine ⟨[], by simp [timeQueue.popItemsLoop], h, rfl, by simp [timeQueue.popItemsLoop], ?_,
      ?_, List.Pairwise.nil⟩
    · intro x hx
      simp at hx
    · intro x hx
      simp [timeQueue.popItemsLoop, h0] at hx
  | fuel + 1, o, t, acc, h, hl => by
    simp only [timeQueue.popItemsLoop]
    split_ifs with hc
    · obtain ⟨hlen, hkey⟩ := o.Peek_pos t hc
      have sp := heap.Pop_spec o h.heap hlen
      have hl' : (heap.Pop o).2.Len ≤ fuel := by
        have := sp.len
        omega
      obtain ⟨popped, e, hinv, hcnt, hperm, hle, hgt, hsorted⟩ :=
        timeQueue.popItemsLoop_spec fuel (heap.Pop o).2 t (acc ++ [(heap.Pop o).1])
          (sp.inv_rest h) hl'
      have ht : (heap.Pop o).1.t = o.key 0 := item.ent_t sp.ent
      refine ⟨(heap.Pop o).1 :: popped, by rw [e]; simp, hinv, hcnt.trans sp.counter, ?_, ?_,
        hgt, ?_⟩
      · have p1 : List.Perm ((heap.Pop o).1.ent ::
            (popped.map item.ent ++ (timeQueue.popItemsLoop fuel (heap.Pop o).2 t
              (acc ++ [(heap.Pop o).1])).2.ents)) ((o.elem 0).ent :: (heap.Pop o).2.ents) := by
          rw [sp.ent]
          exact hperm.cons _
        exact p1.trans sp.perm
      · intro x hx
        rcases List.mem_cons.1 hx with rfl | hx
        · rw [ht]
          exact hkey
        · exact hle x hx
      · rw [List.pairwise_cons]
        refine ⟨?_, hsorted⟩
        intro y hy
        have m1 : y.ent ∈ popped.map item.ent ++ (timeQueue.popItemsLoop fuel (heap.Pop o).2 t
            (acc ++ [(heap.Pop o).1])).2.ents :=
          List.mem_append_left _ (List.mem_map.2 ⟨y, hy, rfl⟩)
        have m2 : y.ent ∈ o.ents := sp.perm.subset (List.mem_cons_of_mem _ (hperm.subset m1))
        obtain ⟨z, hz, ez⟩ := timeQueue.mem_ents.1 m2
        have := h.root_le_of_mem z hz
        rw [ht, ← item.ent_t ez]
        exact this
    · refine ⟨[], by simp, h, rfl, by simp, ?_, ?_, List.Pairwise.nil⟩
      · intro x hx
        simp at hx
      · intro x hx
        rcases o.Peek_neg t hc with h0 | hlt
        · have : o.items = [] := List.length_eq_zero.1 h0
          rw [this] at hx
          simp at hx
        · have := h.root_le_of_mem x hx
          omega

theorem timeQueue.popItemsLoop_fuel : ∀ (f1 f2 : Nat) (o : timeQueue) (t : Int)
    (acc : List item), o.Inv → o.Len ≤ f1 → o.Len ≤ f2 →
    timeQueue.popItemsLoop f1 o t acc = timeQueue.popItemsLoop f2 o t acc
  | 0, 0, _, _, _, _, _, _ => rfl
  | 0, f2 + 1, o, t, acc, _, h1, _ => by
    simp only [timeQueue.popItemsLoop]
    rw [if_neg]
    intro hc
    have := (o.Peek_pos t hc).1
    omega
  | f1 + 1, 0, o, t, acc, _, _, h2 => by
    simp only [timeQueue.popItemsLoop]
    rw [if_neg]
    intro hc
    have := (o.Peek_pos t hc).1
    omega
  | f1 + 1, f2 + 1, o, t, acc, h, h1, h2 => by
    simp only [timeQueue.popItemsLoop]
    split_ifs with hc
    · have sp := heap.Pop_spec o h.heap (o.Peek_pos t hc).1
      have := sp.len
      exact timeQueue.popItemsLoop_fuel f1 f2 _ t _ (sp.inv_rest h) (by omega) (by omega)
    · rfl

/-- What `PopBeforeOrEqual(t)` pops and what it leaves, on a queue satisfying the invariant. -/
theorem timeQueue.popItems_spec (o : timeQueue) (t : Int) (h : o.Inv) :
    (o.popItems t).2.Inv ∧ (o.popItems t).2.counter = o.counter ∧
    List.Perm ((o.popItems t).1.map item.ent)
      ((o.items.filter (fun x => decide (x.t ≤ t))).map item.ent) ∧
    List.Perm (o.popItems t).2.ents
      ((o.items.filter (fun x => decide (t < x.t))).map item.ent) ∧
    (∀ x ∈ (o.popItems t).1, x.t ≤ t) ∧
    (∀ x ∈ (o.popItems t).2.items, t < x.t) ∧
    (o.popItems t).1.Pairwise (fun a b => a.t ≤ b.t) := by
  obtain ⟨popped, e, hinv, hcnt, hperm, hle, hgt, hsorted⟩ :=
    timeQueue.popItemsLoop_spec o.Len o t [] h (Nat.le_refl _)
  have e' : (timeQueue.popItemsLoop o.Len o t []).1 = popped := by simpa using e
  unfold timeQueue.popItems
  rw [e']
  have sp := perm_filter_of_split (fun e : Nat × Int × Nat => decide (e.2.1 ≤ t))
    (popped.map item.ent) (timeQueue.popItemsLoop o.Len o t []).2.ents o.ents hperm
    (by
      intro x hx
      obtain ⟨y, hy, rfl⟩ := List.mem_map.1 hx
      simpa [item.ent] using hle y hy)
    (by
      intro x hx
      obtain ⟨y, hy, rfl⟩ := timeQueue.mem_ents.1 hx
      simpa [item.ent] using hgt y hy)
  have f1 : o.ents.filter (fun e : Nat × Int × Nat => decide (e.2.1 ≤ t)) =
      (o.items.filter (fun x => decide (x.t ≤ t))).map item.ent := by
    simp [timeQueue.ents, List.filter_map, Function.comp_def, item.ent]
  have f2 : o.ents.filter (fun e : Nat × Int × Nat => !decide (e.2.1 ≤ t)) =
      (o.items.filter (fun x => decide (t < x.t))).map item.ent := by
    have e3 : (fun x : item => !decide (x.t ≤ t)) = (fun x : item => decide (t < x.t)) := by
      funext x
      by_cases hx : x.t ≤ t
      · simp [hx]
      · simp [hx, lt_of_not_le hx]
    simp [timeQueue.ents, List.filter_map, Function.comp_def, item.ent, e3]
  rw [f1, f2] at sp
  exact ⟨hinv, hcnt, sp.1, sp.2, hle, hgt, hsorted⟩

end queue

namespace queue

theorem Reachable.queue_inv {o : timeQueue} (h : Reachable o) : o.Inv := by
  induction h with
  | new => exact timeQueue.Inv.new
  | @call o c _ ih =>
    cases c with
    | Add t ch => exact (o.Add_spec t ch ih).2.1
    | cancel id =>
      by_cases hp : ∃ x ∈ o.items, x.id = id
      · obtain ⟨x, hx, hid⟩ := hp
        exact (o.remove_some id ih x hx hid).2.inv_rest ih
      · have e := o.remove_none id (fun x hx hid => hp ⟨x, hx, hid⟩)
        simp only [timeQueue.call, e]
        exact ih
    | PopBeforeOrEqual t =>
      simp only [timeQueue.call, o.PopBeforeOrEqual_eq]
      exact (o.popItems_spec t ih).1
    | Peek => exact ih
    | Len => exact ih

theorem Reachable.calls {o : timeQueue} (h : Reachable o) (cs : List Call) :
    Reachable (o.calls cs) := by
  induction cs generalizing o with
  | nil => exact h
  | cons c cs ih => exact ih (Reachable.call c h)

/-! ## The claims about the queue -/

theorem timeQueue.length_ents (o : timeQueue) : o.ents.length = o.Len := by
  simp [timeQueue.ents, timeQueue.Len]

/-- C1: on every queue reached by `Add`, cancel and `PopBeforeOrEqual` calls, and for every `t`,
`PopBeforeOrEqual(t)` returns the sinks of the popped items, which are exactly the pending
entries with deadline `≤ t` (as multisets: one per entry, none missing, none extra), and leaves
exactly the entries with deadline `> t`; the returned count and `Len()` afterwards are the two
counts, and `Peek()` afterwards is absent or strictly after `t`. -/
theorem PopBeforeOrEqual_exact (o : timeQueue) (t : Int) (h : Reachable o) :
    (o.PopBeforeOrEqual t).1 = (o.popItems t).1.map item.ch ∧
    List.Perm ((o.popItems t).1.map item.ent)
      ((o.items.filter (fun x => decide (x.t ≤ t))).map item.ent) ∧
    List.Perm (o.PopBeforeOrEqual t).1
      ((o.items.filter (fun x => decide (x.t ≤ t))).map item.ch) ∧
    List.Perm (o.PopBeforeOrEqual t).2.ents
      ((o.items.filter (fun x => decide (t < x.t))).map item.ent) ∧
    (o.PopBeforeOrEqual t).1.length = (o.items.filter (fun x => decide (x.t ≤ t))).length ∧
    (o.PopBeforeOrEqual t).2.Len = (o.items.filter (fun x => decide (t < x.t))).length ∧
    ((o.PopBeforeOrEqual t).2.Peek.2 = false ∨ t < (o.PopBeforeOrEqual t).2.Peek.1) := by
  obtain ⟨_, _, hp, hr, _, hgt, _⟩ := o.popItems_spec t h.queue_inv
  have hch : List.Perm ((o.popItems t).1.map item.ch)
      ((o.items.filter (fun x => decide (x.t ≤ t))).map item.ch) := by
    have := hp.map (fun e : Nat × Int × Nat => e.2.2)
    simpa [item.ent, Function.comp_def] using this
  rw [o.PopBeforeOrEqual_eq]
  refine ⟨rfl, hp, hch, hr, ?_, ?_, ?_⟩
  · simpa using hch.length_eq
  · have := hr.length_eq
    rw [timeQueue.length_ents] at this
    simpa using this
  · show (o.popItems t).2.Peek.2 = false ∨ t < (o.popItems t).2.Peek.1
    unfold timeQueue.Peek
    by_cases h0 : (o.popItems t).2.Len = 0
    · left
      simp [h0]
    · right
      simp only [h0, if_false]
      exact hgt _ ((o.popItems t).2.elem_mem 0 (by omega))

/-- C2: for every `t`, the items behind the list returned by `PopBeforeOrEqual(t)` come in
non-decreasing deadline order: any earlier position holds a deadline no later than any later
position, in particular positions `i` and `i + 1`. -/
theorem PopBeforeOrEqual_ascending (o : timeQueue) (t : Int) (h : Reachable o) :
    (o.PopBeforeOrEqual t).1 = (o.popItems t).1.map item.ch ∧
    (o.popItems t).1.Pairwise (fun a b => a.t ≤ b.t) ∧
    (∀ (i : Nat) (a b : item), (o.popItems t).1[i]? = some a →
      (o.popItems t).1[i + 1]? = some b → a.t ≤ b.t) := by
  obtain ⟨_, _, _, _, _, _, hs⟩ := o.popItems_spec t h.queue_inv
  refine ⟨by rw [o.PopBeforeOrEqual_eq], hs, ?_⟩
  intro i a b ha hb
  obtain ⟨hi, rfl⟩ := List.getElem?_eq_some_iff.1 ha
  obtain ⟨hj, rfl⟩ := List.getElem?_eq_some_iff.1 hb
  exact List.pairwise_iff_getElem.1 hs i (i + 1) hi hj (Nat.lt_succ_self i)

/-- C3, as amended: for every deadline `d`, the popped items with deadline `d` are exactly the
pending entries with deadline `d` when `d ≤ t`, each once; their order among themselves is the
one the heap gives and is not tied to the ids. -/
theorem PopBeforeOrEqual_ties (o : timeQueue) (t d : Int) (h : Reachable o) (hd : d ≤ t) :
    List.Perm (((o.popItems t).1.filter (fun x => decide (x.t = d))).map item.ent)
      ((o.items.filter (fun x => decide (x.t = d))).map item.ent) := by
  obtain ⟨_, _, hp, _, _, _, _⟩ := o.popItems_spec t h.queue_inv
  have h1 := hp.filter (fun e : Nat × Int × Nat => decide (e.2.1 = d))
  have e1 : ∀ l : List item, (l.map item.ent).filter (fun e : Nat × Int × Nat => decide (e.2.1 = d))
      = (l.filter (fun x => decide (x.t = d))).map item.ent := by
    intro l
    simp [List.filter_map, Function.comp_def, item.ent]
  rw [e1, e1, List.filter_filter] at h1
  have e2 : (fun x : item => decide (x.t = d) && decide (x.t ≤ t)) =
      (fun x : item => decide (x.t = d)) := by
    funext x
    by_cases hx : x.t = d
    · simp [hx, hd]
    · simp [hx]
  rw [e2] at h1
  exact h1

/-- C4: on every reached queue, `Peek()` is `(zero time, false)` when the queue is empty, and
otherwise `(m, true)` where `m` is a pending deadline that no pending deadline is before; the
call leaves the queue as it was. -/
theorem Peek_minimum (o : timeQueue) (h : Reachable o) :
    (o.Len = 0 → o.Peek = (0, false)) ∧
    (0 < o.Len → o.Peek.2 = true ∧ (∃ x ∈ o.items, x.t = o.Peek.1) ∧
      ∀ x ∈ o.items, o.Peek.1 ≤ x.t) ∧
    o.call Call.Peek = o := by
  refine ⟨?_, ?_, rfl⟩
  · intro h0
    simp [timeQueue.Peek, h0]
  · intro h0
    have hne : ¬ o.Len = 0 := by omega
    simp only [timeQueue.Peek, hne, if_false]
    exact ⟨trivial, ⟨o.elem 0, o.elem_mem 0 h0, rfl⟩, fun x hx => h.queue_inv.root_le_of_mem x hx⟩

end queue

namespace queue

/-! ## Pending entries along a sequence of calls -/

theorem timeQueue.pending_iff (o : timeQueue) (id : Nat) :
    o.pending id ↔ id ∈ o.items.map item.id := by
  simp [timeQueue.pending]

theorem timeQueue.popItems_perm (o : timeQueue) (t : Int) (h : o.Inv) :
    List.Perm ((o.popItems t).1.map item.ent ++ (o.popItems t).2.ents) o.ents := by
  obtain ⟨popped, e, _, _, hperm, _, _, _⟩ :=
    timeQueue.popItemsLoop_spec o.Len o t [] h (Nat.le_refl _)
  have e' : (timeQueue.popItemsLoop o.Len o t []).1 = popped := by simpa using e
  unfold timeQueue.popItems
  rw [e']
  exact hperm

theorem timeQueue.popItems_ids (o : timeQueue) (t : Int) (h : o.Inv) :
    List.Perm ((o.popItems t).1.map item.id ++ (o.popItems t).2.items.map item.id)
      (o.items.map item.id) := by
  have := (o.popItems_perm t h).map Prod.fst
  rw [timeQueue.ids_eq, timeQueue.ids_eq]
  simpa [item.ent, Function.comp_def] using this

theorem timeQueue.remove_true_iff (o : timeQueue) (id : Nat) (h : o.Inv) :
    (o.remove id).1 = true ↔ o.pending id := by
  constructor
  · intro hr
    by_contra hp
    have e := o.remove_none id (fun x hx hid => hp ⟨x, hx, hid⟩)
    rw [e] at hr
    simp at hr
  · rintro ⟨x, hx, hid⟩
    exact (o.remove_some id h x hx hid).1

theorem timeQueue.remove_false (o : timeQueue) (id : Nat) (h : o.Inv)
    (hr : (o.remove id).1 = false) : (o.remove id).2 = o := by
  have hp : ¬ o.pending id := by
    intro hp
    rw [(o.remove_true_iff id h).2 hp] at hr
    simp at hr
  rw [o.remove_none id (fun x hx hid => hp ⟨x, hx, hid⟩)]

theorem timeQueue.call_inv (o : timeQueue) (c : Call) (h : o.Inv) : (o.call c).Inv := by
  cases c with
  | Add t ch => exact (o.Add_spec t ch h).2.1
  | cancel id =>
    by_cases hp : ∃ x ∈ o.items, x.id = id
    · obtain ⟨x, hx, hid⟩ := hp
      exact (o.remove_some id h x hx hid).2.inv_rest h
    · have e := o.remove_none id (fun x hx hid => hp ⟨x, hx, hid⟩)
      simp only [timeQueue.call, e]
      exact h
  | PopBeforeOrEqual t =>
    simp only [timeQueue.call, o.PopBeforeOrEqual_eq]
    exact (o.popItems_spec t h).1
  | Peek => exact h
  | Len => exact h

theorem timeQueue.calls_inv (o : timeQueue) (cs : List Call) (h : o.Inv) : (o.calls cs).Inv := by
  induction cs generalizing o with
  | nil => exact h
  | cons c cs ih => exact ih (o.call c) (o.call_inv c h)

theorem timeQueue.call_counter (o : timeQueue) (c : Call) (h : o.Inv) :
    o.counter ≤ (o.call c).counter := by
  cases c with
  | Add t ch =>
    have := (o.Add_spec t ch h).2.2.1
    simp only [timeQueue.call]
    omega
  | cancel id =>
    by_cases hp : ∃ x ∈ o.items, x.id = id
    · obtain ⟨x, hx, hid⟩ := hp
      have := (o.remove_some id h x hx hid).2.counter
      simp only [timeQueue.call]
      exact Nat.le_of_eq this.symm
    · have e := o.remove_none id (fun x hx hid => hp ⟨x, hx, hid⟩)
      simp only [timeQueue.call, e]
      exact Nat.le_refl _
  | PopBeforeOrEqual t =>
    simp only [timeQueue.call, o.PopBeforeOrEqual_eq]
    exact Nat.le_of_eq (o.popItems_spec t h).2.1.symm
  | Peek => exact Nat.le_refl _
  | Len => exact Nat.le_refl _

/-- The entries after a call were entries before it, or the call is an `Add` and the entry is the
one it made, under the id of the counter. -/
theorem timeQueue.call_ents (o : timeQueue) (c : Call) (h : o.Inv) :
    ∀ e ∈ (o.call c).ents, e ∈ o.ents ∨ ∃ t ch, c = Call.Add t ch ∧ e = (o.counter, t, ch) := by
  intro e he
  cases c with
  | Add t ch =>
    have hp := (o.Add_spec t ch h).2.2.2.2
    rcases List.mem_cons.1 (hp.subset he) with rfl | hm
    · exact Or.inr ⟨t, ch, rfl, rfl⟩
    · exact Or.inl hm
  | cancel id =>
    left
    by_cases hp : ∃ x ∈ o.items, x.id = id
    · obtain ⟨x, hx, hid⟩ := hp
      exact (o.remove_some id h x hx hid).2.perm.subset (List.mem_cons_of_mem _ he)
    · have e' := o.remove_none id (fun x hx hid => hp ⟨x, hx, hid⟩)
      simp only [timeQueue.call, e'] at he
      exact he
  | PopBeforeOrEqual t =>
    left
    simp only [timeQueue.call, o.PopBeforeOrEqual_eq] at he
    exact (o.popItems_perm t h).subset (List.mem_append_right _ he)
  | Peek => exact Or.inl he
  | Len => exact Or.inl he

/-- One call: an issued id is pending afterwards exactly when it was pending before and the call
did not take it. -/
theorem timeQueue.call_pending (o : timeQueue) (c : Call) (id : Nat) (h : o.Inv)
    (hid : id < o.counter) :
    (o.call c).pending id ↔ (o.pending id ∧ o.takes c id = false) := by
  rw [timeQueue.pending_iff, timeQueue.pending_iff]
  cases c with
  | Add t ch =>
    have hp : List.Perm ((o.Add t ch).2.items.map item.id) (o.counter :: o.items.map item.id) := by
      rw [timeQueue.ids_eq, timeQueue.ids_eq]
      exact (o.Add_spec t ch h).2.2.2.2.map Prod.fst
    simp only [timeQueue.call, timeQueue.takes, and_true]
    rw [hp.mem_iff, List.mem_cons]
    constructor
    · rintro (e | hm)
      · omega
      · exact hm
    · exact Or.inr
  | cancel i =>
    simp only [timeQueue.call, timeQueue.takes]
    by_cases hp : ∃ x ∈ o.items, x.id = i
    · obtain ⟨x, hx, hxi⟩ := hp
      have sp := (o.remove_some i h x hx hxi).2
      have hids := sp.ids
      have hnd : (x.id :: (o.remove i).2.items.map item.id).Nodup := hids.nodup_iff.2 h.nodup
      rw [← hids.mem_iff, List.mem_cons]
      by_cases hii : i = id
      · have hb : (i == id) = true := by simpa using hii
        simp only [hb, Bool.true_eq_false, and_false, iff_false]
        intro hm
        have hn := (List.nodup_cons.1 hnd).1
        rw [hxi.trans hii] at hn
        exact hn hm
      · have : (i == id) = false := by simpa using hii
        simp only [this, and_true]
        constructor
        · exact Or.inr
        · rintro (e | hm)
          · exact absurd (hxi.symm.trans e.symm) hii
          · exact hm
    · have e := o.remove_none i (fun x hx hxi => hp ⟨x, hx, hxi⟩)
      simp only [e]
      by_cases hii : i = id
      · subst hii
        simp only [beq_self_eq_true, Bool.true_eq_false, and_false, iff_false]
        intro hm
        obtain ⟨x, hx, hxi⟩ := List.mem_map.1 hm
        exact hp ⟨x, hx, hxi⟩
      · have : (i == id) = false := by simpa using hii
        simp [this]
  | PopBeforeOrEqual t =>
    simp only [timeQueue.call, o.PopBeforeOrEqual_eq, timeQueue.takes]
    have hids := o.popItems_ids t h
    have hnd := hids.nodup_iff.2 h.nodup
    rw [← hids.mem_iff, List.mem_append]
    have hany : (o.popItems t).1.any (fun x => x.id == id) = true ↔
        id ∈ (o.popItems t).1.map item.id := by
      constructor
      · intro ha
        obtain ⟨x, hx, e⟩ := List.any_eq_true.1 ha
        exact List.mem_map.2 ⟨x, hx, by simpa using e⟩
      · intro hm
        obtain ⟨x, hx, e⟩ := List.mem_map.1 hm
        exact List.any_eq_true.2 ⟨x, hx, by simpa using e⟩
    constructor
    · intro hm
      refine ⟨Or.inr hm, ?_⟩
      by_contra hc
      have hc' : id ∈ (o.popItems t).1.map item.id := hany.1 (by simpa using hc)
      exact (List.nodup_append.1 hnd).2.2 hc' hm
    · rintro ⟨hm | hm, ht⟩
      · rw [hany.2 hm] at ht
        simp at ht
      · exact hm
  | Peek => simp [timeQueue.call, timeQueue.takes]
  | Len => simp [timeQueue.call, timeQueue.takes]

theorem timeQueue.calls_pending : ∀ (cs : List Call) (o : timeQueue) (id : Nat), o.Inv →
    id < o.counter → ((o.calls cs).pending id ↔ (o.pending id ∧ o.alive id cs = true))
  | [], o, id, _, _ => by simp [timeQueue.calls, timeQueue.alive]
  | c :: cs, o, id, h, hid => by
    have ih := timeQueue.calls_pending cs (o.call c) id (o.call_inv c h)
      (Nat.lt_of_lt_of_le hid (o.call_counter c h))
    have e : o.calls (c :: cs) = (o.call c).calls cs := rfl
    rw [e, ih, o.call_pending c id h hid]
    simp only [timeQueue.alive, Bool.and_eq_true, Bool.not_eq_true']
    tauto

theorem timeQueue.calls_ents : ∀ (cs : List Call) (o : timeQueue), o.Inv →
    ∀ e ∈ (o.calls cs).ents, e ∈ o.ents ∨
      (o.counter ≤ e.1 ∧ ∃ t, Call.Add t e.2.2 ∈ cs)
  | [], _, _, e, he => Or.inl he
  | c :: cs, o, h, e, he => by
    have e1 : o.calls (c :: cs) = (o.call c).calls cs := rfl
    rw [e1] at he
    rcases timeQueue.calls_ents cs (o.call c) (o.call_inv c h) e he with hm | ⟨hle, t, ht⟩
    · rcases o.call_ents c h e hm with hm2 | ⟨t, ch, rfl, rfl⟩
      · exact Or.inl hm2
      · exact Or.inr ⟨Nat.le_refl _, t, List.mem_cons_self _ _⟩
    · exact Or.inr ⟨Nat.le_trans (o.call_counter c h) hle, t, List.mem_cons_of_mem _ ht⟩

end queue

namespace queue

theorem timeQueue.Inv.ent_inj {o : timeQueue} (h : o.Inv) {e1 e2 : Nat × Int × Nat}
    (h1 : e1 ∈ o.ents) (h2 : e2 ∈ o.ents) (e : e1.1 = e2.1) : e1 = e2 := by
  obtain ⟨x, hx, rfl⟩ := timeQueue.mem_ents.1 h1
  obtain ⟨y, hy, rfl⟩ := timeQueue.mem_ents.1 h2
  rw [h.eq_of_id hx hy e]

theorem timeQueue.remove_twice (o : timeQueue) (id : Nat) (h : o.Inv) :
    (o.remove id).2.remove id = (false, (o.remove id).2) := by
  by_cases hp : ∃ x ∈ o.items, x.id = id
  · obtain ⟨x, hx, hid⟩ := hp
    have sp := (o.remove_some id h x hx hid).2
    apply timeQueue.remove_none
    intro y hy
    rw [← hid]
    exact sp.id_not_mem h y hy
  · have hn : ∀ x ∈ o.items, x.id ≠ id := fun x hx hid => hp ⟨x, hx, hid⟩
    rw [o.remove_none id hn]
    exact o.remove_none id hn

/-- C5: the cancel closure handed out by `Add(t, ch)` returns true exactly when no call since
that `Add` was a call of the same closure or a `PopBeforeOrEqual` that popped the entry, which is
exactly when the entry is still in the queue; a second call returns false and leaves the queue
unchanged, as does every call that returns false. -/
theorem cancel_true_iff_pending (o : timeQueue) (t : Int) (ch : Nat) (cs : List Call)
    (h : Reachable o) :
    ((((o.Add t ch).2.calls cs).remove (o.Add t ch).1).1 = true ↔
      (o.Add t ch).2.alive (o.Add t ch).1 cs = true) ∧
    ((((o.Add t ch).2.calls cs).remove (o.Add t ch).1).1 = true ↔
      ((o.Add t ch).1, t, ch) ∈ ((o.Add t ch).2.calls cs).ents) ∧
    ((((o.Add t ch).2.calls cs).remove (o.Add t ch).1).2.remove (o.Add t ch).1 =
      (false, (((o.Add t ch).2.calls cs).remove (o.Add t ch).1).2)) ∧
    ((((o.Add t ch).2.calls cs).remove (o.Add t ch).1).1 = false →
      (((o.Add t ch).2.calls cs).remove (o.Add t ch).1).2 = (o.Add t ch).2.calls cs) := by
  obtain ⟨hid, hinv, hcnt, _, hperm⟩ := o.Add_spec t ch h.queue_inv
  have hinv2 := (o.Add t ch).2.calls_inv cs hinv
  have hlt : (o.Add t ch).1 < (o.Add t ch).2.counter := by omega
  have hmem : ((o.Add t ch).1, t, ch) ∈ (o.Add t ch).2.ents := by
    rw [hid]
    exact hperm.symm.subset (List.mem_cons_self _ _)
  have hpend : (o.Add t ch).2.pending (o.Add t ch).1 := by
    obtain ⟨x, hx, e⟩ := timeQueue.mem_ents.1 hmem
    exact ⟨x, hx, congrArg Prod.fst e⟩
  refine ⟨?_, ?_, timeQueue.remove_twice _ _ hinv2, timeQueue.remove_false _ _ hinv2⟩
  · rw [timeQueue.remove_true_iff _ _ hinv2, timeQueue.calls_pending cs _ _ hinv hlt]
    exact ⟨fun hh => hh.2, fun hh => ⟨hpend, hh⟩⟩
  · rw [timeQueue.remove_true_iff _ _ hinv2]
    constructor
    · rintro ⟨x, hx, hxid⟩
      have hxe : x.ent ∈ ((o.Add t ch).2.calls cs).ents := timeQueue.mem_ents.2 ⟨x, hx, rfl⟩
      rcases timeQueue.calls_ents cs _ hinv _ hxe with hm | ⟨hle, _⟩
      · have := hinv.ent_inj hm hmem hxid
        rw [← this]
        exact hxe
      · have e1 : x.ent.1 = x.id := rfl
        omega
    · intro hm
      obtain ⟨x, hx, e⟩ := timeQueue.mem_ents.1 hm
      exact ⟨x, hx, congrArg Prod.fst e⟩

/-- C6, as amended: when a cancel closure returns true, its entry and no other leaves the queue:
`Len()` drops by one, the other entries (id, deadline, sink) are the entries that stay, and
after any further calls no `PopBeforeOrEqual` pops the cancelled entry; its sink is returned by
a later call only if another entry was given the same sink. -/
theorem cancel_removes_own_entry (o : timeQueue) (id : Nat) (h : Reachable o)
    (hc : (o.remove id).1 = true) :
    ∃ x ∈ o.items, x.id = id ∧
      (o.remove id).2.Len + 1 = o.Len ∧
      List.Perm (x.ent :: (o.remove id).2.ents) o.ents ∧
      (∀ y ∈ (o.remove id).2.items, y.id ≠ id) ∧
      (∀ (cs : List Call) (t : Int),
        ∀ y ∈ (((o.remove id).2.calls cs).popItems t).1, y.id ≠ id) ∧
      (∀ (cs : List Call) (t : Int), (∀ y ∈ (o.remove id).2.items, y.ch ≠ x.ch) →
        (∀ t1, Call.Add t1 x.ch ∉ cs) →
        x.ch ∉ (((o.remove id).2.calls cs).PopBeforeOrEqual t).1) := by
  obtain ⟨x, hx, hid⟩ := (o.remove_true_iff id h.queue_inv).1 hc
  have sp := (o.remove_some id h.queue_inv x hx hid).2
  have hinv := sp.inv_rest h.queue_inv
  have hnot : ∀ y ∈ (o.remove id).2.items, y.id ≠ id := by
    intro y hy
    rw [← hid]
    exact sp.id_not_mem h.queue_inv y hy
  have hsub : ∀ (cs : List Call) (t : Int), ∀ y ∈ (((o.remove id).2.calls cs).popItems t).1,
      y.ent ∈ ((o.remove id).2.calls cs).ents := by
    intro cs t y hy
    exact (timeQueue.popItems_perm _ t (timeQueue.calls_inv _ cs hinv)).subset
      (List.mem_append_left _ (List.mem_map.2 ⟨y, hy, rfl⟩))
  refine ⟨x, hx, hid, sp.len, sp.perm, hnot, ?_, ?_⟩
  · intro cs t y hy hyid
    obtain ⟨z, hz, ez⟩ := timeQueue.mem_ents.1 (hsub cs t y hy)
    have hp : ((o.remove id).2.calls cs).pending id := ⟨z, hz, (item.ent_id ez).trans hyid⟩
    have hlt : id < (o.remove id).2.counter := by
      have hb := h.queue_inv.below x hx
      have hcn : (o.remove id).2.counter = o.counter := sp.counter
      omega
    obtain ⟨w, hw, hwid⟩ := ((timeQueue.calls_pending cs _ id hinv hlt).1 hp).1
    exact hnot w hw hwid
  · intro cs t hfree hadds hm
    rw [timeQueue.PopBeforeOrEqual_eq] at hm
    obtain ⟨y, hy, hych⟩ := List.mem_map.1 hm
    rcases timeQueue.calls_ents cs _ hinv _ (hsub cs t y hy) with hm2 | ⟨_, t1, ht1⟩
    · obtain ⟨z, hz, ez⟩ := timeQueue.mem_ents.1 hm2
      exact hfree z hz ((item.ent_ch ez).trans hych)
    · have e1 : y.ent.2.2 = x.ch := hych
      rw [e1] at ht1
      exact hadds t1 ht1

/-! ## Concrete queues -/

/-- C3, refuted: three entries with deadline `5` are added with sinks `10`, `11`, `12` in this
order, and `PopBeforeOrEqual(5)` returns the sink added last before the sink added second. -/
theorem PopBeforeOrEqual_ties_counterexample :
    (tieQueue.PopBeforeOrEqual 5).1 = [10, 12, 11] ∧
    (tieQueue.popItems 5).1.map item.id = [0, 2, 1] ∧
    (tieQueue.popItems 5).1.map item.t = [5, 5, 5] := by
  decide

/-- C6, refuted as stated: two entries share the sink `7`; the cancel closure of the first returns
true, and the next `PopBeforeOrEqual(6)` still returns the sink `7`, for the second entry. -/
theorem cancel_shared_sink_counterexample :
    sharedSinkQueue.items.map item.ent = [(0, 5, 7), (1, 6, 7)] ∧
    (sharedSinkQueue.remove 0).1 = true ∧
    ((sharedSinkQueue.remove 0).2.PopBeforeOrEqual 6).1 = [7] := by
  decide

/-- The queue of the test "bunch of timers" is reached, and `PopBeforeOrEqual(3)` returns three
sinks and leaves three entries. -/
theorem PopBeforeOrEqual_exact_witness :
    Reachable sixQueue ∧ (sixQueue.PopBeforeOrEqual 3).1.length = 3 ∧
      (sixQueue.PopBeforeOrEqual 3).2.Len = 3 :=
  have hr : Reachable sixQueue := Reachable.calls Reachable.new _
  have hw := PopBeforeOrEqual_exact sixQueue 3 hr
  ⟨hr, hw.2.2.2.2.1.trans (by decide), hw.2.2.2.2.2.1.trans (by decide)⟩

/-- The popped items of the queue with three equal deadlines come in deadline order. -/
theorem PopBeforeOrEqual_ascending_witness :
    Reachable tieQueue ∧ (tieQueue.popItems 5).1.Pairwise (fun a b => a.t ≤ b.t) :=
  have hr : Reachable tieQueue := Reachable.call _ (Reachable.call _ (Reachable.call _
    Reachable.new))
  ⟨hr, (PopBeforeOrEqual_ascending tieQueue 5 hr).2.1⟩

/-- The three entries with deadline `5` are all popped by `PopBeforeOrEqual(5)`. -/
theorem PopBeforeOrEqual_ties_witness :
    Reachable tieQueue ∧ (5 : Int) ≤ 5 ∧
      List.Perm (((tieQueue.popItems 5).1.filter (fun x => decide (x.t = 5))).map item.ent)
        ((tieQueue.items.filter (fun x => decide (x.t = 5))).map item.ent) :=
  have hr : Reachable tieQueue := Reachable.call _ (Reachable.call _ (Reachable.call _
    Reachable.new))
  ⟨hr, by decide, PopBeforeOrEqual_ties tieQueue 5 5 hr (by decide)⟩

/-- On the queue with deadlines `1` to `6`, `Peek()` is `(1, true)`. -/
theorem Peek_minimum_witness :
    Reachable sixQueue ∧ sixQueue.Peek = (1, true) :=
  have hr : Reachable sixQueue := Reachable.calls Reachable.new _
  ⟨hr, by
    have hw := (Peek_minimum sixQueue hr).2.1 (by decide)
    exact Prod.ext (by decide) hw.1⟩

/-- An entry added with deadline `9` is still pending after `PopBeforeOrEqual(3)`: its cancel
closure returns true. -/
theorem cancel_true_iff_pending_witness :
    Reachable sixQueue ∧
      (((sixQueue.Add 9 27).2.calls [Call.PopBeforeOrEqual 3]).remove (sixQueue.Add 9 27).1).1
        = true :=
  have hr : Reachable sixQueue := Reachable.calls Reachable.new _
  ⟨hr, (cancel_true_iff_pending sixQueue 9 27 [Call.PopBeforeOrEqual 3] hr).1.2 (by decide)⟩

/-- Cancelling the entry with id `2` of the queue with six entries returns true and leaves five
entries. -/
theorem cancel_removes_own_entry_witness :
    Reachable sixQueue ∧ (sixQueue.remove 2).1 = true ∧
      ∃ x ∈ sixQueue.items, x.id = 2 ∧ (sixQueue.remove 2).2.Len + 1 = sixQueue.Len :=
  have hr : Reachable sixQueue := Reachable.calls Reachable.new _
  ⟨hr, by decide, by
    obtain ⟨x, hx, hid, hl, _⟩ := cancel_removes_own_entry sixQueue 2 hr (by decide)
    exact ⟨x, hx, hid, hl⟩⟩

end queue


/-! ## The settable clock -/

namespace gotime

open queue

theorem getD_set_ne (chans : List (List Int)) (c k : Nat) (b : List Int) (h : c ≠ k) :
    (chans.set c b).getD k [] = chans.getD k [] := by
  simp [List.getD_eq_getElem?_getD, List.getElem?_set, h]

theorem getD_set_self (chans : List (List Int)) (c : Nat) (b : List Int) (h : c < chans.length) :
    (chans.set c b).getD c [] = b := by
  simp [List.getD_eq_getElem?_getD, List.getElem?_set, h]

theorem getD_append_left (chans : List (List Int)) (b : List Int) (k : Nat)
    (h : k < chans.length) : (chans ++ [b]).getD k [] = chans.getD k [] := by
  simp [List.getD_eq_getElem?_getD, List.getElem?_append, h]

theorem getD_append_length (chans : List (List Int)) (b : List Int) :
    (chans ++ [b]).getD chans.length [] = b := by
  simp [List.getD_eq_getElem?_getD, List.getElem?_append]

theorem send_spec (chans : List (List Int)) (c : Nat) (v : Int) (hc : c < chans.length)
    (hb : chans.getD c [] = []) : send chans c v = some (chans.set c [v]) := by
  have e : chans[c]? = some [] := by
    have h1 : chans[c]? = some chans[c] := List.getElem?_eq_getElem hc
    have h2 : chans.getD c [] = chans[c] := by simp [List.getD_eq_getElem?_getD, h1]
    rw [h1, ← h2, hb]
  simp [send, e]

theorem sendAll_spec : ∀ (cs : List Nat) (chans : List (List Int)) (v : Int), cs.Nodup →
    (∀ c ∈ cs, c < chans.length ∧ chans.getD c [] = []) →
    ∃ chans1, sendAll chans cs v = some chans1 ∧ chans1.length = chans.length ∧
      (∀ c ∈ cs, chans1.getD c [] = [v]) ∧ (∀ c, c ∉ cs → chans1.getD c [] = chans.getD c [])
  | [], chans, v, _, _ => ⟨chans, rfl, rfl, by simp, fun _ _ => rfl⟩
  | c :: cs, chans, v, hnd, hall => by
    obtain ⟨hc, hb⟩ := hall c (List.mem_cons_self _ _)
    have hnd2 := List.nodup_cons.1 hnd
    have hall2 : ∀ k ∈ cs, k < (chans.set c [v]).length ∧ (chans.set c [v]).getD k [] = [] := by
      intro k hk
      have hne : c ≠ k := fun e => hnd2.1 (e ▸ hk)
      obtain ⟨h1, h2⟩ := hall k (List.mem_cons_of_mem _ hk)
      exact ⟨by simpa using h1, by rw [getD_set_ne _ _ _ _ hne]; exact h2⟩
    obtain ⟨chans1, e, hl, hin, hout⟩ := sendAll_spec cs (chans.set c [v]) v hnd2.2 hall2
    refine ⟨chans1, ?_, by simpa using hl, ?_, ?_⟩
    · simp only [sendAll, send_spec chans c v hc hb]
      exact e
    · intro k hk
      rcases List.mem_cons.1 hk with rfl | hk
      · rw [hout k hnd2.1]
        exact getD_set_self chans k [v] hc
      · exact hin k hk
    · intro k hk
      have h1 : k ∉ cs := fun h => hk (List.mem_cons_of_mem _ h)
      have h2 : c ≠ k := fun e => hk (e ▸ List.mem_cons_self _ _)
      rw [hout k h1, getD_set_ne _ _ _ _ h2]

theorem timeQueue_chs_eq (o : timeQueue) : o.items.map item.ch = o.ents.map (fun e => e.2.2) := by
  simp [timeQueue.ents, item.ent, Function.comp_def]

/-- The sinks popped by `PopBeforeOrEqual(t)` and the sinks left are the sinks held before. -/
theorem popItems_chs (o : timeQueue) (t : Int) (h : o.Inv) :
    List.Perm ((o.popItems t).1.map item.ch ++ (o.popItems t).2.items.map item.ch)
      (o.items.map item.ch) := by
  have := (o.popItems_perm t h).map (fun e : Nat × Int × Nat => e.2.2)
  rw [timeQueue_chs_eq, timeQueue_chs_eq]
  simpa [item.ent, Function.comp_def] using this

theorem faketime.Inv.eq_of_ch {f : faketime} (h : f.Inv) {x y : item} (hx : x ∈ f.timers.items)
    (hy : y ∈ f.timers.items) (e : x.ch = y.ch) : x = y :=
  List.inj_on_of_nodup_map h.sinks hx hy e

theorem faketime.Inv.popped_mem {f : faketime} (h : f.Inv) (t : Int) (p : item)
    (hp : p ∈ (f.timers.popItems t).1) : ∃ x ∈ f.timers.items, x.ent = p.ent ∧ x.t ≤ t := by
  have hm : p.ent ∈ f.timers.ents := (f.timers.popItems_perm t h.queue).subset
    (List.mem_append_left _ (List.mem_map.2 ⟨p, hp, rfl⟩))
  obtain ⟨x, hx, e⟩ := timeQueue.mem_ents.1 hm
  have hle := (f.timers.popItems_spec t h.queue).2.2.2.2.1 p hp
  exact ⟨x, hx, e, by rw [item.ent_t e]; exact hle⟩

theorem faketime.Inv.due_popped {f : faketime} (h : f.Inv) (t : Int) (x : item)
    (hx : x ∈ f.timers.items) (hle : x.t ≤ t) : x.ch ∈ (f.timers.popItems t).1.map item.ch := by
  have hp := (f.timers.popItems_spec t h.queue).2.2.1
  have hm : x.ent ∈ (f.timers.items.filter (fun x => decide (x.t ≤ t))).map item.ent :=
    List.mem_map.2 ⟨x, List.mem_filter.2 ⟨hx, by simpa using hle⟩, rfl⟩
  obtain ⟨p, hp2, e⟩ := List.mem_map.1 (hp.symm.subset hm)
  exact List.mem_map.2 ⟨p, hp2, item.ent_ch e⟩

theorem faketime.Inv.later_not_popped {f : faketime} (h : f.Inv) (t : Int) (x : item)
    (hx : x ∈ f.timers.items) (hlt : t < x.t) :
    x.ch ∉ (f.timers.popItems t).1.map item.ch := by
  intro hm
  obtain ⟨p, hp, e⟩ := List.mem_map.1 hm
  obtain ⟨y, hy, ey, hle⟩ := h.popped_mem t p hp
  have hxy : y = x := h.eq_of_ch hy hx ((item.ent_ch ey).trans e)
  rw [hxy] at hle
  omega

theorem faketime.Inv.later_stays {f : faketime} (h : f.Inv) (t : Int) (x : item)
    (hx : x ∈ f.timers.items) (hlt : t < x.t) : x.ent ∈ (f.timers.popItems t).2.ents := by
  have hr := (f.timers.popItems_spec t h.queue).2.2.2.1
  exact hr.symm.subset (List.mem_map.2 ⟨x, List.mem_filter.2 ⟨hx, by simpa using hlt⟩, rfl⟩)

/-- `SetNow(t)` on a clock satisfying the invariant returns; it sets `now`, pops the queue, puts
`t` in the buffer of every popped sink and leaves every other buffer alone. -/
theorem faketime.SetNow_spec (f : faketime) (t : Int) (h : f.Inv) :
    ∃ f1, f.SetNow t = some f1 ∧ f1.now = t ∧ f1.timers = (f.timers.popItems t).2 ∧
      f1.timerAdded = f.timerAdded ∧ f1.chans.length = f.chans.length ∧
      (∀ c ∈ (f.timers.popItems t).1.map item.ch, f1.buf c = [t]) ∧
      (∀ c, c ∉ (f.timers.popItems t).1.map item.ch → f1.buf c = f.buf c) ∧ f1.Inv := by
  have hchs := popItems_chs f.timers t h.queue
  have hnd := hchs.nodup_iff.2 h.sinks
  have hnd1 := (List.nodup_append.1 hnd).1
  have hall : ∀ c ∈ (f.timers.popItems t).1.map item.ch,
      c < f.chans.length ∧ f.chans.getD c [] = [] := by
    intro c hc
    obtain ⟨p, hp, rfl⟩ := List.mem_map.1 hc
    obtain ⟨x, hx, e, _⟩ := h.popped_mem t p hp
    rw [← item.ent_ch e]
    exact h.fresh x hx
  obtain ⟨chans1, e, hl, hin, hout⟩ := sendAll_spec _ f.chans t hnd1 hall
  have hset : f.SetNow t =
      some { f with now := t, timers := (f.timers.popItems t).2, chans := chans1 } := by
    simp only [faketime.SetNow, f.timers.PopBeforeOrEqual_eq, e]
  refine ⟨_, hset, rfl, rfl, rfl, hl, hin, hout, ?_⟩
  refine ⟨(f.timers.popItems_spec t h.queue).1, (List.nodup_append.1 hnd).2.1, ?_⟩
  intro y hy
  have hym : y.ent ∈ f.timers.ents := (f.timers.popItems_perm t h.queue).subset
    (List.mem_append_right _ (timeQueue.mem_ents.2 ⟨y, hy, rfl⟩))
  obtain ⟨x, hx, ex⟩ := timeQueue.mem_ents.1 hym
  have hfr := h.fresh x hx
  rw [item.ent_ch ex] at hfr
  have hnot : y.ch ∉ (f.timers.popItems t).1.map item.ch := by
    intro hm
    exact (List.nodup_append.1 hnd).2.2 hm (List.mem_map.2 ⟨y, hy, rfl⟩)
  refine ⟨by rw [hl]; exact hfr.1, ?_⟩
  show chans1.getD y.ch [] = []
  rw [hout _ hnot]
  exact hfr.2

end gotime

namespace gotime

open queue

theorem send_frame (chans chans1 : List (List Int)) (c : Nat) (v : Int)
    (h : send chans c v = some chans1) :
    chans1.length = chans.length ∧ ∀ k, k ≠ c → chans1.getD k [] = chans.getD k [] := by
  unfold send at h
  cases e : chans[c]? with
  | none => simp [e] at h
  | some b =>
    simp only [e] at h
    split_ifs at h
    have h1 : chans.set c (b ++ [v]) = chans1 := by simpa using h
    subst h1
    exact ⟨by simp, fun k hk => getD_set_ne _ _ _ _ (fun e2 => hk e2.symm)⟩

theorem faketime.Inv.of_chans {f : faketime} (h : f.Inv) (chans : List (List Int))
    (hl : f.chans.length ≤ chans.length)
    (hb : ∀ x ∈ f.timers.items, chans.getD x.ch [] = f.chans.getD x.ch []) :
    ({ f with chans := chans } : faketime).Inv := by
  refine ⟨h.queue, h.sinks, ?_⟩
  intro x hx
  obtain ⟨h1, h2⟩ := h.fresh x hx
  exact ⟨Nat.lt_of_lt_of_le h1 hl, (hb x hx).trans h2⟩

theorem faketime.After_nonpos (f : faketime) (d : Int) (hd : d ≤ 0) :
    f.After d = some (f.chans.length, { f with chans := f.chans ++ [[f.now]] }) := by
  have e : send (f.chans ++ [[]]) f.chans.length f.now = some (f.chans ++ [[f.now]]) := by
    rw [send_spec _ _ _ (by simp) (getD_append_length _ _)]
    simp
  simp only [faketime.After, hd, if_true, e]

theorem faketime.After_pos (f : faketime) (d : Int) (hd : 0 < d) :
    f.After d = some (f.chans.length,
      { f with chans := f.chans ++ [[]],
               timers := (f.timers.Add (f.now + d) f.chans.length).2,
               timerAdded := true }) := by
  have hnd : ¬ d ≤ 0 := not_le.2 hd
  simp only [faketime.After, hnd, if_false, faketime.notifyTimer]

theorem faketime.Inv.after {f f1 : faketime} (h : f.Inv) (d : Int) (ch : Nat)
    (ha : f.After d = some (ch, f1)) : f1.Inv := by
  by_cases hd : d ≤ 0
  · rw [f.After_nonpos d hd] at ha
    have e := congrArg Prod.snd (Option.some.inj ha)
    simp only at e
    rw [← e]
    apply h.of_chans
    · simp
    · intro x hx
      exact getD_append_left _ _ _ (h.fresh x hx).1
  · rw [f.After_pos d (lt_of_not_le hd)] at ha
    have e := congrArg Prod.snd (Option.some.inj ha)
    simp only at e
    rw [← e]
    obtain ⟨_, hinv, _, _, hperm⟩ := f.timers.Add_spec (f.now + d) f.chans.length h.queue
    have hchs : List.Perm (((f.timers.Add (f.now + d) f.chans.length).2).items.map item.ch)
        (f.chans.length :: f.timers.items.map item.ch) := by
      rw [timeQueue_chs_eq, timeQueue_chs_eq]
      exact hperm.map (fun e : Nat × Int × Nat => e.2.2)
    have hnew : f.chans.length ∉ f.timers.items.map item.ch := by
      intro hm
      obtain ⟨x, hx, e⟩ := List.mem_map.1 hm
      have := (h.fresh x hx).1
      omega
    refine ⟨hinv, ?_, ?_⟩
    · exact hchs.nodup_iff.2 (List.nodup_cons.2 ⟨hnew, h.sinks⟩)
    · intro y hy
      have hm : y.ch ∈ f.chans.length :: f.timers.items.map item.ch :=
        hchs.subset (List.mem_map.2 ⟨y, hy, rfl⟩)
      show y.ch < (f.chans ++ [[]]).length ∧ (f.chans ++ [[]]).getD y.ch [] = []
      rcases List.mem_cons.1 hm with e | hm2
      · rw [e]
        exact ⟨by simp, getD_append_length _ _⟩
      · obtain ⟨x, hx, e⟩ := List.mem_map.1 hm2
        obtain ⟨h1, h2⟩ := h.fresh x hx
        rw [← e]
        exact ⟨by simp; omega, (getD_append_left _ _ _ h1).trans h2⟩

theorem faketime.Inv.cancel {f : faketime} (h : f.Inv) (id : Nat) :
    ({ f with timers := (f.timers.remove id).2 } : faketime).Inv := by
  by_cases hp : ∃ x ∈ f.timers.items, x.id = id
  · obtain ⟨x, hx, hid⟩ := hp
    have sp := (f.timers.remove_some id h.queue x hx hid).2
    have hchs : List.Perm (x.ch :: (f.timers.remove id).2.items.map item.ch)
        (f.timers.items.map item.ch) := by
      rw [timeQueue_chs_eq, timeQueue_chs_eq]
      exact sp.perm.map (fun e : Nat × Int × Nat => e.2.2)
    refine ⟨sp.inv_rest h.queue, (List.nodup_cons.1 (hchs.nodup_iff.2 h.sinks)).2, ?_⟩
    intro y hy
    obtain ⟨z, hz, e⟩ := List.mem_map.1
      (hchs.subset (List.mem_cons_of_mem _ (List.mem_map.2 ⟨y, hy, rfl⟩)))
    have := h.fresh z hz
    rw [e] at this
    exact this
  · have e := f.timers.remove_none id (fun x hx hid => hp ⟨x, hx, hid⟩)
    rw [e]
    exact h

theorem faketime.Reachable.clock_inv {f : faketime} (h : f.Reachable) : f.Inv := by
  induction h with
  | new =>
    refine ⟨timeQueue.Inv.new, ?_, ?_⟩
    · simp [NewSettableClock, NewTimeQueue]
    · intro x hx
      simp [NewSettableClock, NewTimeQueue] at hx
  | @SetNow f f1 t _ hs ih =>
    obtain ⟨f2, e, _, _, _, _, _, _, hinv⟩ := f.SetNow_spec t ih
    rw [e] at hs
    rw [← Option.some.inj hs]
    exact hinv
  | @After f f1 d ch _ ha ih => exact ih.after d ch ha
  | @make f _ ih =>
    apply ih.of_chans
    · simp
    · intro x hx
      exact getD_append_left _ _ _ (ih.fresh x hx).1
  | @recv f c _ ih =>
    unfold faketime.recv
    cases e : f.buf c with
    | nil => exact ih
    | cons v rest =>
      apply ih.of_chans
      · simp
      · intro x hx
        have hne : c ≠ x.ch := by
          intro e2
          have := (ih.fresh x hx).2
          rw [← e2, e] at this
          simp at this
        exact getD_set_ne _ _ _ _ hne
  | @forward f c v chans _ hc hs ih =>
    obtain ⟨hl, hk⟩ := send_frame _ _ _ _ hs
    apply ih.of_chans
    · omega
    · intro x hx
      exact hk x.ch (hc x hx)
  | @cancel f id _ ih => exact ih.cancel id
  | @readTimerAdded f _ ih => exact ⟨ih.queue, ih.sinks, ih.fresh⟩

/-! ## The claims about the settable clock -/

/-- C7: on every reached settable clock and for every time `t` (also before the current now,
also negative), `SetNow(t)` returns and the next `Now()` is `t`. -/
theorem SetNow_then_Now (f : faketime) (t : Int) (h : f.Reachable) :
    ∃ f1, f.SetNow t = some f1 ∧ f1.Now = t := by
  obtain ⟨f1, e, hn, _⟩ := f.SetNow_spec t h.clock_inv
  exact ⟨f1, e, hn⟩

/-- C8: on every reached settable clock and for every time `t`, `SetNow(t)` returns, having
appended `t` to the (empty) buffer of the sink of every pending entry with deadline `≤ t`; the
buffer of an entry with deadline `> t` is untouched and that entry stays pending with its
deadline; the entries left are exactly those with deadline `> t`, and no other buffer changes. -/
theorem SetNow_delivers_due (f : faketime) (t : Int) (h : f.Reachable) :
    ∃ f1, f.SetNow t = some f1 ∧
      (∀ x ∈ f.timers.items, x.t ≤ t → f.buf x.ch = [] ∧ f1.buf x.ch = f.buf x.ch ++ [t]) ∧
      (∀ x ∈ f.timers.items, t < x.t → f1.buf x.ch = f.buf x.ch ∧ x.ent ∈ f1.timers.ents) ∧
      List.Perm f1.timers.ents
        ((f.timers.items.filter (fun x => decide (t < x.t))).map item.ent) ∧
      (∀ c, (∀ x ∈ f.timers.items, x.t ≤ t → x.ch ≠ c) → f1.buf c = f.buf c) := by
  have hinv := h.clock_inv
  obtain ⟨f1, e, _, ht, _, _, hin, hout, _⟩ := f.SetNow_spec t hinv
  refine ⟨f1, e, ?_, ?_, ?_, ?_⟩
  · intro x hx hle
    have hb := (hinv.fresh x hx).2
    rw [hin _ (hinv.due_popped t x hx hle), hb]
    exact ⟨rfl, rfl⟩
  · intro x hx hlt
    rw [ht]
    exact ⟨hout _ (hinv.later_not_popped t x hx hlt), hinv.later_stays t x hx hlt⟩
  · rw [ht]
    exact (f.timers.popItems_spec t hinv.queue).2.2.2.1
  · intro c hc
    apply hout
    intro hm
    obtain ⟨p, hp, e2⟩ := List.mem_map.1 hm
    obtain ⟨x, hx, ex, hle⟩ := hinv.popped_mem t p hp
    exact hc x hx hle ((item.ent_ch ex).trans e2)

/-- A channel that is not the sink of a pending entry keeps its buffer through any sequence of
`SetNow` calls. -/
theorem faketime.SetNows_idle : ∀ (ts : List Int) (f : faketime) (c : Nat), f.Inv →
    (∀ x ∈ f.timers.items, x.ch ≠ c) →
    ∃ f1, f.SetNows ts = some f1 ∧ f1.buf c = f.buf c
  | [], f, _, _, _ => ⟨f, rfl, rfl⟩
  | t :: ts, f, c, h, hc => by
    obtain ⟨f1, e, _, ht, _, _, _, hout, hinv1⟩ := f.SetNow_spec t h
    have hc1 : ∀ x ∈ f1.timers.items, x.ch ≠ c := by
      intro y hy
      rw [ht] at hy
      have hym : y.ent ∈ f.timers.ents := (f.timers.popItems_perm t h.queue).subset
        (List.mem_append_right _ (timeQueue.mem_ents.2 ⟨y, hy, rfl⟩))
      obtain ⟨x, hx, ex⟩ := timeQueue.mem_ents.1 hym
      rw [← item.ent_ch ex]
      exact hc x hx
    have hnot : c ∉ (f.timers.popItems t).1.map item.ch := by
      intro hm
      obtain ⟨p, hp, e2⟩ := List.mem_map.1 hm
      obtain ⟨x, hx, ex, _⟩ := h.popped_mem t p hp
      exact hc x hx ((item.ent_ch ex).trans e2)
    obtain ⟨f2, e2, hb⟩ := faketime.SetNows_idle ts f1 c hinv1 hc1
    refine ⟨f2, ?_, hb.trans (hout c hnot)⟩
    simp only [faketime.SetNows, e]
    exact e2

/-- The sink of a pending entry with deadline `D` holds, after a sequence of `SetNow` calls, the
first time of the sequence that is not before `D`, and nothing when there is none. -/
theorem faketime.SetNows_pending : ∀ (ts : List Int) (f : faketime) (x : item), f.Inv →
    x ∈ f.timers.items →
    ∃ f1, f.SetNows ts = some f1 ∧
      f1.buf x.ch = (ts.find? (fun t => decide (x.t ≤ t))).toList
  | [], f, x, h, hx => ⟨f, rfl, (h.fresh x hx).2⟩
  | t :: ts, f, x, h, hx => by
    obtain ⟨f1, e, _, ht, _, _, hin, _, hinv1⟩ := f.SetNow_spec t h
    by_cases hle : x.t ≤ t
    · have hc1 : ∀ y ∈ f1.timers.items, y.ch ≠ x.ch := by
        intro y hy e2
        rw [ht] at hy
        have hgt := (f.timers.popItems_spec t h.queue).2.2.2.2.2.1 y hy
        have hym : y.ent ∈ f.timers.ents := (f.timers.popItems_perm t h.queue).subset
          (List.mem_append_right _ (timeQueue.mem_ents.2 ⟨y, hy, rfl⟩))
        obtain ⟨z, hz, ez⟩ := timeQueue.mem_ents.1 hym
        have hzx : z = x := h.eq_of_ch hz hx ((item.ent_ch ez).trans e2)
        have := item.ent_t ez
        rw [hzx] at this
        omega
      obtain ⟨f2, e2, hb⟩ := faketime.SetNows_idle ts f1 x.ch hinv1 hc1
      refine ⟨f2, ?_, ?_⟩
      · simp only [faketime.SetNows, e]
        exact e2
      · rw [hb, hin _ (h.due_popped t x hx hle)]
        simp [List.find?, hle]
    · have hlt : t < x.t := lt_of_not_le hle
      obtain ⟨y, hy, ey⟩ := timeQueue.mem_ents.1 (h.later_stays t x hx hlt)
      rw [← ht] at hy
      obtain ⟨f2, e2, hb⟩ := faketime.SetNows_pending ts f1 y hinv1 hy
      refine ⟨f2, ?_, ?_⟩
      · simp only [faketime.SetNows, e]
        exact e2
      · rw [← item.ent_ch ey, hb, item.ent_t ey]
        simp [List.find?, hle]

/-- C9: on every reached settable clock with now `n0`, for every `d > 0` and every sequence of
later `SetNow` calls, `After(d)` returns a channel, all the `SetNow` calls return, and the channel
then holds the first time of the sequence that is `≥ n0 + d`, once, and nothing while every time
of the sequence is before `n0 + d`. -/
theorem After_fires_once (f : faketime) (d : Int) (ts : List Int) (h : f.Reachable)
    (hd : 0 < d) :
    ∃ ch f0 f1, f.After d = some (ch, f0) ∧ f0.SetNows ts = some f1 ∧
      f1.buf ch = (ts.find? (fun t => decide (f.now + d ≤ t))).toList := by
  have ha := f.After_pos d hd
  have hinv := h.clock_inv.after d _ ha
  have hm : (f.timers.counter, f.now + d, f.chans.length) ∈
      (f.timers.Add (f.now + d) f.chans.length).2.ents := by
    have hp := (f.timers.Add_spec (f.now + d) f.chans.length h.clock_inv.queue).2.2.2.2
    exact hp.symm.subset (List.mem_cons_self _ _)
  obtain ⟨x, hx, ex⟩ := timeQueue.mem_ents.1 hm
  have hch : x.ch = f.chans.length := congrArg (fun e : Nat × Int × Nat => e.2.2) ex
  have hxt : x.t = f.now + d := congrArg (fun e : Nat × Int × Nat => e.2.1) ex
  obtain ⟨f1, e, hb⟩ := faketime.SetNows_pending ts _ x hinv hx
  rw [hch, hxt] at hb
  exact ⟨_, _, f1, ha, e, hb⟩

/-- C10: for every `d ≤ 0`, `After(d)` returns a new channel whose buffer holds exactly the
current now; the timer queue, now and every other buffer are as before. -/
theorem After_nonpositive (f : faketime) (d : Int) (hd : d ≤ 0) :
    ∃ ch f1, f.After d = some (ch, f1) ∧ f1.buf ch = [f.now] ∧ f1.timers = f.timers ∧
      f1.now = f.now ∧ f1.Now = f.Now ∧ ch = f.chans.length ∧
      (∀ c, c < f.chans.length → f1.buf c = f.buf c) :=
  ⟨_, _, f.After_nonpos d hd, getD_append_length _ _, rfl, rfl, rfl, rfl,
    fun _ hc => getD_append_left _ _ _ hc⟩

end gotime

namespace gotime

open queue

/-- On a new settable clock, `SetNow(-5)` returns and `Now()` is `-5`. -/
theorem SetNow_then_Now_witness :
    NewSettableClock.Reachable ∧ ∃ f1, NewSettableClock.SetNow (-5) = some f1 ∧ f1.Now = -5 :=
  ⟨faketime.Reachable.new, SetNow_then_Now NewSettableClock (-5) faketime.Reachable.new⟩

/-- After `After(3)` on a new settable clock, `SetNow(epoch + 3)` empties the queue and fills the
channel. -/
theorem SetNow_delivers_due_witness :
    ∃ f0 : faketime, f0.Reachable ∧ f0.timers.ents = [(0, unixEpoch + 3, 0)] ∧
      ∃ f1, f0.SetNow (unixEpoch + 3) = some f1 ∧ f1.timers.ents = [] ∧ f1.buf 0 = [unixEpoch + 3] :=
  have ha := NewSettableClock.After_pos 3 (by decide)
  have hr := faketime.Reachable.After 3 _ faketime.Reachable.new ha
  ⟨_, hr, by decide, by
    obtain ⟨f1, e, hdue, _, hp, _⟩ := SetNow_delivers_due _ (unixEpoch + 3) hr
    exact ⟨f1, e, List.perm_nil.1 (hp.trans (by decide)),
      (hdue ⟨0, unixEpoch + 3, 0, 0⟩ (by decide) (by decide)).2.trans (by decide)⟩⟩

/-- After `After(3)` on a new settable clock, the calls `SetNow(epoch + 1)`, `SetNow(epoch + 4)`,
`SetNow(epoch + 9)` leave exactly `epoch + 4` in the channel. -/
theorem After_fires_once_witness :
    NewSettableClock.Reachable ∧ (0 : Int) < 3 ∧
      ∃ ch f0 f1, NewSettableClock.After 3 = some (ch, f0) ∧
        f0.SetNows [unixEpoch + 1, unixEpoch + 4, unixEpoch + 9] = some f1 ∧
        f1.buf ch = [unixEpoch + 4] :=
  ⟨faketime.Reachable.new, by decide, by
    obtain ⟨ch, f0, f1, ha, e, hb⟩ := After_fires_once NewSettableClock 3
      [unixEpoch + 1, unixEpoch + 4, unixEpoch + 9] faketime.Reachable.new (by decide)
    exact ⟨ch, f0, f1, ha, e, hb.trans (by decide)⟩⟩

/-- On a new settable clock, `After(-1)` returns a channel holding the epoch. -/
theorem After_nonpositive_witness :
    (-1 : Int) ≤ 0 ∧
      ∃ ch f1, NewSettableClock.After (-1) = some (ch, f1) ∧ f1.buf ch = [unixEpoch] :=
  ⟨by decide, by
    obtain ⟨ch, f1, ha, hb, _⟩ := After_nonpositive NewSettableClock (-1) (by decide)
    exact ⟨ch, f1, ha, hb⟩⟩

end gotime

/-! ## Durations -/

namespace time

theorem Sub_of_fits (t u : Int) (h1 : minDuration ≤ t - u) (h2 : t - u ≤ maxDuration) :
    Sub t u = t - u := by
  unfold Sub
  rw [if_neg (by omega), if_neg (by omega)]

theorem Sub_self (t : Int) : Sub t t = 0 := by
  rw [Sub_of_fits t t (by simp [minDuration]) (by simp [maxDuration])]
  omega

theorem Sub_above (t u : Int) (h : maxDuration < t - u) : Sub t u = maxDuration := by
  unfold Sub
  rw [if_pos h]

theorem Sub_below (t u : Int) (h : t - u < minDuration) : Sub t u = minDuration := by
  have h0 : minDuration ≤ maxDuration := by decide
  unfold Sub
  rw [if_neg (by omega), if_pos h]

theorem addDuration_of_fits (x y : Int) (h1 : minDuration ≤ x + y) (h2 : x + y ≤ maxDuration) :
    addDuration x y = x + y := by
  unfold addDuration
  unfold minDuration at h1
  unfold maxDuration at h2
  omega

end time

/-! ## `float64` -/

namespace gotime

open queue

theorem float64.bitLenAux_le : ∀ (fuel m k : Nat), m < 2 ^ k → float64.bitLenAux fuel m ≤ k
  | 0, _, _, _ => Nat.zero_le _
  | fuel + 1, m, k, h => by
    simp only [float64.bitLenAux]
    split_ifs with h0
    · exact Nat.zero_le _
    · cases k with
      | zero =>
        simp at h
        exact absurd h h0
      | succ k =>
        have h2 : m / 2 < 2 ^ k := by
          rw [Nat.div_lt_iff_lt_mul (by decide)]
          rw [Nat.pow_succ] at h
          exact h
        have := float64.bitLenAux_le fuel (m / 2) k h2
        omega

/-- With enough fuel `bitLenAux` gives the number of binary digits: `m` lies below `2` to that
power and, when it is not `0`, at or above the power before. -/
theorem float64.bitLenAux_spec : ∀ (fuel m : Nat), m ≤ fuel →
    m < 2 ^ float64.bitLenAux fuel m ∧ (m ≠ 0 → 2 ^ (float64.bitLenAux fuel m - 1) ≤ m)
  | 0, m, h => by
    have : m = 0 := Nat.le_zero.1 h
    subst this
    simp [float64.bitLenAux]
  | fuel + 1, m, h => by
    simp only [float64.bitLenAux]
    split_ifs with h0
    · subst h0
      simp
    · have hm : m / 2 ≤ fuel := by omega
      obtain ⟨h1, h2⟩ := float64.bitLenAux_spec fuel (m / 2) hm
      constructor
      · rw [Nat.pow_succ]
        omega
      · intro _
        simp only [Nat.add_sub_cancel]
        by_cases h3 : m / 2 = 0
        · have : float64.bitLenAux fuel (m / 2) = 0 := by
            rw [h3]
            cases fuel <;> simp [float64.bitLenAux]
          rw [this]
          simp
          omega
        · have h4 := h2 h3
          have h5 : 0 < float64.bitLenAux fuel (m / 2) := by
            by_contra hc
            have : float64.bitLenAux fuel (m / 2) = 0 := by omega
            rw [this] at h1
            simp at h1
            exact h3 h1
          have e : float64.bitLenAux fuel (m / 2) =
              (float64.bitLenAux fuel (m / 2) - 1) + 1 := by omega
          rw [e, Nat.pow_succ]
          omega

theorem float64.bitLenAux_fuel : ∀ (f1 f2 m : Nat), m ≤ f1 → m ≤ f2 →
    float64.bitLenAux f1 m = float64.bitLenAux f2 m
  | 0, f2, m, h1, _ => by
    have : m = 0 := Nat.le_zero.1 h1
    subst this
    cases f2 <;> simp [float64.bitLenAux]
  | f1 + 1, 0, m, _, h2 => by
    have : m = 0 := Nat.le_zero.1 h2
    subst this
    simp [float64.bitLenAux]
  | f1 + 1, f2 + 1, m, h1, h2 => by
    simp only [float64.bitLenAux]
    split_ifs with h0
    · rfl
    · rw [float64.bitLenAux_fuel f1 f2 (m / 2) (by omega) (by omega)]

theorem float64.bitLen_le (m k : Nat) (h : m < 2 ^ k) : float64.bitLen m ≤ k :=
  float64.bitLenAux_le m m k h

/-- An integer of at most 53 binary digits converts to `float64` without rounding. -/
theorem float64.ofInt_exact (d : Int) (h : d.natAbs < 2 ^ 53) :
    float64.ofInt d = float64.fin (decide (d < 0)) d.natAbs 0 := by
  unfold float64.ofInt float64.round
  by_cases h0 : d.natAbs = 0
  · simp [h0]
  · have hb := float64.bitLen_le d.natAbs 53 h
    have h1 : max ((0 : Int) + (float64.bitLen d.natAbs : Int) - 53) (-1074) ≤ 0 := by
      apply max_le <;> omega
    have h2 : ¬ (1024 : Int) < 0 + (float64.bitLen d.natAbs : Int) := by omega
    simp only [h0, if_false, h1, if_true, h2]

theorem float64.mul_one_exact (neg : Bool) (m : Nat) (h : m < 2 ^ 53) :
    (float64.fin neg m 0).mul (float64.fin false 1 0) = float64.fin neg m 0 := by
  simp only [float64.mul, Nat.mul_one, Int.add_zero, Bool.xor_false]
  unfold float64.round
  by_cases h0 : m = 0
  · simp [h0]
  · have hb := float64.bitLen_le m 53 h
    have h1 : max ((0 : Int) + (float64.bitLen m : Int) - 53) (-1074) ≤ 0 := by
      apply max_le <;> omega
    have h2 : ¬ (1024 : Int) < 0 + (float64.bitLen m : Int) := by omega
    simp only [h0, if_false, h1, if_true, h2]

theorem float64.toInt64_ofNatAbs (d : Int) (h1 : -(2 ^ 63) ≤ d) (h2 : d < 2 ^ 63) :
    (float64.fin (decide (d < 0)) d.natAbs 0).toInt64 = d := by
  simp only [float64.toInt64, le_refl, if_true, Int.toNat_zero, pow_zero, Nat.mul_one]
  by_cases h : d < 0
  · have e : -(d.natAbs : Int) = d := by omega
    simp only [h, decide_True, if_true, e, h1, h2, and_self]
  · have e : (d.natAbs : Int) = d := by omega
    simp only [h, decide_False, Bool.false_eq_true, if_false, e, h1, h2, and_self, if_true]

theorem float64.ofInt_one : float64.ofInt 1 = float64.fin false 1 0 := by decide

/-- The product of the `float64` zero and a positive finite `float64` converts to `0`. -/
theorem float64.zero_mul_toInt64 (r : float64) (h : r.posFinite = true) :
    ((float64.ofInt 0).mul r).toInt64 = 0 := by
  have e0 : float64.ofInt 0 = float64.fin false 0 0 := by decide
  rw [e0]
  cases r with
  | nan => simp [float64.posFinite] at h
  | inf neg => simp [float64.posFinite] at h
  | fin neg m e =>
    simp [float64.mul, float64.round, float64.toInt64]

/-- The guard of `SetWarpSpeed` lets through exactly the positive finite ratios. -/
theorem float64.posFinite_iff (r : float64) :
    r.posFinite = true ↔ (r.leZero || math.IsNaN r || math.IsInf r 0) = false := by
  cases r with
  | nan => simp [float64.posFinite, float64.leZero, math.IsNaN]
  | inf neg => cases neg <;> simp [float64.posFinite, float64.leZero, math.IsNaN, math.IsInf]
  | fin neg m e =>
    cases neg <;> simp [float64.posFinite, float64.leZero, math.IsNaN, math.IsInf]

end gotime

namespace gotime

open queue

/-! ## The settable clock: `Add` and `Since` -/

/-- C12: against the `Add` of the spec (the method is not in `fake.go`): on every reached
settable clock with now `n`, for every `d` (positive, zero or negative), `Add(d)` returns `n`,
the next `Now()` is `n + d`, and the clock afterwards is the one `SetNow(Now() + d)` gives. -/
theorem Add_as_SetNow (f : faketime) (d : Int) (h : f.Reachable) :
    ∃ f1, f.Add d = some (f.Now, f1) ∧ f1.Now = f.Now + d ∧ f.SetNow (f.Now + d) = some f1 := by
  obtain ⟨f1, e, hn, _⟩ := f.SetNow_spec (f.Now + d) h.clock_inv
  exact ⟨f1, by simp only [faketime.Add, e], hn, e⟩

/-- C13, as amended: on the settable clock `Since(t)` is `Now().Sub(t)`: after `SetNow(n)` on a
reached clock it is `n - t` when that is a `time.Duration` (negative when `t` is after `n`, zero
when `t` is `n`), `maxDuration` when `n - t` is above it and `minDuration` when `n - t` is below
it. -/
theorem Since_saturating (f : faketime) (n t : Int) (h : f.Reachable) :
    ∃ f1, f.SetNow n = some f1 ∧
      (time.minDuration ≤ n - t → n - t ≤ time.maxDuration →
        f1.Since t = n - t ∧ (n < t → f1.Since t < 0) ∧ (t = n → f1.Since t = 0)) ∧
      (time.maxDuration < n - t → f1.Since t = time.maxDuration) ∧
      (n - t < time.minDuration → f1.Since t = time.minDuration) := by
  obtain ⟨f1, e, hn0, _⟩ := f.SetNow_spec n h.clock_inv
  have hn : f1.Now = n := hn0
  refine ⟨f1, e, ?_, ?_, ?_⟩
  · intro h1 h2
    have hs : f1.Since t = n - t := by
      unfold faketime.Since
      rw [hn, time.Sub_of_fits n t h1 h2]
    refine ⟨hs, ?_, ?_⟩
    · intro hlt
      rw [hs]
      omega
    · intro he
      rw [hs]
      omega
  · intro h1
    unfold faketime.Since
    rw [hn, time.Sub_above n t h1]
  · intro h1
    unfold faketime.Since
    rw [hn, time.Sub_below n t h1]

/-! ## The warping clock -/

theorem simulation.makeTimer_fields (s : simulation) (b d : Int) :
    (s.makeTimer b d).start = s.start ∧ (s.makeTimer b d).drift = s.drift ∧
    (s.makeTimer b d).ratio = s.ratio ∧ (s.makeTimer b d).timers = s.timers :=
  ⟨rfl, rfl, rfl, rfl⟩

theorem simulation.triggerTimers_fields (s : simulation) (b t : Int) :
    (s.triggerTimers b t).start = s.start ∧ (s.triggerTimers b t).drift = s.drift ∧
    (s.triggerTimers b t).ratio = s.ratio ∧ (s.triggerTimers b t).timers = s.timers := by
  unfold simulation.triggerTimers
  dsimp only
  split_ifs
  · exact s.makeTimer_fields _ _
  · exact ⟨rfl, rfl, rfl, rfl⟩

theorem simulation.SetWarpSpeed_reject (s : simulation) (b : Int) (ratio : float64)
    (h : ratio.posFinite = false) :
    s.SetWarpSpeed b ratio = (some error.ErrNegativeRatio, s) := by
  have hg : (ratio.leZero || math.IsNaN ratio || math.IsInf ratio 0) = true := by
    by_contra hc
    have := (float64.posFinite_iff ratio).2 (by simpa using hc)
    rw [h] at this
    exact Bool.noConfusion this
  simp only [simulation.SetWarpSpeed, hg, if_true]

theorem simulation.SetWarpSpeed_accept (s : simulation) (b : Int) (ratio : float64)
    (h : ratio.posFinite = true) :
    (s.SetWarpSpeed b ratio).1 = none ∧ (s.SetWarpSpeed b ratio).2.start = b ∧
    (s.SetWarpSpeed b ratio).2.drift = time.Sub (s.lockedNow b) b ∧
    (s.SetWarpSpeed b ratio).2.ratio = ratio ∧
    (s.SetWarpSpeed b ratio).2.timers = s.timers := by
  have hg := (float64.posFinite_iff ratio).1 h
  simp only [simulation.SetWarpSpeed, hg, Bool.false_eq_true, if_false]
  split_ifs
  · exact ⟨rfl, rfl, rfl, rfl, rfl⟩
  · exact ⟨rfl, rfl, rfl, rfl, rfl⟩

/-- C14: `SetWarpSpeed(ratio)` returns `ErrNegativeRatio` exactly when `ratio <= 0`, `ratio` is a
NaN or `ratio` is an infinity, which is exactly when `ratio` is not positive and finite; the
clock (start, drift, ratio, queue, backing timers and the cancel function held) is then
unchanged; for a positive finite ratio it returns `nil` and the ratio is installed. -/
theorem SetWarpSpeed_error_iff (s : simulation) (b : Int) (ratio : float64) :
    ((s.SetWarpSpeed b ratio).1 = some error.ErrNegativeRatio ↔
      (ratio.leZero = true ∨ math.IsNaN ratio = true ∨ math.IsInf ratio 0 = true)) ∧
    ((ratio.leZero = true ∨ math.IsNaN ratio = true ∨ math.IsInf ratio 0 = true) ↔
      ratio.posFinite = false) ∧
    ((s.SetWarpSpeed b ratio).1 = some error.ErrNegativeRatio → (s.SetWarpSpeed b ratio).2 = s) ∧
    (ratio.posFinite = true →
      (s.SetWarpSpeed b ratio).1 = none ∧ (s.SetWarpSpeed b ratio).2.ratio = ratio) := by
  have hiff : (ratio.leZero = true ∨ math.IsNaN ratio = true ∨ math.IsInf ratio 0 = true) ↔
      ratio.posFinite = false := by
    have := float64.posFinite_iff ratio
    cases hp : ratio.posFinite
    · rw [hp] at this
      simp only [Bool.false_eq_true, false_iff, Bool.not_eq_false] at this
      simp only [Bool.or_eq_true] at this
      constructor
      · intro _
        rfl
      · intro _
        rcases this with (h1 | h2) | h3
        · exact Or.inl h1
        · exact Or.inr (Or.inl h2)
        · exact Or.inr (Or.inr h3)
    · rw [hp] at this
      have hg := this.1 rfl
      simp only [Bool.or_eq_false_iff] at hg
      constructor
      · rintro (h1 | h2 | h3)
        · rw [hg.1.1] at h1
          exact Bool.noConfusion h1
        · rw [hg.1.2] at h2
          exact Bool.noConfusion h2
        · rw [hg.2] at h3
          exact Bool.noConfusion h3
      · intro hc
        exact Bool.noConfusion hc
  have herr : (s.SetWarpSpeed b ratio).1 = some error.ErrNegativeRatio ↔
      ratio.posFinite = false := by
    cases hp : ratio.posFinite
    · rw [s.SetWarpSpeed_reject b ratio hp]
      simp
    · rw [(s.SetWarpSpeed_accept b ratio hp).1]
      simp
  refine ⟨herr.trans hiff.symm, hiff, ?_, ?_⟩
  · intro he
    rw [s.SetWarpSpeed_reject b ratio (herr.1 he)]
  · intro hp
    exact ⟨(s.SetWarpSpeed_accept b ratio hp).1, (s.SetWarpSpeed_accept b ratio hp).2.2.2.1⟩

/-- After a successful `SetWarpSpeed(r)` at backing time `b`, the simulated now at backing time
`b + Δ` is the simulated now before the call plus the conversion of `Δ` at ratio `r`, when the
three durations of the computation are in the `int64` range. -/
theorem simulation.SetWarpSpeed_Now (s : simulation) (b Δ : Int) (r : float64)
    (h : r.posFinite = true) (h1 : time.fits (s.Now b - b) = true) (h2 : time.fits Δ = true)
    (h3 : time.fits (((float64.ofInt Δ).mul r).toInt64 + (s.Now b - b)) = true) :
    (s.SetWarpSpeed b r).2.Now (b + Δ) = s.Now b + ((float64.ofInt Δ).mul r).toInt64 := by
  obtain ⟨_, e1, e2, e3, _⟩ := s.SetWarpSpeed_accept b r h
  simp only [time.fits, decide_eq_true_eq] at h1 h2 h3
  have eΔ : b + Δ - b = Δ := by omega
  have hd : time.Sub (s.lockedNow b) b = s.Now b - b := time.Sub_of_fits _ _ h1.1 h1.2
  have hΔ : time.Sub (b + Δ) b = Δ := by
    rw [time.Sub_of_fits _ _ (by rw [eΔ]; exact h2.1) (by rw [eΔ]; exact h2.2), eΔ]
  have hnow : (s.SetWarpSpeed b r).2.Now (b + Δ) =
      (s.SetWarpSpeed b r).2.start +
        time.addDuration
          ((float64.ofInt (time.Sub (b + Δ) (s.SetWarpSpeed b r).2.start)).mul
            (s.SetWarpSpeed b r).2.ratio).toInt64
          (s.SetWarpSpeed b r).2.drift := rfl
  rw [hnow, e1, e2, e3, hd, hΔ, time.addDuration_of_fits _ _ h3.1 h3.2]
  omega

/-- C15, as amended: for every state of the warping clock whose simulated now is within a
`time.Duration` of the backing now, and every positive finite `r`, `SetWarpSpeed(r)` succeeds
and, the backing clock standing still, `Now()` after the call is `Now()` before it. -/
theorem SetWarpSpeed_keeps_Now (s : simulation) (b : Int) (r : float64)
    (h : r.posFinite = true) (h1 : time.minDuration ≤ s.Now b - b)
    (h2 : s.Now b - b ≤ time.maxDuration) :
    (s.SetWarpSpeed b r).1 = none ∧ (s.SetWarpSpeed b r).2.Now b = s.Now b := by
  refine ⟨(s.SetWarpSpeed_accept b r h).1, ?_⟩
  have hf : time.fits (s.Now b - b) = true := by
    simp only [time.fits, decide_eq_true_eq]
    exact ⟨h1, h2⟩
  have hz : time.fits 0 = true := by decide
  have := s.SetWarpSpeed_Now b 0 r h hf hz (by rw [float64.zero_mul_toInt64 r h, zero_add]; exact hf)
  rw [float64.zero_mul_toInt64 r h] at this
  simpa using this

/-- Over a run of successful `SetWarpSpeed` calls in which no duration leaves the `int64` range,
the change of the simulated now is the sum of the converted products. -/
theorem simulation.warpRun_sum : ∀ (steps : List (float64 × Int)) (s : simulation) (b : Int),
    (∀ p ∈ steps, p.1.posFinite = true) → s.warpFits b steps = true →
    (s.warpRun b steps).1.Now (s.warpRun b steps).2 - s.Now b =
      (steps.map (fun p => ((float64.ofInt p.2).mul p.1).toInt64)).sum
  | [], s, b, _, _ => by simp [simulation.warpRun]
  | (r, Δ) :: rest, s, b, h, hf => by
    have hr : r.posFinite = true := h (r, Δ) (List.mem_cons_self _ _)
    simp only [simulation.warpFits, Bool.and_eq_true] at hf
    obtain ⟨⟨⟨f1, f2⟩, f3⟩, f4⟩ := hf
    have ih := simulation.warpRun_sum rest (s.SetWarpSpeed b r).2 (b + Δ)
      (fun p hp => h p (List.mem_cons_of_mem _ hp)) f4
    have hs := s.SetWarpSpeed_Now b Δ r hr f1 f2 f3
    simp only [simulation.warpRun, List.map_cons, List.sum_cons]
    omega

/-- C16, as amended: for every run of successful `SetWarpSpeed(r_i)` calls, each followed by a
backing advance `Δ_i` (of either sign), with no `SetNow` or `Add` in between, in which no
duration leaves the `int64` range, the change of `Now()` over the run is the sum of the terms
`time.Duration(float64(Δ_i) * r_i)`: each product is taken in `float64` and cut to whole
nanoseconds. -/
theorem warpRun_total (s : simulation) (b : Int) (steps : List (float64 × Int))
    (h : ∀ p ∈ steps, p.1.posFinite = true) (hf : s.warpFits b steps = true) :
    (s.warpRun b steps).1.Now (s.warpRun b steps).2 - s.Now b =
      (steps.map (fun p => ((float64.ofInt p.2).mul p.1).toInt64)).sum :=
  simulation.warpRun_sum steps s b h hf

/-- C17, as amended: on a warping clock with ratio `1` and zero drift, for every backing time
within `2^53` nanoseconds of the origin (about 104 days), on either side, `Now()` is the backing
time exactly. -/
theorem Now_identity_near_origin (s : simulation) (b : Int) (hr : s.ratio = float64.ofInt 1)
    (hd : s.drift = 0) (hb : (b - s.start).natAbs ≤ 2 ^ 53) : s.Now b = b := by
  have hsub : time.Sub b s.start = b - s.start :=
    time.Sub_of_fits _ _ (by unfold time.minDuration; omega) (by unfold time.maxDuration; omega)
  have key : s.toSimulatedDuration (b - s.start) = b - s.start := by
    unfold simulation.toSimulatedDuration
    rw [hr, float64.ofInt_one]
    rcases Nat.lt_or_eq_of_le hb with hlt | heq
    · rw [float64.ofInt_exact _ hlt, float64.mul_one_exact _ _ hlt,
        float64.toInt64_ofNatAbs _ (by omega) (by omega)]
    · have hc : b - s.start = 2 ^ 53 ∨ b - s.start = -(2 ^ 53) := by omega
      rcases hc with e | e <;> rw [e] <;> decide
  simp only [simulation.Now, simulation.lockedNow, hsub, key, hd]
  rw [time.addDuration_of_fits _ _ (by unfold time.minDuration; omega)
    (by unfold time.maxDuration; omega)]
  omega

end gotime

namespace gotime

open queue

/-! ## The warping clock: what `SetNow`, `Add` and `Since` compute -/

/-- C11: on the warping clock `SetNow(t)` returns the backing clock's now, whatever the start,
the drift and the ratio; on the clock made at backing time `0` and set to warp speed `2`, at
backing time `10`, `Now()` is `20` and `SetNow(100)` returns `10`. -/
theorem SetNow_returns_backing_now :
    (∀ (s : simulation) (b t : Int), (s.SetNow b t).1 = b) ∧
    doubleSpeed.Now 10 = 20 ∧ (doubleSpeed.SetNow 10 100).1 = 10 :=
  ⟨fun _ _ _ => rfl, by decide, by decide⟩

/-- C18: after `SetNow(t)` at backing time `b`, `Now()` at the same backing time is `t` plus the
sum of `time.Duration(float64(d) * ratio)` and `d`, for `d` the duration `b.Sub(t)`; on a new
clock made at backing time `0`, `SetNow(3)` at backing time `10` makes `Now()` `17`. -/
theorem SetNow_then_Now_warping :
    (∀ (s : simulation) (b t : Int),
      (s.SetNow b t).2.Now b =
        t + time.addDuration ((float64.ofInt (time.Sub b t)).mul s.ratio).toInt64
          (time.Sub b t)) ∧
    ((NewTimeWarpableClock 0).SetNow 10 3).2.Now 10 = 17 := by
  refine ⟨fun s b t => ?_, by decide⟩
  obtain ⟨h1, h2, h3, _⟩ :=
    simulation.triggerTimers_fields
      { s with start := t, drift := time.Sub b t } b t
  simp only [simulation.SetNow, simulation.Now, simulation.lockedNow,
    simulation.toSimulatedDuration, h1, h2, h3]

/-- C19: after `Add(d)` at backing time `b`, `Now()` at the same backing time is `b + d` plus the
sum of `time.Duration(float64(e) * ratio)` and `e`, for `e` the duration `b.Sub(b + d)`, which
is `-d`; on a new clock made at backing time `0`, where `Now()` is `0`, `Add(5)` makes `Now()`
`-5`. -/
theorem Add_then_Now_warping :
    (∀ (s : simulation) (b d : Int),
      (s.Add b d).2.Now b =
        b + d + time.addDuration ((float64.ofInt (time.Sub b (b + d))).mul s.ratio).toInt64
          (time.Sub b (b + d))) ∧
    (NewTimeWarpableClock 0).Now 0 = 0 ∧ ((NewTimeWarpableClock 0).Add 0 5).2.Now 0 = -5 := by
  refine ⟨fun s b d => ?_, by decide, by decide⟩
  obtain ⟨h1, h2, h3, _⟩ :=
    simulation.triggerTimers_fields
      { s with start := b + d, drift := time.Sub b (b + d) } b (b + d)
  simp only [simulation.Add, simulation.Now, simulation.lockedNow,
    simulation.toSimulatedDuration, h1, h2, h3]

set_option maxRecDepth 8000 in
/-- C20: on the warping clock `Since(t)` is `time.Duration(float64(Now().Sub(t)) / ratio)`; at
warp speed `60`, with `past` the `Now()` at backing time `0`, one backing second later `Now()`
is one minute after `past` and `Since(past)` is one second. -/
theorem Since_rescaled :
    (∀ (s : simulation) (b t : Int),
      s.Since b t = ((float64.ofInt (time.Sub (s.Now b) t)).div s.ratio).toInt64) ∧
    sixtySpeed.ratio = float64.ofInt 60 ∧
    sixtySpeed.Now 0 = 0 ∧ sixtySpeed.Now 1000000000 = 60000000000 ∧
    sixtySpeed.Since 1000000000 0 = 1000000000 :=
  ⟨fun _ _ _ => rfl, by decide, by decide, by decide, by decide⟩

/-- C13: on a new settable clock, whose now is the Unix epoch, `Since` of the zero `time.Time`
is `maxDuration`, not the difference of the two times. -/
theorem Since_exact_counterexample :
    NewSettableClock.Reachable ∧ NewSettableClock.Now = unixEpoch ∧
    NewSettableClock.Since 0 = 2 ^ 63 - 1 ∧ NewSettableClock.Since 0 ≠ NewSettableClock.Now - 0 :=
  ⟨faketime.Reachable.new, rfl, by decide, by decide⟩

/-- C15: the warping clock made at backing time `0` and set to `-2^62` at once reads `-3 * 2^62`
at backing time `0`; after `SetWarpSpeed(1)`, which succeeds, it reads `-2^63` at the same
backing time. -/
theorem SetWarpSpeed_keeps_Now_counterexample :
    (float64.ofInt 1).posFinite = true ∧ setFarBack.Now 0 = -(3 * 2 ^ 62) ∧
    (setFarBack.SetWarpSpeed 0 (float64.ofInt 1)).1 = none ∧
    (setFarBack.SetWarpSpeed 0 (float64.ofInt 1)).2.Now 0 = -(2 ^ 63) ∧
    (setFarBack.SetWarpSpeed 0 (float64.ofInt 1)).2.Now 0 ≠ setFarBack.Now 0 :=
  ⟨by decide, by decide, by decide, by decide, by decide⟩

set_option maxRecDepth 8000 in
/-- C16: on a new warping clock, warp speed `2^61` for three backing nanoseconds, twice: each
term `time.Duration(float64(3) * 2^61)` is `3 * 2^61`, and `Now()` changes by `-2^62`. -/
theorem warpRun_total_counterexample :
    (∀ p ∈ twiceFarAhead, p.1.posFinite = true ∧ 0 ≤ p.2) ∧
    twiceFarAhead.map (fun p => ((float64.ofInt p.2).mul p.1).toInt64) =
      [3 * 2 ^ 61, 3 * 2 ^ 61] ∧
    ((NewTimeWarpableClock 0).warpRun 0 twiceFarAhead).1.Now
        ((NewTimeWarpableClock 0).warpRun 0 twiceFarAhead).2 - (NewTimeWarpableClock 0).Now 0 =
      -(2 ^ 62) ∧
    ((NewTimeWarpableClock 0).warpRun 0 twiceFarAhead).1.Now
        ((NewTimeWarpableClock 0).warpRun 0 twiceFarAhead).2 - (NewTimeWarpableClock 0).Now 0 ≠
      (twiceFarAhead.map (fun p => ((float64.ofInt p.2).mul p.1).toInt64)).sum :=
  ⟨by decide, by decide, by decide, by decide⟩

/-- C17: on a new warping clock made at backing time `0` (ratio `1`, drift `0`), at backing time
`2^53 + 1` the `Now()` is `2^53`, one nanosecond behind the backing clock. -/
theorem Now_identity_counterexample :
    (NewTimeWarpableClock 0).ratio = float64.ofInt 1 ∧ (NewTimeWarpableClock 0).drift = 0 ∧
    (NewTimeWarpableClock 0).start ≤ 2 ^ 53 + 1 ∧
    (NewTimeWarpableClock 0).Now (2 ^ 53 + 1) = 2 ^ 53 ∧
    (NewTimeWarpableClock 0).Now (2 ^ 53 + 1) ≠ 2 ^ 53 + 1 :=
  ⟨rfl, rfl, by decide, by decide, by decide⟩

/-! ## Concrete clocks -/

/-- After `After(3)` on a new settable clock, `Add(-7)` returns the epoch and moves now to
`epoch - 7`. -/
theorem Add_as_SetNow_witness :
    ∃ f0 : faketime, f0.Reachable ∧
      ∃ f1, f0.Add (-7) = some (unixEpoch, f1) ∧ f1.Now = unixEpoch + -7 :=
  have ha := NewSettableClock.After_pos 3 (by decide)
  have hr := faketime.Reachable.After 3 _ faketime.Reachable.new ha
  ⟨_, hr, by
    obtain ⟨f1, e, hn, _⟩ := Add_as_SetNow _ (-7) hr
    exact ⟨f1, e, hn⟩⟩

/-- On a new settable clock, after `SetNow(5)`, `Since(8)` is `-3`. -/
theorem Since_saturating_witness :
    NewSettableClock.Reachable ∧
      ∃ f1, NewSettableClock.SetNow 5 = some f1 ∧ f1.Since 8 = -3 :=
  ⟨faketime.Reachable.new, by
    obtain ⟨f1, e, hs, _⟩ := Since_saturating NewSettableClock 5 8 faketime.Reachable.new
    exact ⟨f1, e, (hs (by decide) (by decide)).1.trans (by decide)⟩⟩

/-- On a new warping clock `SetWarpSpeed(-1)` and `SetWarpSpeed(0)` return `ErrNegativeRatio`
and `SetWarpSpeed(60)` returns `nil` and installs `60`. -/
theorem SetWarpSpeed_error_iff_witness :
    ((NewTimeWarpableClock 0).SetWarpSpeed 0 (float64.ofInt (-1))).1 =
      some error.ErrNegativeRatio ∧
    ((NewTimeWarpableClock 0).SetWarpSpeed 0 (float64.ofInt 0)).1 =
      some error.ErrNegativeRatio ∧
    ((NewTimeWarpableClock 0).SetWarpSpeed 0 (float64.ofInt 60)).1 = none ∧
    ((NewTimeWarpableClock 0).SetWarpSpeed 0 (float64.ofInt 60)).2.ratio = float64.ofInt 60 :=
  ⟨(SetWarpSpeed_error_iff (NewTimeWarpableClock 0) 0 (float64.ofInt (-1))).1.2
      (Or.inl (by decide)),
    (SetWarpSpeed_error_iff (NewTimeWarpableClock 0) 0 (float64.ofInt 0)).1.2
      (Or.inl (by decide)),
    ((SetWarpSpeed_error_iff (NewTimeWarpableClock 0) 0 (float64.ofInt 60)).2.2.2
      (by decide)).1,
    ((SetWarpSpeed_error_iff (NewTimeWarpableClock 0) 0 (float64.ofInt 60)).2.2.2
      (by decide)).2⟩

/-- The clock at warp speed `2` reads `20` at backing time `10`, before and after
`SetWarpSpeed(60)`. -/
theorem SetWarpSpeed_keeps_Now_witness :
    (float64.ofInt 60).posFinite = true ∧
    time.minDuration ≤ doubleSpeed.Now 10 - 10 ∧ doubleSpeed.Now 10 - 10 ≤ time.maxDuration ∧
    (doubleSpeed.SetWarpSpeed 10 (float64.ofInt 60)).1 = none ∧
    (doubleSpeed.SetWarpSpeed 10 (float64.ofInt 60)).2.Now 10 = 20 :=
  ⟨by decide, by decide, by decide,
    (SetWarpSpeed_keeps_Now doubleSpeed 10 (float64.ofInt 60) (by decide) (by decide)
      (by decide)).1,
    (SetWarpSpeed_keeps_Now doubleSpeed 10 (float64.ofInt 60) (by decide) (by decide)
      (by decide)).2.trans (by decide)⟩

set_option maxRecDepth 8000 in
/-- One backing minute at warp speed `60` and one at warp speed `1/60` advance `Now()` by one
hour and one second. -/
theorem warpRun_total_witness :
    (∀ p ∈ hourThenSecond, p.1.posFinite = true) ∧
    (NewTimeWarpableClock 0).warpFits 0 hourThenSecond = true ∧
    ((NewTimeWarpableClock 0).warpRun 0 hourThenSecond).1.Now
        ((NewTimeWarpableClock 0).warpRun 0 hourThenSecond).2 - (NewTimeWarpableClock 0).Now 0 =
      3600000000000 + 1000000000 :=
  ⟨by decide, by decide,
    (warpRun_total (NewTimeWarpableClock 0) 0 hourThenSecond (by decide) (by decide)).trans
      (by decide)⟩

/-- A new warping clock made at backing time `7` reads `12` at backing time `12`. -/
theorem Now_identity_near_origin_witness :
    (NewTimeWarpableClock 7).ratio = float64.ofInt 1 ∧ (NewTimeWarpableClock 7).drift = 0 ∧
    ((12 : Int) - (NewTimeWarpableClock 7).start).natAbs ≤ 2 ^ 53 ∧
    (NewTimeWarpableClock 7).Now 12 = 12 :=
  ⟨rfl, rfl, by decide, Now_identity_near_origin (NewTimeWarpableClock 7) 12 rfl rfl (by decide)⟩

end gotime

/-! ## `Add` and the heap invariant on reached queues -/

namespace queue

theorem timeQueue.calls_Add_Len : ∀ (l : List (Int × Nat)) (o : timeQueue), o.Inv →
    (o.calls (l.map (fun p => Call.Add p.1 p.2))).Len = o.Len + l.length
  | [], o, _ => by simp [timeQueue.calls]
  | p :: l, o, h => by
    obtain ⟨_, hinv, _, hlen, _⟩ := o.Add_spec p.1 p.2 h
    have ih := timeQueue.calls_Add_Len l (o.Add p.1 p.2).2 hinv
    simp only [timeQueue.calls, List.map_cons, List.foldl_cons, timeQueue.call] at ih ⊢
    rw [ih, hlen, List.length_cons]
    omega

/-- C24: on every reached queue `Add(deadline, sink)` makes `Len()` one more and every entry
(id, deadline, sink) that was pending is still pending, next to the new one; `n` calls of `Add`
on a new queue give `Len() = n`, whatever the deadlines (equal ones included). -/
theorem Add_Len_succ (o : timeQueue) (t : Int) (ch : Nat) (l : List (Int × Nat))
    (h : Reachable o) :
    (o.Add t ch).2.Len = o.Len + 1 ∧
    (∀ e ∈ o.ents, e ∈ (o.Add t ch).2.ents) ∧
    (o.counter, t, ch) ∈ (o.Add t ch).2.ents ∧
    (NewTimeQueue.calls (l.map (fun p => Call.Add p.1 p.2))).Len = l.length := by
  obtain ⟨_, _, _, hlen, hperm⟩ := o.Add_spec t ch h.queue_inv
  refine ⟨hlen, ?_, ?_, ?_⟩
  · intro e he
    exact hperm.symm.subset (List.mem_cons_of_mem _ he)
  · exact hperm.symm.subset (List.mem_cons_self _ _)
  · have := timeQueue.calls_Add_Len l NewTimeQueue timeQueue.Inv.new
    rw [this]
    simp [NewTimeQueue, timeQueue.Len]

/-- C25: every queue reached from the empty queue by `Add`, cancel and `PopBeforeOrEqual` is a
heap: no position `i > 0` holds a deadline before the one at its parent `(i - 1) / 2`, every
`index` field is the position of its item, and the pending ids are pairwise distinct and below
the counter. -/
theorem Reachable_heap (o : timeQueue) (h : Reachable o) :
    (∀ i, 0 < i → i < o.Len → (o.elem ((i - 1) / 2)).t ≤ (o.elem i).t) ∧
    (∀ i, i < o.Len → (o.elem i).index = (i : Int)) ∧
    (o.items.map item.id).Nodup ∧ (∀ x ∈ o.items, x.id < o.counter) :=
  ⟨h.queue_inv.heap, h.queue_inv.index, h.queue_inv.nodup, h.queue_inv.below⟩

end queue

/-! ## The warping clock: `After`, the wake-up handler and the invariant -/

namespace gotime

open queue

theorem simulation.makeTimer_chans (s : simulation) (b d : Int) :
    (s.makeTimer b d).chans = s.chans ∧ (s.makeTimer b d).timerCancel.isSome = true :=
  ⟨rfl, rfl⟩

theorem simulation.triggerTimers_chans (s : simulation) (b t : Int) :
    (s.triggerTimers b t).chans = s.chans := by
  unfold simulation.triggerTimers
  dsimp only
  split_ifs <;> rfl

theorem timeQueue_Peek_snd (o : timeQueue) : o.Peek.2 = decide (0 < o.Len) := by
  unfold timeQueue.Peek
  by_cases h : o.Len = 0
  · simp [h]
  · have : 0 < o.Len := Nat.pos_of_ne_zero h
    simp [h, this]

theorem timeQueue_Peek_fst (o : timeQueue) (h : 0 < o.Len) : o.Peek.1 = o.key 0 := by
  unfold timeQueue.Peek
  have : o.Len ≠ 0 := by omega
  simp [this, timeQueue.key]

theorem simulation.triggerTimers_handle (s : simulation) (b t : Int)
    (h : s.timerCancel.isSome = decide (0 < s.timers.Len)) :
    (s.triggerTimers b t).timerCancel.isSome = decide (0 < s.timers.Len) := by
  unfold simulation.triggerTimers
  dsimp only
  rw [timeQueue_Peek_snd]
  by_cases h0 : 0 < s.timers.Len
  · simp only [h0, decide_True, if_true]
    rfl
  · simp only [h0, decide_False, Bool.false_eq_true, if_false]
    rw [h]
    simp [h0]

theorem simulation.After_cond (s : simulation) (b d : Int) :
    (!s.timers.Peek.2 || decide (s.timers.Peek.1 > s.lockedNow b + d)) =
      decide (s.timers.Len = 0 ∨ s.Now b + d < s.timers.key 0) := by
  rw [timeQueue_Peek_snd]
  by_cases h0 : 0 < s.timers.Len
  · have hne : s.timers.Len ≠ 0 := by omega
    rw [timeQueue_Peek_fst s.timers h0]
    simp [h0, hne, simulation.Now]
  · have hz : s.timers.Len = 0 := by omega
    simp [hz]

/-- The result of `After(d)`, case by case: a backing timer is made when the queue was empty or
its head is after `t`, the now of the first read plus `d`; the deadline queued is the now of the
second read plus `d`. -/
theorem simulation.AfterAt_eq (s : simulation) (b1 b2 d : Int) :
    s.AfterAt b1 b2 d =
      if s.timers.Len = 0 ∨ s.Now b1 + d < s.timers.key 0 then
        (s.chans.length,
          ({ s with chans := s.chans ++ [[]],
                    timers := (s.timers.Add (s.Now b2 + d) s.chans.length).2 } :
            simulation).makeTimer b2 d)
      else
        (s.chans.length,
          ({ s with chans := s.chans ++ [[]],
                    timers := (s.timers.Add (s.Now b2 + d) s.chans.length).2 } : simulation)) := by
  have hc := s.After_cond b1 d
  by_cases h : s.timers.Len = 0 ∨ s.Now b1 + d < s.timers.key 0
  · rw [if_pos h]
    have hc2 : (!s.timers.Peek.2 || decide (s.timers.Peek.1 > s.lockedNow b1 + d)) = true := by
      rw [hc]
      exact decide_eq_true h
    unfold simulation.AfterAt
    dsimp only
    exact if_pos hc2
  · rw [if_neg h]
    have hc2 : ¬ (!s.timers.Peek.2 || decide (s.timers.Peek.1 > s.lockedNow b1 + d)) = true := by
      rw [hc]
      simpa using h
    unfold simulation.AfterAt
    dsimp only
    exact if_neg hc2

/-- The result of `After(d)` with the backing clock standing still, case by case: a backing
timer is made when the queue was empty or its head is after the new deadline. -/
theorem simulation.After_eq (s : simulation) (b d : Int) :
    s.After b d =
      if s.timers.Len = 0 ∨ s.Now b + d < s.timers.key 0 then
        (s.chans.length,
          ({ s with chans := s.chans ++ [[]],
                    timers := (s.timers.Add (s.Now b + d) s.chans.length).2 } :
            simulation).makeTimer b d)
      else
        (s.chans.length,
          ({ s with chans := s.chans ++ [[]],
                    timers := (s.timers.Add (s.Now b + d) s.chans.length).2 } : simulation)) :=
  s.AfterAt_eq b b d

/-- The fields of the clock after `After(d)`. -/
theorem simulation.AfterAt_fields (s : simulation) (b1 b2 d : Int) :
    (s.AfterAt b1 b2 d).1 = s.chans.length ∧
    (s.AfterAt b1 b2 d).2.timers = (s.timers.Add (s.Now b2 + d) s.chans.length).2 ∧
    (s.AfterAt b1 b2 d).2.chans = s.chans ++ [[]] ∧
    (s.AfterAt b1 b2 d).2.start = s.start ∧ (s.AfterAt b1 b2 d).2.drift = s.drift ∧
    (s.AfterAt b1 b2 d).2.ratio = s.ratio := by
  rw [s.AfterAt_eq b1 b2 d]
  split_ifs <;> exact ⟨rfl, rfl, rfl, rfl, rfl, rfl⟩

/-- The fields of the clock after `After(d)` with the backing clock standing still. -/
theorem simulation.After_fields (s : simulation) (b d : Int) :
    (s.After b d).1 = s.chans.length ∧
    (s.After b d).2.timers = (s.timers.Add (s.Now b + d) s.chans.length).2 ∧
    (s.After b d).2.chans = s.chans ++ [[]] ∧
    (s.After b d).2.start = s.start ∧ (s.After b d).2.drift = s.drift ∧
    (s.After b d).2.ratio = s.ratio :=
  s.AfterAt_fields b b d

/-- Whether `After(d)` makes a backing timer: it does when the queue was empty or its head is
after the now of the first read plus `d`; if not, the timers and the cancel function held are
left as they were. -/
theorem simulation.AfterAt_wakes (s : simulation) (b1 b2 d : Int) :
    ((s.timers.Len = 0 ∨ s.Now b1 + d < s.timers.key 0) →
      (s.AfterAt b1 b2 d).2.wakes = (s.makeTimer b2 d).wakes ∧
      (s.AfterAt b1 b2 d).2.timerCancel = (s.makeTimer b2 d).timerCancel) ∧
    (¬ (s.timers.Len = 0 ∨ s.Now b1 + d < s.timers.key 0) →
      (s.AfterAt b1 b2 d).2.wakes = s.wakes ∧
      (s.AfterAt b1 b2 d).2.timerCancel = s.timerCancel) := by
  rw [s.AfterAt_eq b1 b2 d]
  constructor
  · intro h
    rw [if_pos h]
    exact ⟨rfl, rfl⟩
  · intro h
    rw [if_neg h]
    exact ⟨rfl, rfl⟩

/-- Whether `After(d)` with the backing clock standing still makes a backing timer: it does when
the queue was empty or its head is after the new deadline; if not, the timers and the cancel
function held are left as they were. -/
theorem simulation.After_wakes (s : simulation) (b d : Int) :
    ((s.timers.Len = 0 ∨ s.Now b + d < s.timers.key 0) →
      (s.After b d).2.wakes = (s.makeTimer b d).wakes ∧
      (s.After b d).2.timerCancel = (s.makeTimer b d).timerCancel) ∧
    (¬ (s.timers.Len = 0 ∨ s.Now b + d < s.timers.key 0) →
      (s.After b d).2.wakes = s.wakes ∧ (s.After b d).2.timerCancel = s.timerCancel) :=
  s.AfterAt_wakes b b d

theorem simulation.Inv.toFake {s : simulation} (h : s.Inv) (n : Int) :
    ({ now := n, timers := s.timers, timerAdded := false, chans := s.chans } : faketime).Inv :=
  ⟨h.queue, h.sinks, h.fresh⟩

theorem simulation.Inv.sim_new (b : Int) : (NewTimeWarpableClock b).Inv := by
  refine ⟨timeQueue.Inv.new, ?_, ?_, ?_⟩
  · simp [NewTimeWarpableClock, NewTimeQueue]
  · intro x hx
    simp [NewTimeWarpableClock, NewTimeQueue] at hx
  · simp [NewTimeWarpableClock, NewTimeQueue, timeQueue.Len]

theorem simulation.Inv.sim_after {s : simulation} (h : s.Inv) (b1 b2 d : Int) :
    (s.AfterAt b1 b2 d).2.Inv := by
  obtain ⟨_, ht, hc, _, _, _⟩ := s.AfterAt_fields b1 b2 d
  have hf := h.toFake (s.Now b2 + d - 1)
  have ha := faketime.After_pos
    ({ now := s.Now b2 + d - 1, timers := s.timers, timerAdded := false, chans := s.chans } :
      faketime) 1 (by decide)
  have hi := hf.after 1 _ ha
  have e : s.Now b2 + d - 1 + 1 = s.Now b2 + d := by omega
  simp only [e] at hi
  refine ⟨?_, ?_, ?_, ?_⟩
  · rw [ht]
    exact hi.queue
  · rw [ht]
    exact hi.sinks
  · intro x hx
    rw [ht] at hx
    have := hi.fresh x hx
    unfold simulation.buf
    rw [hc]
    exact this
  · have hlen := (s.timers.Add_spec (s.Now b2 + d) s.chans.length h.queue).2.2.2.1
    rw [ht, hlen]
    have hpos : 0 < s.timers.Len + 1 := by omega
    simp only [hpos, decide_True]
    by_cases hcnd : s.timers.Len = 0 ∨ s.Now b1 + d < s.timers.key 0
    · rw [((s.AfterAt_wakes b1 b2 d).1 hcnd).2]
      rfl
    · rw [((s.AfterAt_wakes b1 b2 d).2 hcnd).2, h.handle]
      have : 0 < s.timers.Len := by
        by_contra hz
        exact hcnd (Or.inl (by omega))
      simp [this]

theorem simulation.Inv.trigger {s : simulation} (h : s.Inv) (b t : Int) :
    (s.triggerTimers b t).Inv := by
  obtain ⟨_, _, _, ht⟩ := s.triggerTimers_fields b t
  have hc := s.triggerTimers_chans b t
  refine ⟨by rw [ht]; exact h.queue, by rw [ht]; exact h.sinks, ?_, ?_⟩
  · intro x hx
    rw [ht] at hx
    unfold simulation.buf
    rw [hc]
    exact h.fresh x hx
  · rw [ht]
    exact s.triggerTimers_handle b t h.handle

theorem simulation.Inv.of_fields {s s1 : simulation} (h : s.Inv) (ht : s1.timers = s.timers)
    (hc : s1.chans = s.chans) (hh : s1.timerCancel = s.timerCancel) : s1.Inv := by
  refine ⟨by rw [ht]; exact h.queue, by rw [ht]; exact h.sinks, ?_, ?_⟩
  · intro x hx
    rw [ht] at hx
    unfold simulation.buf
    rw [hc]
    exact h.fresh x hx
  · rw [ht, hh]
    exact h.handle

theorem simulation.Inv.sim_setNow {s : simulation} (h : s.Inv) (b t : Int) : (s.SetNow b t).2.Inv := by
  have h1 : ({ s with start := t, drift := time.Sub b t } : simulation).Inv :=
    h.of_fields rfl rfl rfl
  exact h1.trigger b t

theorem simulation.Inv.add {s : simulation} (h : s.Inv) (b d : Int) : (s.Add b d).2.Inv := by
  have h1 : ({ s with start := b + d, drift := time.Sub b (b + d) } : simulation).Inv :=
    h.of_fields rfl rfl rfl
  exact h1.trigger b (b + d)

theorem simulation.SetWarpSpeed_trigger (s : simulation) (b : Int) (r : float64)
    (h : r.posFinite = true) :
    (s.SetWarpSpeed b r).2 =
      ({ s with start := b, drift := time.Sub (s.lockedNow b) b, ratio := r } :
        simulation).triggerTimers b (s.lockedNow b) := by
  have hg := (float64.posFinite_iff r).1 h
  simp only [simulation.SetWarpSpeed, hg, Bool.false_eq_true, if_false,
    simulation.triggerTimers]
  split_ifs <;> rfl

theorem simulation.Inv.setWarpSpeed {s : simulation} (h : s.Inv) (b : Int) (r : float64) :
    (s.SetWarpSpeed b r).2.Inv := by
  cases hp : r.posFinite
  · rw [s.SetWarpSpeed_reject b r hp]
    exact h
  · rw [s.SetWarpSpeed_trigger b r hp]
    have h1 : ({ s with start := b, drift := time.Sub (s.lockedNow b) b, ratio := r } :
        simulation).Inv := h.of_fields rfl rfl rfl
    exact h1.trigger b _

/-- The wake-up handler on a clock satisfying the invariant returns: it pops the entries due at
the simulated now, puts that now in the buffer of every popped sink, leaves every other buffer
alone, and then holds a cancel function exactly when entries remain. -/
theorem simulation.wakeUp_spec (s : simulation) (b : Int) (h : s.Inv) :
    ∃ s1, s.wakeUp b = some s1 ∧ s1.timers = (s.timers.popItems (s.Now b)).2 ∧
      s1.chans.length = s.chans.length ∧
      (∀ c ∈ (s.timers.popItems (s.Now b)).1.map item.ch, s1.buf c = [s.Now b]) ∧
      (∀ c, c ∉ (s.timers.popItems (s.Now b)).1.map item.ch → s1.buf c = s.buf c) ∧
      s1.start = s.start ∧ s1.drift = s.drift ∧ s1.ratio = s.ratio ∧
      (s1.timers.Len = 0 → s1.timerCancel = none ∧ s1.wakes = s.wakes) ∧
      (0 < s1.timers.Len →
        s1 = ({ s with timers := s1.timers, chans := s1.chans } : simulation).makeTimer b
          (time.Sub (s1.timers.key 0) (s.Now b))) ∧
      s1.Inv := by
  simp only [simulation.Now]
  obtain ⟨f1, e, _, ht, _, hl, hin, hout, hinv⟩ :=
    faketime.SetNow_spec _ (s.lockedNow b) (h.toFake 0)
  simp only [faketime.SetNow] at e
  cases hs : sendAll s.chans (s.timers.PopBeforeOrEqual (s.lockedNow b)).1 (s.lockedNow b) with
  | none => simp [hs] at e
  | some chans1 =>
    simp only [hs] at e
    have ef := Option.some.inj e
    have hpop : (s.timers.PopBeforeOrEqual (s.lockedNow b)).2 = (s.timers.popItems (s.lockedNow b)).2 := by
      rw [s.timers.PopBeforeOrEqual_eq]
    have hch : f1.chans = chans1 := by rw [← ef]
    have hbuf : ∀ c, f1.buf c = chans1.getD c [] := by
      intro c
      unfold faketime.buf
      rw [hch]
    have hlen : chans1.length = s.chans.length := by
      rw [← hch]
      exact hl
    have hq : (s.timers.popItems (s.lockedNow b)).2.Inv := by
      have := hinv.queue
      rw [ht] at this
      exact this
    have hsk : ((s.timers.popItems (s.lockedNow b)).2.items.map item.ch).Nodup := by
      have := hinv.sinks
      rw [ht] at this
      exact this
    have hfr : ∀ x ∈ (s.timers.popItems (s.lockedNow b)).2.items,
        x.ch < chans1.length ∧ chans1.getD x.ch [] = [] := by
      intro x hx
      have := hinv.fresh x (by rw [ht]; exact hx)
      rw [hbuf, hl, ← hlen] at this
      exact this
    by_cases h0 : 0 < (s.timers.popItems (s.lockedNow b)).2.Len
    · have hp2 : (s.timers.popItems (s.lockedNow b)).2.Peek.2 = true := by
        rw [timeQueue_Peek_snd]
        simp [h0]
      have hp1 := timeQueue_Peek_fst _ h0
      have hw : s.wakeUp b = some
          (({ s with timers := (s.timers.popItems (s.lockedNow b)).2, chans := chans1 } :
            simulation).makeTimer b
              (time.Sub ((s.timers.popItems (s.lockedNow b)).2.key 0) (s.lockedNow b))) := by
        unfold simulation.wakeUp
        simp only [hs, hpop, hp2, hp1, Bool.not_true, Bool.false_eq_true, if_false]
      refine ⟨_, hw, rfl, hlen, ?_, ?_, rfl, rfl, rfl, ?_, ?_, ?_⟩
      · intro c hc
        have := hin c hc
        rw [hbuf] at this
        exact this
      · intro c hc
        have := hout c hc
        rw [hbuf] at this
        exact this
      · intro hz
        have hz2 : (s.timers.popItems (s.lockedNow b)).2.Len = 0 := hz
        omega
      · intro _
        rfl
      · refine ⟨hq, hsk, hfr, ?_⟩
        show true = decide (0 < (s.timers.popItems (s.lockedNow b)).2.Len)
        simp [h0]
    · have hz : (s.timers.popItems (s.lockedNow b)).2.Len = 0 := by omega
      have hp2 : (s.timers.popItems (s.lockedNow b)).2.Peek.2 = false := by
        rw [timeQueue_Peek_snd]
        simp [h0]
      have hw : s.wakeUp b = some
          ({ s with timers := (s.timers.popItems (s.lockedNow b)).2, chans := chans1,
                    timerCancel := none } : simulation) := by
        unfold simulation.wakeUp
        simp only [hs, hpop, hp2, Bool.not_false, if_true]
      refine ⟨_, hw, rfl, hlen, ?_, ?_, rfl, rfl, rfl, ?_, ?_, ?_⟩
      · intro c hc
        have := hin c hc
        rw [hbuf] at this
        exact this
      · intro c hc
        have := hout c hc
        rw [hbuf] at this
        exact this
      · intro _
        exact ⟨rfl, rfl⟩
      · intro hpos
        have hpos2 : 0 < (s.timers.popItems (s.lockedNow b)).2.Len := hpos
        omega
      · refine ⟨hq, hsk, hfr, ?_⟩
        show false = decide (0 < (s.timers.popItems (s.lockedNow b)).2.Len)
        simp [h0]

theorem simulation.Inv.sim_recv {s : simulation} (h : s.Inv) (c : Nat) : (s.recv c).2.Inv := by
  unfold simulation.recv
  cases e : s.buf c with
  | nil => exact h
  | cons v rest =>
    refine ⟨h.queue, h.sinks, ?_, h.handle⟩
    intro x hx
    obtain ⟨h1, h2⟩ := h.fresh x hx
    have hne : c ≠ x.ch := by
      intro e2
      rw [← e2, e] at h2
      simp at h2
    refine ⟨by simpa using h1, ?_⟩
    show (s.chans.set c rest).getD x.ch [] = []
    rw [getD_set_ne _ _ _ _ hne]
    exact h2

theorem simulation.Reachable.sim_inv {s : simulation} (h : s.Reachable) : s.Inv := by
  induction h with
  | new b => exact simulation.Inv.sim_new b
  | After b1 b2 d _ ih => exact ih.sim_after b1 b2 d
  | SetNow b t _ ih => exact ih.sim_setNow b t
  | Add b d _ ih => exact ih.add b d
  | SetWarpSpeed b r _ ih => exact ih.setWarpSpeed b r
  | @wakeUp s s1 b _ hw ih =>
    obtain ⟨s2, e, hrest⟩ := s.wakeUp_spec b ih
    rw [e] at hw
    rw [← Option.some.inj hw]
    exact hrest.2.2.2.2.2.2.2.2.2
  | recv c _ ih => exact ih.sim_recv c

end gotime

/-! ## Which entry `Add` leaves at the root -/

namespace heap

open queue

/-- The loop of `up` leaves at the root the entry that was there, or one strictly before it. -/
theorem upLoop_root : ∀ (fuel : Nat) (o : timeQueue) (j : Nat), j < o.Len →
    ((upLoop fuel o j).elem 0).ent = (o.elem 0).ent ∨
      ((upLoop fuel o j).elem 0).t < (o.elem 0).t
  | 0, _, _, _ => Or.inl rfl
  | fuel + 1, o, j, hj => by
    simp only [upLoop]
    split_ifs with h
    · exact Or.inl rfl
    · have h1 : (j - 1) / 2 ≠ j := fun e => h (Or.inl e)
      have h2 : o.Less j ((j - 1) / 2) = true := by
        by_contra hc
        exact h (Or.inr (by simpa using hc))
      have hless : o.key j < o.key ((j - 1) / 2) := (o.Less_iff _ _).1 h2
      have hi : (j - 1) / 2 < o.Len := by omega
      have ih := upLoop_root fuel (o.Swap ((j - 1) / 2) j) ((j - 1) / 2)
        (by rw [o.Swap_Len]; exact hi)
      have hsw := o.Swap_elem ((j - 1) / 2) j 0 hi hj
      have hj0 : ¬ (0 = j) := by omega
      rw [if_neg hj0] at hsw
      by_cases h0 : (j - 1) / 2 = 0
      · have h0' : 0 = (j - 1) / 2 := h0.symm
        rw [if_pos h0'] at hsw
        have ht : ((o.Swap ((j - 1) / 2) j).elem 0).t = o.key j := by
          rw [hsw]
          rfl
        have hent : ((o.Swap ((j - 1) / 2) j).elem 0).ent = (o.elem j).ent := by
          rw [hsw]
          rfl
        have hk0 : o.key ((j - 1) / 2) = (o.elem 0).t := by
          rw [h0]
          rfl
        right
        rcases ih with ih | ih
        · have := item.ent_t (ih.trans hent)
          have hkj : (o.elem j).t = o.key j := rfl
          omega
        · omega
      · have h0' : ¬ (0 = (j - 1) / 2) := fun e => h0 e.symm
        rw [if_neg h0'] at hsw
        rw [hsw] at ih
        exact ih

end heap

namespace queue

/-- After `Add(t, ch)` on a queue satisfying the invariant, the new entry is at the root exactly
when the queue was empty or its head was strictly after `t`. -/
theorem timeQueue.Add_root (o : timeQueue) (t : Int) (ch : Nat) (h : o.Inv) :
    ((o.Add t ch).2.elem 0).id = o.counter ↔ (o.Len = 0 ∨ t < o.key 0) := by
  obtain ⟨_, hinv, _, hlen, hperm⟩ := o.Add_spec t ch h
  have hpos : 0 < (o.Add t ch).2.Len := by omega
  have hroot : (o.Add t ch).2.elem 0 ∈ (o.Add t ch).2.items :=
    (o.Add t ch).2.elem_mem 0 hpos
  have hrent : ((o.Add t ch).2.elem 0).ent ∈ (o.counter, t, ch) :: o.ents :=
    hperm.subset (timeQueue.mem_ents.2 ⟨_, hroot, rfl⟩)
  have hnew : (o.counter, t, ch) ∈ (o.Add t ch).2.ents :=
    hperm.symm.subset (List.mem_cons_self _ _)
  obtain ⟨y, hy, ey⟩ := timeQueue.mem_ents.1 hnew
  have hyt : y.t = t := by
    have := congrArg (fun e : Nat × Int × Nat => e.2.1) ey
    simpa [item.ent] using this
  have hrt : (o.Add t ch).2.key 0 ≤ t := by
    have := hinv.root_le_of_mem y hy
    rw [hyt] at this
    exact this
  constructor
  · intro hid
    by_contra hc
    have hlen0 : 0 < o.Len := by
      by_contra hz
      exact hc (Or.inl (by omega))
    have hkey : o.key 0 ≤ t := by
      by_contra hk
      exact hc (Or.inr (by omega))
    -- the root is the new entry
    have hentnew : ((o.Add t ch).2.elem 0).ent = (o.counter, t, ch) := by
      rcases List.mem_cons.1 hrent with e | hm
      · exact e
      · obtain ⟨x, hx, ex⟩ := timeQueue.mem_ents.1 hm
        have := h.below x hx
        have := item.ent_id ex
        omega
    have hroott : ((o.Add t ch).2.elem 0).t = t := by
      have := congrArg (fun e : Nat × Int × Nat => e.2.1) hentnew
      simpa [item.ent] using this
    -- the loop of `up` kept the old root or put a strictly earlier entry there
    have e : (o.Add t ch).2 =
        heap.upLoop (o.Len + 1)
          (({ o with counter := o.counter + 1 } : timeQueue).Push
            { id := o.counter, t := t, ch := ch, index := 0 }) o.Len := by
      simp only [timeQueue.Add, heap.Push, heap.up, timeQueue.Push_Len]
      rfl
    have hr := heap.upLoop_root (o.Len + 1)
      (({ o with counter := o.counter + 1 } : timeQueue).Push
        { id := o.counter, t := t, ch := ch, index := 0 }) o.Len
      (by rw [timeQueue.Push_Len]; exact Nat.lt_succ_self _)
    rw [← e] at hr
    have hold : (({ o with counter := o.counter + 1 } : timeQueue).Push
        { id := o.counter, t := t, ch := ch, index := 0 }).elem 0 = o.elem 0 :=
      timeQueue.Push_elem_lt _ _ 0 hlen0
    rw [hold] at hr
    have hmem0 : o.elem 0 ∈ o.items := o.elem_mem 0 hlen0
    rcases hr with hr | hr
    · have := item.ent_id hr
      have := h.below _ hmem0
      omega
    · have hk : (o.elem 0).t = o.key 0 := rfl
      omega
  · intro hc
    rcases List.mem_cons.1 hrent with e | hm
    · have := congrArg (fun e : Nat × Int × Nat => e.1) e
      simpa [item.ent] using this
    · exfalso
      obtain ⟨x, hx, ex⟩ := timeQueue.mem_ents.1 hm
      have hxt : x.t = ((o.Add t ch).2.elem 0).t := item.ent_t ex
      have hle := h.root_le_of_mem x hx
      have hk : ((o.Add t ch).2.elem 0).t = (o.Add t ch).2.key 0 := rfl
      rcases hc with hz | hlt
      · have : o.items = [] := List.length_eq_zero.1 hz
        rw [this] at hx
        simp at hx
      · omega

end queue

/-! ## The claims about `After`, the wake-up handler and the backing timers -/

namespace gotime

open queue

theorem getD_append_nil (chans : List (List Int)) (c : Nat) :
    (chans ++ [[]]).getD c [] = chans.getD c [] := by
  by_cases h : c < chans.length
  · exact getD_append_left _ _ _ h
  · simp only [List.getD_eq_getElem?_getD]
    have h1 : chans[c]? = none := List.getElem?_eq_none (by omega)
    rw [h1]
    by_cases h2 : c = chans.length
    · subst h2
      simp
    · have h3 : (chans ++ [[]])[c]? = none := List.getElem?_eq_none (by simp; omega)
      rw [h3]

/-- The call `After` writes into no channel: every buffer is as before, and the buffer of the channel
returned is empty. -/
theorem simulation.After_buf (s : simulation) (b d : Int) :
    (∀ c, (s.After b d).2.buf c = s.buf c) ∧ (s.After b d).2.buf (s.After b d).1 = [] := by
  obtain ⟨h1, _, hc, _⟩ := s.After_fields b d
  constructor
  · intro c
    unfold simulation.buf
    rw [hc]
    exact getD_append_nil _ _
  · unfold simulation.buf
    rw [hc, h1]
    exact getD_append_length _ _

/-- What `makeTimer` leaves: one more backing timer, the last one, made at the backing time of
the call for `fromSimulatedDuration(d)` and not cancelled; its cancel function is the one held
afterwards; and the timer whose cancel function was held is cancelled. -/
theorem simulation.makeTimer_last (s : simulation) (b d : Int) :
    (s.makeTimer b d).wakes.getLast? =
      some { made := b, interval := s.fromSimulatedDuration d, cancelled := false } ∧
    (s.makeTimer b d).wakes.length = s.wakes.length + 1 ∧
    (s.makeTimer b d).timerCancel = some s.wakes.length ∧
    (∀ k, s.timerCancel = some k → k < s.wakes.length →
      ((s.makeTimer b d).wakes.getD k
        { made := 0, interval := 0, cancelled := false }).cancelled = true) := by
  unfold simulation.makeTimer
  cases htc : s.timerCancel with
  | none =>
    refine ⟨by simp, by simp, by simp, ?_⟩
    intro k hk
    exact absurd hk (by simp)
  | some k0 =>
    refine ⟨by simp, by simp, by simp, ?_⟩
    intro k hk hlt
    have e : k0 = k := Option.some.inj hk
    subst e
    simp [List.getD_eq_getElem?_getD, List.getElem?_append, hlt, List.getElem?_set]

/-- C22: on every reached settable clock `SetNow(t)` returns, and every channel whose buffer it
changes is the sink of a pending entry with deadline `≤ t`, and holds `t` afterwards; `After(d)`
changes a buffer only for `d ≤ 0`, that of the channel it returns, which then holds the now.  On
every reached warping clock the wake-up handler returns, and every channel whose buffer it changes
is the sink of a pending entry with deadline `≤` the simulated now, and holds that now
afterwards; `After`, `SetNow`, `Add` and `SetWarpSpeed` change no buffer. -/
theorem delivered_not_before_deadline (f : faketime) (s : simulation) (t b : Int)
    (hf : f.Reachable) (hs : s.Reachable) :
    (∃ f1, f.SetNow t = some f1 ∧
      ∀ c, f1.buf c ≠ f.buf c →
        ∃ x ∈ f.timers.items, x.ch = c ∧ x.t ≤ t ∧ f1.buf c = [t]) ∧
    (∀ d ch f1, f.After d = some (ch, f1) → ∀ c, f1.buf c ≠ f.buf c →
      d ≤ 0 ∧ c = ch ∧ f1.buf c = [f.now] ∧ f.now + d ≤ f.now) ∧
    (∃ s1, s.wakeUp b = some s1 ∧
      ∀ c, s1.buf c ≠ s.buf c →
        ∃ x ∈ s.timers.items, x.ch = c ∧ x.t ≤ s.Now b ∧ s1.buf c = [s.Now b]) ∧
    (∀ d c, (s.After b d).2.buf c = s.buf c) ∧
    (∀ u, (s.SetNow b u).2.chans = s.chans) ∧
    (∀ d, (s.Add b d).2.chans = s.chans) ∧
    (∀ r, (s.SetWarpSpeed b r).2.chans = s.chans) := by
  refine ⟨?_, ?_, ?_, fun d c => (s.After_buf b d).1 c, ?_, ?_, ?_⟩
  · obtain ⟨f1, e, _, _, _, _, hin, hout, _⟩ := f.SetNow_spec t hf.clock_inv
    refine ⟨f1, e, ?_⟩
    intro c hc
    have hm : c ∈ (f.timers.popItems t).1.map item.ch := by
      by_contra hn
      exact hc (hout c hn)
    obtain ⟨p, hp, rfl⟩ := List.mem_map.1 hm
    obtain ⟨x, hx, ex, hle⟩ := hf.clock_inv.popped_mem t p hp
    exact ⟨x, hx, item.ent_ch ex, hle, hin _ hm⟩
  · intro d ch f1 ha c hc
    by_cases hd : d ≤ 0
    · rw [f.After_nonpos d hd] at ha
      have e1 := congrArg Prod.fst (Option.some.inj ha)
      have e2 := congrArg Prod.snd (Option.some.inj ha)
      simp only at e1 e2
      have hbuf : ∀ k, f1.buf k = (f.chans ++ [[f.now]]).getD k [] := by
        intro k
        rw [← e2]
        rfl
      have hcc : c = f.chans.length := by
        by_contra hne
        apply hc
        rw [hbuf]
        unfold faketime.buf
        by_cases hlt : c < f.chans.length
        · exact getD_append_left _ _ _ hlt
        · simp only [List.getD_eq_getElem?_getD]
          rw [List.getElem?_eq_none (by simp; omega), List.getElem?_eq_none (by omega)]
      refine ⟨hd, by rw [hcc, ← e1], ?_, by omega⟩
      rw [hbuf, hcc]
      exact getD_append_length _ _
    · exfalso
      rw [f.After_pos d (lt_of_not_le hd)] at ha
      have e2 := congrArg Prod.snd (Option.some.inj ha)
      simp only at e2
      apply hc
      rw [← e2]
      exact getD_append_nil _ _
  · obtain ⟨s1, e, _, _, hin, hout, _⟩ := s.wakeUp_spec b hs.sim_inv
    refine ⟨s1, e, ?_⟩
    intro c hc
    have hm : c ∈ (s.timers.popItems (s.Now b)).1.map item.ch := by
      by_contra hn
      exact hc (hout c hn)
    obtain ⟨p, hp, rfl⟩ := List.mem_map.1 hm
    obtain ⟨x, hx, ex, hle⟩ := (hs.sim_inv.toFake 0).popped_mem (s.Now b) p hp
    exact ⟨x, hx, item.ent_ch ex, hle, hin _ hm⟩
  · intro u
    exact simulation.triggerTimers_chans _ b u
  · intro d
    exact simulation.triggerTimers_chans _ b (b + d)
  · intro r
    cases hp : r.posFinite
    · rw [s.SetWarpSpeed_reject b r hp]
    · rw [s.SetWarpSpeed_trigger b r hp]
      exact simulation.triggerTimers_chans _ b _

/-- C26: on every reached warping clock (after any run of `After`, `SetNow`, `Add`,
`SetWarpSpeed` and wake-up handlers) a cancel function is held exactly when the queue is not
empty; the wake-up handler returns and, when entries remain, its last act is a backing timer
for `fromSimulatedDuration(head - now)`, whose cancel function it holds, and when none remain
it holds none. -/
theorem timerCancel_iff_pending (s : simulation) (b : Int) (h : s.Reachable) :
    (s.timerCancel.isSome = true ↔ 0 < s.timers.Len) ∧
    ∃ s1, s.wakeUp b = some s1 ∧
      (0 < s1.timers.Len →
        s1.wakes.getLast? =
          some { made := b,
                 interval := s1.fromSimulatedDuration (time.Sub (s1.timers.key 0) (s.Now b)),
                 cancelled := false } ∧
        s1.timerCancel = some (s1.wakes.length - 1)) ∧
      (s1.timers.Len = 0 → s1.timerCancel = none ∧ s1.wakes = s.wakes) := by
  constructor
  · rw [h.sim_inv.handle]
    simp
  · obtain ⟨s1, e, _, _, _, _, _, _, hr, hz, hp, _⟩ := s.wakeUp_spec b h.sim_inv
    refine ⟨s1, e, ?_, hz⟩
    intro hpos
    have e1 := hp hpos
    obtain ⟨l1, l2, l3, _⟩ := simulation.makeTimer_last
      ({ s with timers := s1.timers, chans := s1.chans } : simulation) b
      (time.Sub (s1.timers.key 0) (s.Now b))
    rw [← e1] at l1 l2 l3
    have hfs : ∀ d, s1.fromSimulatedDuration d =
        ({ s with timers := s1.timers, chans := s1.chans } : simulation).fromSimulatedDuration
          d := by
      intro d
      unfold simulation.fromSimulatedDuration
      rw [hr]
    rw [hfs]
    refine ⟨l1, ?_⟩
    rw [l3, l2]
    simp

/-- What `After(d)` does on a clock satisfying the invariant, the first read of the backing
clock being at `b1` and the second at `b2`: it returns a new channel and adds the entry (next id,
simulated now of the second read `+ d`, that channel) to the queue.  The new entry is at the
root of the queue exactly when the queue was empty or its head was strictly after that deadline.
A backing timer is made exactly when the queue was empty or its head was strictly after the
simulated now of the first read `+ d`: then the timer whose cancel function was held is
cancelled and a backing timer for `fromSimulatedDuration(d)` is made, whose cancel function is
held; otherwise the backing timers and the cancel function held are as before. -/
theorem simulation.AfterAt_spec (s : simulation) (b1 b2 d : Int) (h : s.Inv) :
    (s.AfterAt b1 b2 d).1 = s.chans.length ∧
    List.Perm (s.AfterAt b1 b2 d).2.timers.ents
      ((s.timers.counter, s.Now b2 + d, s.chans.length) :: s.timers.ents) ∧
    (((s.AfterAt b1 b2 d).2.timers.elem 0).id = s.timers.counter ↔
      (s.timers.Len = 0 ∨ s.Now b2 + d < s.timers.key 0)) ∧
    ((s.timers.Len = 0 ∨ s.Now b1 + d < s.timers.key 0) →
      (s.AfterAt b1 b2 d).2.wakes.getLast? =
        some { made := b2, interval := s.fromSimulatedDuration d, cancelled := false } ∧
      (s.AfterAt b1 b2 d).2.wakes.length = s.wakes.length + 1 ∧
      (s.AfterAt b1 b2 d).2.timerCancel = some s.wakes.length ∧
      (∀ k, s.timerCancel = some k → k < s.wakes.length →
        ((s.AfterAt b1 b2 d).2.wakes.getD k
          { made := 0, interval := 0, cancelled := false }).cancelled = true)) ∧
    (¬ (s.timers.Len = 0 ∨ s.Now b1 + d < s.timers.key 0) →
      (s.AfterAt b1 b2 d).2.wakes = s.wakes ∧
      (s.AfterAt b1 b2 d).2.timerCancel = s.timerCancel) := by
  obtain ⟨h1, ht, _⟩ := s.AfterAt_fields b1 b2 d
  have hq := h.queue
  refine ⟨h1, ?_, ?_, ?_, (s.AfterAt_wakes b1 b2 d).2⟩
  · rw [ht]
    exact (s.timers.Add_spec _ _ hq).2.2.2.2
  · rw [ht]
    exact s.timers.Add_root _ _ hq
  · intro hc
    obtain ⟨e1, e2⟩ := (s.AfterAt_wakes b1 b2 d).1 hc
    rw [e1, e2]
    exact s.makeTimer_last b2 d

/-- What `triggerTimers(t)` does at backing time `b`: nothing to the queue and the channels; with
a non-empty queue it makes a backing timer for `fromSimulatedDuration(head.Sub(t))` and holds its
cancel function; with an empty queue nothing at all. -/
theorem simulation.triggerTimers_spec (s : simulation) (b t : Int) :
    (s.triggerTimers b t).timers = s.timers ∧ (s.triggerTimers b t).chans = s.chans ∧
    (0 < s.timers.Len →
      (s.triggerTimers b t).wakes.getLast? =
        some { made := b,
               interval := s.fromSimulatedDuration (time.Sub (s.timers.key 0) t),
               cancelled := false } ∧
      (s.triggerTimers b t).timerCancel = some s.wakes.length) ∧
    (s.timers.Len = 0 → s.triggerTimers b t = s) := by
  refine ⟨(s.triggerTimers_fields b t).2.2.2, s.triggerTimers_chans b t, ?_, ?_⟩
  · intro hpos
    have hp2 : s.timers.Peek.2 = true := by
      rw [timeQueue_Peek_snd]
      simp [hpos]
    have e : s.triggerTimers b t = s.makeTimer b (time.Sub (s.timers.key 0) t) := by
      unfold simulation.triggerTimers
      simp only [hp2, if_true, timeQueue_Peek_fst s.timers hpos]
    rw [e]
    obtain ⟨l1, _, l3, _⟩ := s.makeTimer_last b (time.Sub (s.timers.key 0) t)
    exact ⟨l1, l3⟩
  · intro hz
    have hp2 : s.timers.Peek.2 = false := by
      rw [timeQueue_Peek_snd]
      simp [hz]
    unfold simulation.triggerTimers
    simp only [hp2, Bool.false_eq_true, if_false]

/-- What `SetNow(t)` and `Add(d)` do at backing time `b`: they leave the queue and every
channel as they were; with a non-empty queue they make a backing timer for
`fromSimulatedDuration(head.Sub(t))`, where `t` is the argument of `SetNow`, and for `Add` the
backing time plus `d`; with an empty queue they make none. -/
theorem simulation.SetNow_Add_frame (s : simulation) (b t d : Int) :
    ((s.SetNow b t).2.timers = s.timers ∧ (s.SetNow b t).2.chans = s.chans ∧
      (0 < s.timers.Len →
        (s.SetNow b t).2.wakes.getLast? =
          some { made := b,
                 interval := s.fromSimulatedDuration (time.Sub (s.timers.key 0) t),
                 cancelled := false } ∧
        (s.SetNow b t).2.timerCancel = some s.wakes.length) ∧
      (s.timers.Len = 0 →
        (s.SetNow b t).2.wakes = s.wakes ∧ (s.SetNow b t).2.timerCancel = s.timerCancel)) ∧
    ((s.Add b d).2.timers = s.timers ∧ (s.Add b d).2.chans = s.chans ∧
      (0 < s.timers.Len →
        (s.Add b d).2.wakes.getLast? =
          some { made := b,
                 interval := s.fromSimulatedDuration (time.Sub (s.timers.key 0) (b + d)),
                 cancelled := false } ∧
        (s.Add b d).2.timerCancel = some s.wakes.length) ∧
      (s.timers.Len = 0 →
        (s.Add b d).2.wakes = s.wakes ∧ (s.Add b d).2.timerCancel = s.timerCancel)) := by
  constructor
  · obtain ⟨h1, h2, h3, h4⟩ := simulation.triggerTimers_spec
      ({ s with start := t, drift := time.Sub b t } : simulation) b t
    refine ⟨h1, h2, h3, ?_⟩
    intro hz
    have e : (s.SetNow b t).2 = ({ s with start := t, drift := time.Sub b t } : simulation) :=
      h4 hz
    rw [e]
    exact ⟨rfl, rfl⟩
  · obtain ⟨h1, h2, h3, h4⟩ := simulation.triggerTimers_spec
      ({ s with start := b + d, drift := time.Sub b (b + d) } : simulation) b (b + d)
    refine ⟨h1, h2, h3, ?_⟩
    intro hz
    have e : (s.Add b d).2 =
        ({ s with start := b + d, drift := time.Sub b (b + d) } : simulation) := h4 hz
    rw [e]
    exact ⟨rfl, rfl⟩

end gotime

/-! ## Division by one -/

namespace gotime

open queue

theorem float64.bitLen_pos (m : Nat) (h : m ≠ 0) : 0 < float64.bitLen m := by
  have := (float64.bitLenAux_spec m m (Nat.le_refl _)).1
  by_contra hc
  have hz : float64.bitLenAux m m = 0 := by
    unfold float64.bitLen at hc
    omega
  rw [hz] at this
  simp at this
  exact h this

theorem float64.bitLen_eq (m k : Nat) (h1 : 2 ^ k ≤ m) (h2 : m < 2 ^ (k + 1)) :
    float64.bitLen m = k + 1 := by
  have hle := float64.bitLen_le m (k + 1) h2
  have hlt := (float64.bitLenAux_spec m m (Nat.le_refl _)).1
  have hk : 2 ^ k < 2 ^ float64.bitLen m := Nat.lt_of_le_of_lt h1 hlt
  have := (Nat.pow_lt_pow_iff_right (by decide : 1 < 2)).1 hk
  omega

theorem float64.bitLen_bounds (m : Nat) (h : m ≠ 0) :
    2 ^ (float64.bitLen m - 1) ≤ m ∧ m < 2 ^ float64.bitLen m :=
  ⟨(float64.bitLenAux_spec m m (Nat.le_refl _)).2 h,
    (float64.bitLenAux_spec m m (Nat.le_refl _)).1⟩

theorem float64.bitLen_mul_pow (m k : Nat) (h : m ≠ 0) :
    float64.bitLen (m * 2 ^ k) = float64.bitLen m + k := by
  obtain ⟨h1, h2⟩ := float64.bitLen_bounds m h
  have hp := float64.bitLen_pos m h
  have e : float64.bitLen m + k = (float64.bitLen m - 1 + k) + 1 := by omega
  rw [e]
  apply float64.bitLen_eq
  · rw [Nat.pow_add]
    exact Nat.mul_le_mul_right _ h1
  · have e2 : float64.bitLen m - 1 + k + 1 = float64.bitLen m + k := by omega
    rw [e2, Nat.pow_add]
    exact Nat.mul_lt_mul_of_pos_right h2 (Nat.pow_pos (by decide))

/-- The quotient of an integer of at most 53 binary digits by `1.0` converts back to the
integer. -/
theorem float64.round_shifted_toInt64 (neg : Bool) (m : Nat) (h0 : m ≠ 0) (h : m < 2 ^ 53) :
    (float64.round neg (m * 2 ^ 66) (-66)).toInt64 = if neg then -(m : Int) else (m : Int) := by
  have hL := float64.bitLen_le m 53 h
  have hp := float64.bitLen_pos m h0
  obtain ⟨j, hj⟩ : ∃ j, float64.bitLen m + j = 53 := ⟨53 - float64.bitLen m, by omega⟩
  have hM : m * 2 ^ 66 ≠ 0 := by
    have : 0 < m * 2 ^ 66 := Nat.mul_pos (Nat.pos_of_ne_zero h0) (Nat.pow_pos (by decide))
    omega
  have hbits : float64.bitLen (m * 2 ^ 66) = float64.bitLen m + 66 :=
    float64.bitLen_mul_pow m 66 h0
  have he1 : max ((-66 : Int) + ((float64.bitLen m + 66 : Nat) : Int) - 53) (-1074) =
      -(j : Int) := by
    have : (-66 : Int) + ((float64.bitLen m + 66 : Nat) : Int) - 53 = -(j : Int) := by
      push_cast
      omega
    rw [this]
    apply max_eq_left
    omega
  have hk : ((-(j : Int)) - (-66)).toNat = 66 - j := by omega
  have hsplit : m * 2 ^ 66 = m * 2 ^ j * 2 ^ (66 - j) := by
    rw [Nat.mul_assoc, ← Nat.pow_add]
    congr 2
    omega
  have hq : m * 2 ^ 66 / 2 ^ (66 - j) = m * 2 ^ j := by
    rw [hsplit]
    exact Nat.mul_div_cancel _ (Nat.pow_pos (by decide))
  have hr : m * 2 ^ 66 % 2 ^ (66 - j) = 0 := by
    rw [hsplit]
    exact Nat.mul_mod_left _ _
  have hq0 : m * 2 ^ j ≠ 0 := by
    have : 0 < m * 2 ^ j := Nat.mul_pos (Nat.pos_of_ne_zero h0) (Nat.pow_pos (by decide))
    omega
  have hbq : float64.bitLen (m * 2 ^ j) = 53 := by
    rw [float64.bitLen_mul_pow m j h0]
    exact hj
  have hhalf : 0 < 2 ^ (66 - j - 1) := Nat.pow_pos (by decide)
  have hne : ¬ ((-(j : Int)) ≤ -66) := by omega
  have hcond : ¬ (2 ^ (66 - j - 1) < 0 ∨ (0 = 2 ^ (66 - j - 1) ∧ m * 2 ^ j % 2 = 1)) := by
    intro hc
    rcases hc with hc | hc
    · omega
    · omega
  have hov : ¬ ((1024 : Int) < -(j : Int) + ((53 : Nat) : Int)) := by omega
  have hround : float64.round neg (m * 2 ^ 66) (-66) = float64.fin neg (m * 2 ^ j) (-(j : Int)) := by
    unfold float64.round
    simp only [hM, if_false, hbits, he1, hne, hk, hq, hr, hcond, hq0, hbq, hov]
  rw [hround]
  unfold float64.toInt64
  have hval : (if (0 : Int) ≤ -(j : Int) then m * 2 ^ j * 2 ^ (-(j : Int)).toNat
      else m * 2 ^ j / 2 ^ (-(-(j : Int))).toNat) = m := by
    by_cases hj0 : j = 0
    · subst hj0
      simp
    · have hneg : ¬ ((0 : Int) ≤ -(j : Int)) := by omega
      rw [if_neg hneg]
      have : (-(-(j : Int))).toNat = j := by omega
      rw [this]
      exact Nat.mul_div_cancel _ (Nat.pow_pos (by decide))
  simp only [hval]
  have hm63 : (m : Int) < 2 ^ 63 := by
    have : (m : Int) < 2 ^ 53 := by exact_mod_cast h
    omega
  cases neg
  · simp only [Bool.false_eq_true, if_false]
    rw [if_pos ⟨by omega, hm63⟩]
  · simp only [if_true]
    rw [if_pos ⟨by omega, by omega⟩]

theorem float64.div_one_toInt64 (d : Int) (h : d.natAbs < 2 ^ 53) :
    ((float64.ofInt d).div (float64.fin false 1 0)).toInt64 = d := by
  rw [float64.ofInt_exact d h]
  by_cases h0 : d.natAbs = 0
  · have hd : d = 0 := Int.natAbs_eq_zero.1 h0
    subst hd
    decide
  · have hb1 : float64.bitLen 1 = 1 := by decide
    have e : (float64.fin (decide (d < 0)) d.natAbs 0).div (float64.fin false 1 0) =
        float64.round (decide (d < 0)) (d.natAbs * 2 ^ 66) (-66) := by
      simp only [float64.div, hb1, Nat.div_one, Nat.mod_one, if_true, Bool.xor_false]
      have h10 : ¬ (1 = 0) := by decide
      simp only [h10, if_false]
      congr 1
      · rw [Nat.add_zero, Nat.mul_comm 2, Nat.mul_assoc]
        rfl
    rw [e, float64.round_shifted_toInt64 _ _ h0 h]
    by_cases hneg : d < 0
    · simp only [hneg, decide_True, if_true]
      omega
    · simp only [hneg, decide_False, Bool.false_eq_true, if_false]
      omega

set_option maxRecDepth 8000 in
/-- At ratio `1` a duration of at most `2^53` nanoseconds converts to the backing clock and back
without change. -/
theorem simulation.ratio_one_roundtrip (s : simulation) (d : Int)
    (hr : s.ratio = float64.ofInt 1) (hd : d.natAbs ≤ 2 ^ 53) :
    s.fromSimulatedDuration d = d ∧ s.toSimulatedDuration d = d := by
  unfold simulation.fromSimulatedDuration simulation.toSimulatedDuration
  rw [hr, float64.ofInt_one]
  rcases Nat.lt_or_eq_of_le hd with hlt | heq
  · refine ⟨float64.div_one_toInt64 d hlt, ?_⟩
    rw [float64.ofInt_exact _ hlt, float64.mul_one_exact _ _ hlt,
      float64.toInt64_ofNatAbs _ (by omega) (by omega)]
  · have hc : d = 2 ^ 53 ∨ d = -(2 ^ 53) := by omega
    rcases hc with e | e <;> rw [e] <;> exact ⟨by decide, by decide⟩

end gotime

/-! ## The wake-up handler and the head of the queue -/

namespace queue

theorem timeQueue.popItems_none (o : timeQueue) (t : Int) (h : o.Len = 0 ∨ t < o.key 0) :
    o.popItems t = ([], o) := by
  unfold timeQueue.popItems
  cases hl : o.Len with
  | zero => rfl
  | succ n =>
    have hpos : 0 < o.Len := by omega
    have hk : t < o.key 0 := by
      rcases h with h | h
      · omega
      · exact h
    have hp : ¬ (o.Peek.2 = true ∧ ¬ o.Peek.1 > t) := by
      intro hc
      have := (o.Peek_pos t hc).2
      omega
    simp only [timeQueue.popItemsLoop, hp, if_false]

end queue

namespace gotime

open queue

/-- The wake-up handler at a backing time where the head of the queue is due: it returns, the
sink of the head holds the simulated now and the head is no longer pending. -/
theorem simulation.wakeUp_due (s : simulation) (b : Int) (h : s.Inv) (hlen : 0 < s.timers.Len)
    (hdue : s.timers.key 0 ≤ s.Now b) :
    ∃ s1, s.wakeUp b = some s1 ∧ s1.buf (s.timers.elem 0).ch = [s.Now b] ∧
      (s.timers.elem 0).ent ∉ s1.timers.ents := by
  obtain ⟨s1, e, ht, _, hin, _⟩ := s.wakeUp_spec b h
  have hmem : s.timers.elem 0 ∈ s.timers.items := s.timers.elem_mem 0 hlen
  have hpop := (h.toFake 0).due_popped (s.Now b) (s.timers.elem 0) hmem hdue
  refine ⟨s1, e, hin _ hpop, ?_⟩
  intro hc
  rw [ht] at hc
  obtain ⟨y, hy, ey⟩ := timeQueue.mem_ents.1 hc
  have hlt := (s.timers.popItems_spec (s.Now b) h.queue).2.2.2.2.2.1 y hy
  have hyt : y.t = (s.timers.elem 0).t := item.ent_t ey
  have hk : (s.timers.elem 0).t = s.timers.key 0 := rfl
  omega

/-- The wake-up handler at a backing time where the head of the queue is not due: it returns
having changed neither the queue nor a channel, and makes a backing timer for what is left. -/
theorem simulation.wakeUp_early (s : simulation) (b : Int) (hlen : 0 < s.timers.Len)
    (hearly : s.Now b < s.timers.key 0) :
    s.wakeUp b = some (s.makeTimer b (time.Sub (s.timers.key 0) (s.Now b))) := by
  have hp := s.timers.popItems_none (s.Now b) (Or.inr hearly)
  have hpb : s.timers.PopBeforeOrEqual (s.lockedNow b) = ([], s.timers) := by
    have := s.timers.PopBeforeOrEqual_eq (s.Now b)
    rw [hp] at this
    exact this
  have hp2 : s.timers.Peek.2 = true := by
    rw [timeQueue_Peek_snd]
    simp [hlen]
  unfold simulation.wakeUp
  simp only [hpb, sendAll, hp2, Bool.not_true, Bool.false_eq_true, if_false,
    timeQueue_Peek_fst s.timers hlen]
  rfl

theorem float64.toInt64_fits (x : float64) : time.fits x.toInt64 = true := by
  simp only [time.fits, decide_eq_true_eq, time.minDuration, time.maxDuration]
  cases x with
  | nan => simp [float64.toInt64]
  | inf neg => simp [float64.toInt64]
  | fin neg m e =>
    simp only [float64.toInt64]
    split_ifs with h1 h2 <;> omega

/-- C30, as amended: on a reached warping clock with a positive finite ratio whose origin is the
backing time `b0` (as `SetWarpSpeed` leaves it), with a head entry `rem` ahead of the simulated
now and no duration outside the `int64` range: when the backing clock has advanced by
`Δ = fromSimulatedDuration(rem)`, the simulated now has advanced by `toSimulatedDuration(Δ)`; the
wake-up handler delivers the head if that is at least `rem`; if it is less, the handler leaves
the queue and the channels alone and makes a backing timer for what is left.  At ratio `1`, for
`rem` up to `2^53`, both conversions are exact and the head is delivered. -/
theorem wake_after_interval (s : simulation) (b0 rem Δ : Int) (h : s.Reachable)
    (hr : s.ratio.posFinite = true) (hstart : s.start = b0) (hlen : 0 < s.timers.Len)
    (hrem : rem = s.timers.key 0 - s.Now b0) (hΔ : Δ = s.fromSimulatedDuration rem)
    (hdrift : time.fits s.drift = true)
    (hsum : time.fits (s.toSimulatedDuration Δ + s.drift) = true) :
    s.Now (b0 + Δ) = s.Now b0 + s.toSimulatedDuration Δ ∧
    (rem ≤ s.toSimulatedDuration Δ →
      ∃ s1, s.wakeUp (b0 + Δ) = some s1 ∧
        s1.buf (s.timers.elem 0).ch = [s.Now (b0 + Δ)] ∧
        (s.timers.elem 0).ent ∉ s1.timers.ents) ∧
    (s.toSimulatedDuration Δ < rem →
      ∃ s1, s.wakeUp (b0 + Δ) = some s1 ∧ s1.timers = s.timers ∧ s1.chans = s.chans ∧
        s1.wakes.getLast? =
          some { made := b0 + Δ,
                 interval := s.fromSimulatedDuration
                   (time.Sub (s.timers.key 0) (s.Now (b0 + Δ))),
                 cancelled := false }) ∧
    (s.ratio = float64.ofInt 1 → rem.natAbs ≤ 2 ^ 53 →
      Δ = rem ∧ s.toSimulatedDuration Δ = rem) := by
  have hfΔ : time.fits Δ = true := by
    rw [hΔ]
    exact float64.toInt64_fits _
  simp only [time.fits, decide_eq_true_eq] at hdrift hsum hfΔ
  have e0 : s.Now b0 = b0 + s.drift := by
    simp only [simulation.Now, simulation.lockedNow, hstart, time.Sub_self,
      simulation.toSimulatedDuration, float64.zero_mul_toInt64 _ hr]
    rw [time.addDuration_of_fits _ _ (by rw [zero_add]; exact hdrift.1)
      (by rw [zero_add]; exact hdrift.2)]
    omega
  have e1 : s.Now (b0 + Δ) = b0 + (s.toSimulatedDuration Δ + s.drift) := by
    have hsub : time.Sub (b0 + Δ) b0 = Δ := by
      have e : b0 + Δ - b0 = Δ := by omega
      rw [time.Sub_of_fits _ _ (by rw [e]; exact hfΔ.1) (by rw [e]; exact hfΔ.2), e]
    simp only [simulation.Now, simulation.lockedNow, hstart, hsub]
    rw [time.addDuration_of_fits _ _ hsum.1 hsum.2]
  have hnow : s.Now (b0 + Δ) = s.Now b0 + s.toSimulatedDuration Δ := by
    rw [e0, e1]
    omega
  refine ⟨hnow, ?_, ?_, ?_⟩
  · intro hle
    exact s.wakeUp_due (b0 + Δ) h.sim_inv hlen (by omega)
  · intro hlt
    have hearly : s.Now (b0 + Δ) < s.timers.key 0 := by omega
    refine ⟨_, s.wakeUp_early (b0 + Δ) hlen hearly, rfl, rfl, ?_⟩
    exact (s.makeTimer_last (b0 + Δ) _).1
  · intro h1 hb
    obtain ⟨r1, _⟩ := s.ratio_one_roundtrip rem h1 hb
    have hΔr : Δ = rem := by rw [hΔ, r1]
    refine ⟨hΔr, ?_⟩
    rw [hΔr]
    exact (s.ratio_one_roundtrip rem h1 hb).2

end gotime

/-! ## Concrete queues and warping clocks -/

namespace queue

/-- A hundred calls of `Add` with the same deadline give `Len() = 100`, and one more `Add` on the
queue of six gives `7`. -/
theorem Add_Len_succ_witness :
    Reachable sixQueue ∧ (sixQueue.Add 3 30).2.Len = 7 ∧
    (NewTimeQueue.calls ((List.replicate 100 ((5 : Int), 0)).map
      (fun p => Call.Add p.1 p.2))).Len = 100 :=
  have hr : Reachable sixQueue := Reachable.calls Reachable.new _
  ⟨hr, (Add_Len_succ sixQueue 3 30 [] hr).1,
    (Add_Len_succ sixQueue 3 30 (List.replicate 100 ((5 : Int), 0)) hr).2.2.2.trans
      (List.length_replicate _ _)⟩

/-- The queue of six entries is reached, and its third position holds a deadline that is not
before the one at position `0`, its parent. -/
theorem Reachable_heap_witness :
    Reachable sixQueue ∧ (sixQueue.elem ((2 - 1) / 2)).t ≤ (sixQueue.elem 2).t :=
  have hr : Reachable sixQueue := Reachable.calls Reachable.new _
  ⟨hr, (Reachable_heap sixQueue hr).1 2 (by decide) (by decide)⟩

end queue

namespace gotime

open queue

theorem doubleSpeedPending_reached : doubleSpeedPending.Reachable :=
  simulation.Reachable.After 0 0 100
    (simulation.Reachable.SetWarpSpeed 0 (float64.ofInt 2) (simulation.Reachable.new 0))

theorem sleepWarped_reached : sleepWarped.Reachable :=
  simulation.Reachable.SetWarpSpeed 61000000000 (float64.ofInt 60)
    (simulation.Reachable.SetWarpSpeed 1000000000 (float64.ofInt 1)
      (simulation.Reachable.SetWarpSpeed 0 (float64.ofInt 60)
        (simulation.Reachable.After 0 0 180000000000 (simulation.Reachable.new 0))))

/-- C27: the run `staleWake` is a run of the warping clock.  Its first backing timer, made at
backing time `0` for `10`, has fired at backing time `10`; `SetNow(5)`, called there, cancels it
and makes a second one for `5`, and moves the simulated now to `15`; the handler of the first
timer then finds the only entry due, delivers it and clears the cancel function held; `After(100)`
then makes a third backing timer and cancels none.  At backing time `10` the second and the
third backing timer are both outstanding. -/
theorem two_outstanding_timers :
    (∀ s, staleWake = some s → s.Reachable) ∧
    ((NewTimeWarpableClock 0).After 0 10).2.wakes =
      [{ made := 0, interval := 10, cancelled := false }] ∧
    (((NewTimeWarpableClock 0).After 0 10).2.SetNow 10 5).2.wakes =
      [{ made := 0, interval := 10, cancelled := true },
       { made := 10, interval := 5, cancelled := false }] ∧
    (((NewTimeWarpableClock 0).After 0 10).2.SetNow 10 5).2.Now 10 = 15 ∧
    ((((NewTimeWarpableClock 0).After 0 10).2.SetNow 10 5).2.wakeUp 10).map
      (fun s => (s.timers.ents, s.timerCancel, s.buf 0)) = some ([], none, [15]) ∧
    staleWake.map (fun s => s.wakes) =
      some [{ made := 0, interval := 10, cancelled := true },
            { made := 10, interval := 5, cancelled := false },
            { made := 10, interval := 100, cancelled := false }] ∧
    staleWake.map (fun s => s.outstanding 10) =
      some [{ made := 10, interval := 5, cancelled := false },
            { made := 10, interval := 100, cancelled := false }] := by
  refine ⟨?_, by decide, by decide, by decide, by decide, by decide, by decide⟩
  intro s hs
  have h2 : (((NewTimeWarpableClock 0).After 0 10).2.SetNow 10 5).2.Reachable :=
    simulation.Reachable.SetNow 10 5
      (simulation.Reachable.After 0 0 10 (simulation.Reachable.new 0))
  unfold staleWake at hs
  cases e : (((NewTimeWarpableClock 0).After 0 10).2.SetNow 10 5).2.wakeUp 10 with
  | none =>
    rw [e] at hs
    exact Option.noConfusion hs
  | some s3 =>
    rw [e] at hs
    rw [← Option.some.inj hs]
    exact simulation.Reachable.After 10 10 100 (simulation.Reachable.wakeUp 10 h2 e)

/-- C29: on the warping clock `SetNow(t)` and `Add(d)`, called at backing time `b`, leave the
queue and every channel as they were, and with a non-empty queue they make a backing timer for
`fromSimulatedDuration(head.Sub(t))`, where `t` is the argument of `SetNow`, and for `Add` the
backing time plus `d`.  On the clock at warp speed `2` with an entry for `100`, at backing time
`10` the simulated now is `20`.  `Add(5)` there makes a backing timer for `42`; the now before
the call plus `5` is `25`, for which `fromSimulatedDuration(100 - 25)` is `37`, and the simulated
now after the call is `0`, for which `fromSimulatedDuration(100 - 0)` is `50`.  `SetNow(30)`
there makes a backing timer for `35`, which is `fromSimulatedDuration(100 - 30)`; the simulated
now after the call is `-30`, for which `fromSimulatedDuration(100 + 30)` is `65`. -/
theorem SetNow_Add_keep_queue :
    (∀ (s : simulation) (b t d : Int),
      (s.SetNow b t).2.timers = s.timers ∧ (s.SetNow b t).2.chans = s.chans ∧
      (s.Add b d).2.timers = s.timers ∧ (s.Add b d).2.chans = s.chans ∧
      (0 < s.timers.Len →
        (s.SetNow b t).2.wakes.getLast? =
          some { made := b,
                 interval := s.fromSimulatedDuration (time.Sub (s.timers.key 0) t),
                 cancelled := false } ∧
        (s.Add b d).2.wakes.getLast? =
          some { made := b,
                 interval := s.fromSimulatedDuration (time.Sub (s.timers.key 0) (b + d)),
                 cancelled := false })) ∧
    doubleSpeedPending.timers.ents = [(0, 100, 0)] ∧ doubleSpeedPending.Now 10 = 20 ∧
    (doubleSpeedPending.Add 10 5).2.wakes.getLast? =
      some { made := 10, interval := 42, cancelled := false } ∧
    (doubleSpeedPending.Add 10 5).2.fromSimulatedDuration (100 - 25) = 37 ∧
    (doubleSpeedPending.Add 10 5).2.Now 10 = 0 ∧
    (doubleSpeedPending.Add 10 5).2.fromSimulatedDuration (100 - 0) = 50 ∧
    (doubleSpeedPending.SetNow 10 30).2.wakes.getLast? =
      some { made := 10, interval := 35, cancelled := false } ∧
    (doubleSpeedPending.SetNow 10 30).2.fromSimulatedDuration (100 - 30) = 35 ∧
    (doubleSpeedPending.SetNow 10 30).2.Now 10 = -30 ∧
    (doubleSpeedPending.SetNow 10 30).2.fromSimulatedDuration (100 - -30) = 65 :=
  ⟨fun s b t d =>
      ⟨(s.SetNow_Add_frame b t d).1.1, (s.SetNow_Add_frame b t d).1.2.1,
        (s.SetNow_Add_frame b t d).2.1, (s.SetNow_Add_frame b t d).2.2.1,
        fun h => ⟨((s.SetNow_Add_frame b t d).1.2.2.1 h).1,
          ((s.SetNow_Add_frame b t d).2.2.2.1 h).1⟩⟩,
    by decide, by decide, by decide, by decide, by decide, by decide, by decide, by decide,
    by decide, by decide⟩

/-- C30: on the clock at warp speed `3` with an entry `10` ahead, the backing timer is for
`fromSimulatedDuration(10) = 3`; when the backing clock has advanced by `3` the simulated now has
advanced by `toSimulatedDuration(3) = 9`, the wake-up handler delivers nothing, leaves the entry
in the queue and makes a backing timer for `fromSimulatedDuration(1) = 0`. -/
theorem wake_after_interval_counterexample :
    tripleSpeedPending.ratio = float64.ofInt 3 ∧ tripleSpeedPending.ratio.posFinite = true ∧
    tripleSpeedPending.timers.key 0 - tripleSpeedPending.Now 0 = 10 ∧
    tripleSpeedPending.wakes = [{ made := 0, interval := 3, cancelled := false }] ∧
    tripleSpeedPending.fromSimulatedDuration 10 = 3 ∧
    tripleSpeedPending.toSimulatedDuration 3 = 9 ∧
    tripleSpeedPending.Now (0 + 3) = 9 ∧
    (tripleSpeedPending.wakeUp (0 + 3)).map
      (fun s => (s.buf 0, s.timers.ents, s.wakes.getLast?)) =
      some ([], [(0, 10, 0)], some { made := 3, interval := 0, cancelled := false }) :=
  ⟨by decide, by decide, by decide, by decide, by decide, by decide, by decide, by decide⟩

set_option maxRecDepth 20000 in
/-- On a new settable clock with `After(3)` called, `SetNow(epoch + 3)` changes the buffer of
channel `0` only; on the clock of the sleep test, the wake-up handler at backing time `62 s`
changes the buffer of channel `0` only, to the simulated now `180 s`. -/
theorem delivered_not_before_deadline_witness :
    sleepWarped.Reachable ∧
    (∃ f0 : faketime, f0.Reachable ∧ ∃ f1, f0.SetNow (unixEpoch + 3) = some f1 ∧
      ∀ c, f1.buf c ≠ f0.buf c →
        ∃ x ∈ f0.timers.items, x.ch = c ∧ x.t ≤ unixEpoch + 3 ∧ f1.buf c = [unixEpoch + 3]) ∧
    (sleepWarped.wakeUp 62000000000).map (fun s => s.buf 0) = some [180000000000] :=
  have ha := NewSettableClock.After_pos 3 (by decide)
  have hr := faketime.Reachable.After 3 _ faketime.Reachable.new ha
  ⟨sleepWarped_reached,
    ⟨_, hr, (delivered_not_before_deadline _ sleepWarped (unixEpoch + 3) 62000000000 hr
      sleepWarped_reached).1⟩,
    by decide⟩

set_option maxRecDepth 20000 in
/-- The clock at warp speed `2` with an entry for `100` holds a cancel function; its wake-up
handler at backing time `50` empties the queue and then holds none. -/
theorem timerCancel_iff_pending_witness :
    doubleSpeedPending.Reachable ∧ doubleSpeedPending.timerCancel = some 0 ∧
    0 < doubleSpeedPending.timers.Len ∧
    (doubleSpeedPending.wakeUp 50).map (fun s => (s.timers.Len, s.timerCancel)) =
      some (0, none) :=
  ⟨doubleSpeedPending_reached, by decide,
    (timerCancel_iff_pending doubleSpeedPending 50 doubleSpeedPending_reached).1.1 (by decide),
    by decide⟩

theorem headPending_reached : headPending.Reachable :=
  simulation.Reachable.After 0 0 100 (simulation.Reachable.new 0)

/-- C28: on every reached warping clock `After(d)`, its first read of the backing clock being at
`b1` and its second at `b2`, queues the deadline simulated now at `b2` plus `d`, and the new
entry is at the root of the queue exactly when the queue was empty or its head was strictly
after that deadline; but a backing timer (for `fromSimulatedDuration(d)`) is made, and the one
whose cancel function was held cancelled, exactly when the queue was empty or its head was
strictly after the simulated now at `b1` plus `d`.  On the clock made at backing time `0` with
an entry for `100` and a backing timer for `100`, `After(95)` with the reads at `4` and `6`
compares the head with `99` and queues `101`: the entry for `100` stays at the root, its backing
timer is cancelled and a backing timer for `95` is made at backing time `6`.  With both reads
at `4` the new entry, for `99`, is at the root. -/
theorem After_rearms_on_first_read :
    (∀ (s : simulation) (b1 b2 d : Int), s.Reachable →
      List.Perm (s.AfterAt b1 b2 d).2.timers.ents
        ((s.timers.counter, s.Now b2 + d, s.chans.length) :: s.timers.ents) ∧
      (((s.AfterAt b1 b2 d).2.timers.elem 0).id = s.timers.counter ↔
        (s.timers.Len = 0 ∨ s.Now b2 + d < s.timers.key 0)) ∧
      ((s.timers.Len = 0 ∨ s.Now b1 + d < s.timers.key 0) →
        (s.AfterAt b1 b2 d).2.wakes.getLast? =
          some { made := b2, interval := s.fromSimulatedDuration d, cancelled := false } ∧
        (s.AfterAt b1 b2 d).2.wakes.length = s.wakes.length + 1 ∧
        (s.AfterAt b1 b2 d).2.timerCancel = some s.wakes.length ∧
        (∀ k, s.timerCancel = some k → k < s.wakes.length →
          ((s.AfterAt b1 b2 d).2.wakes.getD k
            { made := 0, interval := 0, cancelled := false }).cancelled = true)) ∧
      (¬ (s.timers.Len = 0 ∨ s.Now b1 + d < s.timers.key 0) →
        (s.AfterAt b1 b2 d).2.wakes = s.wakes ∧
        (s.AfterAt b1 b2 d).2.timerCancel = s.timerCancel)) ∧
    headPending.Reachable ∧
    headPending.timers.ents = [(0, 100, 0)] ∧
    headPending.wakes = [{ made := 0, interval := 100, cancelled := false }] ∧
    headPending.timerCancel = some 0 ∧
    headPending.Now 4 + 95 = 99 ∧ headPending.Now 6 + 95 = 101 ∧
    (headPending.AfterAt 4 6 95).2.timers.ents = [(0, 100, 0), (1, 101, 1)] ∧
    ((headPending.AfterAt 4 6 95).2.timers.elem 0).id = 0 ∧
    (headPending.AfterAt 4 6 95).2.wakes =
      [{ made := 0, interval := 100, cancelled := true },
       { made := 6, interval := 95, cancelled := false }] ∧
    (headPending.AfterAt 4 6 95).2.timerCancel = some 1 ∧
    ((headPending.After 4 95).2.timers.elem 0).id = 1 ∧
    ((headPending.After 4 95).2.timers.elem 0).t = 99 :=
  ⟨fun s b1 b2 d h => (s.AfterAt_spec b1 b2 d h.sim_inv).2,
    headPending_reached, by decide, by decide, by decide, by decide, by decide, by decide,
    by decide, by decide, by decide, by decide, by decide⟩

set_option maxRecDepth 20000 in
/-- The sleep of three minutes of the test: at backing time `61 s` the clock is at warp speed
`60`, the entry is `60 s` ahead and the backing timer is for `1 s`; one backing second later the
simulated now has advanced by `60 s` and the wake-up handler delivers the entry. -/
theorem wake_after_interval_witness :
    sleepWarped.Reachable ∧ sleepWarped.ratio.posFinite = true ∧
    sleepWarped.start = 61000000000 ∧ 0 < sleepWarped.timers.Len ∧
    (60000000000 : Int) = sleepWarped.timers.key 0 - sleepWarped.Now 61000000000 ∧
    (1000000000 : Int) = sleepWarped.fromSimulatedDuration 60000000000 ∧
    sleepWarped.Now (61000000000 + 1000000000) = 180000000000 ∧
    ∃ s1, sleepWarped.wakeUp (61000000000 + 1000000000) = some s1 ∧
      s1.buf (sleepWarped.timers.elem 0).ch = [sleepWarped.Now (61000000000 + 1000000000)] ∧
      (sleepWarped.timers.elem 0).ent ∉ s1.timers.ents :=
  have hw := wake_after_interval sleepWarped 61000000000 60000000000 1000000000
    sleepWarped_reached (by decide) (by decide) (by decide) (by decide) (by decide) (by decide)
    (by decide)
  ⟨sleepWarped_reached, by decide, by decide, by decide, by decide, by decide,
    hw.1.trans (by decide), hw.2.1 (by decide)⟩

end gotime

/-! ## The timers of the settable clock -/

namespace queue

/-- An entry left by `PopBeforeOrEqual` was pending before. -/
theorem timeQueue.popItems_rest_mem (o : timeQueue) (t : Int) (h : o.Inv) (x : item)
    (hx : x ∈ (o.popItems t).2.items) : ∃ y ∈ o.items, y.ent = x.ent := by
  have hm : x.ent ∈ o.ents := (o.popItems_perm t h).subset
    (List.mem_append_right _ (timeQueue.mem_ents.2 ⟨x, hx, rfl⟩))
  exact timeQueue.mem_ents.1 hm

/-- An entry left by a cancel closure was pending before. -/
theorem timeQueue.remove_rest_mem (o : timeQueue) (id : Nat) (h : o.Inv) (x : item)
    (hx : x ∈ (o.remove id).2.items) : ∃ y ∈ o.items, y.ent = x.ent := by
  by_cases hp : ∃ z ∈ o.items, z.id = id
  · obtain ⟨z, hz, hid⟩ := hp
    have sp := (o.remove_some id h z hz hid).2
    have hm : x.ent ∈ o.ents :=
      sp.perm.subset (List.mem_cons_of_mem _ (timeQueue.mem_ents.2 ⟨x, hx, rfl⟩))
    exact timeQueue.mem_ents.1 hm
  · have e := o.remove_none id (fun z hz hid => hp ⟨z, hz, hid⟩)
    rw [e] at hx
    exact ⟨x, hx, rfl⟩

end queue

namespace gotime

open queue

theorem getD_set_ne_bool (l : List Bool) (i k : Nat) (v : Bool) (h : i ≠ k) :
    (l.set i v).getD k false = l.getD k false := by
  simp [List.getD_eq_getElem?_getD, List.getElem?_set, h]

theorem mem_set_helper {l : List helper} {k : Nat} {g g1 : helper} (h : g ∈ l.set k g1) :
    g = g1 ∨ g ∈ l := by
  rcases List.mem_or_eq_of_mem_set h with h1 | h1
  · exact Or.inr h1
  · exact Or.inl h1

/-- What `send` needs and does: the channel exists, its buffer was empty and holds the value
afterwards. -/
theorem send_some (chans chans1 : List (List Int)) (c : Nat) (v : Int)
    (h : send chans c v = some chans1) :
    c < chans.length ∧ chans.getD c [] = [] ∧ chans1.getD c [] = [v] := by
  unfold send at h
  cases e : chans[c]? with
  | none => simp [e] at h
  | some b =>
    simp only [e] at h
    split_ifs at h with hb
    have hc : c < chans.length := by
      by_contra hn
      rw [List.getElem?_eq_none (by omega)] at e
      exact Option.noConfusion e
    have hb0 : b = [] := List.length_eq_zero.1 (by omega)
    have h1 : chans.set c (b ++ [v]) = chans1 := by simpa using h
    subst h1
    subst hb0
    refine ⟨hc, ?_, ?_⟩
    · simp [List.getD_eq_getElem?_getD, e]
    · simp [List.getD_eq_getElem?_getD, List.getElem?_set, hc]

/-- The two ways a goroutine of `newTimer` can run, unfolded. -/
theorem fakeClock.helperRun_some (w w1 : fakeClock) (k : Nat) (closed : Bool)
    (h : w.helperRun k closed = some w1) :
    ∃ g, w.helpers[k]? = some g ∧ g.returned = false ∧
      ((closed = true ∧ w.signals.getD g.close false = true ∧
          ∃ chans, send w.clock.chans g.c w.clock.Now = some chans ∧
            w1 = { clock := { w.clock with chans := chans,
                                           timers := (w.clock.timers.remove g.id).2 },
                   signals := w.signals.set g.done true,
                   helpers := w.helpers.set k { g with returned := true } }) ∨
       (closed = false ∧ ∃ v rest chans, w.clock.buf g.ch = v :: rest ∧
          send (w.clock.chans.set g.ch rest) g.c v = some chans ∧
            w1 = { clock := { w.clock with chans := chans },
                   signals := w.signals.set g.done true,
                   helpers := w.helpers.set k { g with returned := true } })) := by
  unfold fakeClock.helperRun at h
  cases hg : w.helpers[k]? with
  | none => simp [hg] at h
  | some g =>
    simp only [hg] at h
    cases hr : g.returned with
    | true => simp [hr] at h
    | false =>
      simp only [hr, Bool.false_eq_true, if_false] at h
      refine ⟨g, rfl, hr, ?_⟩
      cases closed with
      | true =>
        simp only [if_true] at h
        left
        cases hs : w.signals.getD g.close false with
        | false =>
          simp only [hs, Bool.false_eq_true, if_false] at h
          exact Option.noConfusion h
        | true =>
          simp only [hs, if_true] at h
          cases hsend : send w.clock.chans g.c w.clock.Now with
          | none =>
            simp only [hsend] at h
            exact Option.noConfusion h
          | some chans =>
            simp only [hsend] at h
            exact ⟨rfl, rfl, chans, rfl, (Option.some.inj h).symm⟩
      | false =>
        simp only [Bool.false_eq_true, if_false] at h
        right
        cases hb : w.clock.buf g.ch with
        | nil =>
          simp only [hb] at h
          exact Option.noConfusion h
        | cons v rest =>
          simp only [hb] at h
          cases hsend : send (w.clock.chans.set g.ch rest) g.c v with
          | none =>
            simp only [hsend] at h
            exact Option.noConfusion h
          | some chans =>
            simp only [hsend] at h
            exact ⟨rfl, v, rest, chans, rfl, hsend, (Option.some.inj h).symm⟩

theorem fakeClock.WF.wf_new : NewFakeClock.WF :=
  ⟨faketime.Reachable.new, fun h hh => by simp [NewFakeClock] at hh,
    fun h hh => by simp [NewFakeClock] at hh⟩

theorem fakeClock.WF.wf_setNow {w : fakeClock} (hw : w.WF) (t : Int) (f : faketime)
    (e : w.clock.SetNow t = some f) : ({ w with clock := f } : fakeClock).WF := by
  obtain ⟨f1, e1, _, ht, _, hl, _⟩ := w.clock.SetNow_spec t hw.clock.clock_inv
  rw [e] at e1
  have ef : f = f1 := Option.some.inj e1
  subst ef
  refine ⟨faketime.Reachable.SetNow t hw.clock e, ?_, ?_⟩
  · intro h hh
    have := hw.handles h hh
    show h.ch < f.chans.length ∧ h.c < f.chans.length ∧ h.done < w.signals.length
    rw [hl]
    exact this
  · intro h hh x hx
    have hx2 : x ∈ (w.clock.timers.popItems t).2.items := by
      rw [← ht]
      exact hx
    obtain ⟨y, hy, ey⟩ := w.clock.timers.popItems_rest_mem t hw.clock.clock_inv.queue x hx2
    rw [← item.ent_ch ey]
    exact hw.apart h hh y hy

theorem fakeClock.WF.wf_after {w : fakeClock} (hw : w.WF) (d : Int) (ch : Nat) (f : faketime)
    (e : w.clock.After d = some (ch, f)) : ({ w with clock := f } : fakeClock).WF := by
  refine ⟨faketime.Reachable.After d ch hw.clock e, ?_, ?_⟩
  · intro h hh
    obtain ⟨h1, h2, h3⟩ := hw.handles h hh
    show h.ch < f.chans.length ∧ h.c < f.chans.length ∧ h.done < w.signals.length
    by_cases hd : d ≤ 0
    · rw [w.clock.After_nonpos d hd] at e
      have e2 := congrArg Prod.snd (Option.some.inj e)
      simp only at e2
      rw [← e2]
      simp only [List.length_append, List.length_singleton]
      omega
    · rw [w.clock.After_pos d (lt_of_not_le hd)] at e
      have e2 := congrArg Prod.snd (Option.some.inj e)
      simp only at e2
      rw [← e2]
      simp only [List.length_append, List.length_singleton]
      omega
  · intro h hh x hx
    by_cases hd : d ≤ 0
    · rw [w.clock.After_nonpos d hd] at e
      have e2 := congrArg Prod.snd (Option.some.inj e)
      simp only at e2
      rw [← e2] at hx
      exact hw.apart h hh x hx
    · rw [w.clock.After_pos d (lt_of_not_le hd)] at e
      have e2 := congrArg Prod.snd (Option.some.inj e)
      simp only at e2
      rw [← e2] at hx
      have hperm := (w.clock.timers.Add_spec (w.clock.now + d) w.clock.chans.length
        hw.clock.clock_inv.queue).2.2.2.2
      have hm := hperm.subset (timeQueue.mem_ents.2 ⟨x, hx, rfl⟩)
      rcases List.mem_cons.1 hm with e3 | hm2
      · have hxc : x.ch = w.clock.chans.length := by
          have := congrArg (fun e : Nat × Int × Nat => e.2.2) e3
          simpa [item.ent] using this
        have := (hw.handles h hh).2.1
        omega
      · obtain ⟨y, hy, ey⟩ := timeQueue.mem_ents.1 hm2
        rw [← item.ent_ch ey]
        exact hw.apart h hh y hy

/-- The call `newTimer(d)` with `d > 0`, unfolded. -/
theorem fakeClock.newTimer_pos (w : fakeClock) (d : Int) (hd : 0 < d) :
    w.newTimer d = some
      ({ c := w.clock.chans.length, close := some w.signals.length,
         done := w.signals.length + 1 },
       { clock := { w.clock with
                    chans := w.clock.chans ++ [[]] ++ [[]],
                    timers := (w.clock.timers.Add (w.clock.now + d)
                      (w.clock.chans.length + 1)).2,
                    timerAdded := true },
         signals := w.signals ++ [false, false],
         helpers := w.helpers ++
           [{ ch := w.clock.chans.length + 1, c := w.clock.chans.length,
              close := w.signals.length, done := w.signals.length + 1,
              id := w.clock.timers.counter, returned := false }] }) := by
  have hnd : ¬ d ≤ 0 := not_le.2 hd
  simp only [fakeClock.newTimer, hnd, if_false, faketime.notifyTimer, List.length_append,
    List.length_singleton]
  rfl

/-- The call `newTimer(d)` with `d ≤ 0`, unfolded. -/
theorem fakeClock.newTimer_nonpos (w : fakeClock) (d : Int) (hd : d ≤ 0) :
    w.newTimer d = some
      ({ c := w.clock.chans.length, close := none, done := w.signals.length },
       { w with clock := { w.clock with chans := w.clock.chans ++ [[w.clock.now]] },
                signals := w.signals ++ [true] }) := by
  have e : send (w.clock.chans ++ [[]]) w.clock.chans.length w.clock.now =
      some (w.clock.chans ++ [[w.clock.now]]) := by
    rw [send_spec _ _ _ (by simp) (getD_append_length _ _)]
    simp
  simp only [fakeClock.newTimer, hd, if_true, e]

theorem fakeClock.WF.newTimer {w w1 : fakeClock} (hw : w.WF) (d : Int) (t : fakeTimer)
    (e : w.newTimer d = some (t, w1)) : w1.WF := by
  have hinv := hw.clock.clock_inv
  by_cases hd : d ≤ 0
  · rw [w.newTimer_nonpos d hd] at e
    have e2 := congrArg Prod.snd (Option.some.inj e)
    simp only at e2
    rw [← e2]
    have hr := faketime.Reachable.After d _ hw.clock (w.clock.After_nonpos d hd)
    refine ⟨hr, ?_, fun h hh x hx => hw.apart h hh x hx⟩
    intro h hh
    obtain ⟨h1, h2, h3⟩ := hw.handles h hh
    simp only [List.length_append, List.length_singleton]
    exact ⟨by omega, by omega, by omega⟩
  · have hpos : 0 < d := lt_of_not_le hd
    rw [w.newTimer_pos d hpos] at e
    have e2 := congrArg Prod.snd (Option.some.inj e)
    simp only at e2
    rw [← e2]
    have hm : ({ w.clock with chans := w.clock.chans ++ [[]] } : faketime).Reachable :=
      faketime.Reachable.make hw.clock
    have ha := faketime.After_pos ({ w.clock with chans := w.clock.chans ++ [[]] } : faketime)
      d hpos
    have hr := faketime.Reachable.After d _ hm ha
    simp only [List.length_append, List.length_singleton] at hr
    have hperm := (w.clock.timers.Add_spec (w.clock.now + d) (w.clock.chans.length + 1)
      hinv.queue).2.2.2.2
    refine ⟨hr, ?_, ?_⟩
    · intro h hh
      simp only [List.length_append, List.length_singleton, List.length_cons, List.length_nil]
      rcases List.mem_append.1 hh with h1 | h1
      · obtain ⟨a1, a2, a3⟩ := hw.handles h h1
        exact ⟨by omega, by omega, by omega⟩
      · have eh := List.mem_singleton.1 h1
        subst eh
        exact ⟨by dsimp only; omega, by dsimp only; omega, by dsimp only; omega⟩
    · intro h hh x hx
      have hmx := hperm.subset (timeQueue.mem_ents.2 ⟨x, hx, rfl⟩)
      have hxc : x.ch = w.clock.chans.length + 1 ∨ ∃ y ∈ w.clock.timers.items, y.ent = x.ent := by
        rcases List.mem_cons.1 hmx with e3 | hm2
        · left
          have := congrArg (fun e : Nat × Int × Nat => e.2.2) e3
          simpa [item.ent] using this
        · exact Or.inr (timeQueue.mem_ents.1 hm2)
      rcases List.mem_append.1 hh with h1 | h1
      · rcases hxc with hxc | ⟨y, hy, ey⟩
        · have := (hw.handles h h1).2.1
          omega
        · rw [← item.ent_ch ey]
          exact hw.apart h h1 y hy
      · have eh := List.mem_singleton.1 h1
        subst eh
        rcases hxc with hxc | ⟨y, hy, ey⟩
        · show x.ch ≠ w.clock.chans.length
          omega
        · have := (hinv.fresh y hy).1
          rw [← item.ent_ch ey]
          show y.ch ≠ w.clock.chans.length
          omega

theorem fakeClock.WF.stop {w w1 : fakeClock} (hw : w.WF) (t : fakeTimer) (r : Bool)
    (e : w.Stop t = some (r, w1)) : w1.WF := by
  unfold fakeClock.Stop at e
  split_ifs at e with h1
  · have e2 := congrArg Prod.snd (Option.some.inj e)
    simp only at e2
    rw [← e2]
    exact hw
  · cases hc : t.close with
    | none => simp [hc] at e
    | some cl =>
      simp only [hc] at e
      split_ifs at e with h2
      have e2 := congrArg Prod.snd (Option.some.inj e)
      simp only at e2
      rw [← e2]
      refine ⟨hw.clock, ?_, hw.apart⟩
      intro h hh
      have := hw.handles h hh
      simpa using this

theorem fakeClock.WF.helperRun {w w1 : fakeClock} (hw : w.WF) (k : Nat) (closed : Bool)
    (e : w.helperRun k closed = some w1) : w1.WF := by
  have hinv := hw.clock.clock_inv
  obtain ⟨g, hg, _, hcase⟩ := w.helperRun_some w1 k closed e
  have hgm : g ∈ w.helpers := List.getElem?_mem hg
  have hap := hw.apart g hgm
  rcases hcase with ⟨_, _, chans, hsend, rfl⟩ | ⟨_, v, rest, chans, hb, hsend, rfl⟩
  · obtain ⟨hl, _⟩ := send_frame _ _ _ _ hsend
    have hr1 : ({ w.clock with chans := chans } : faketime).Reachable :=
      faketime.Reachable.forward g.c w.clock.Now chans hw.clock hap hsend
    have hr2 := faketime.Reachable.cancel g.id hr1
    refine ⟨hr2, ?_, ?_⟩
    · intro h hh
      have hfield : ∃ h0 ∈ w.helpers, h0.ch = h.ch ∧ h0.c = h.c ∧ h0.done = h.done := by
        rcases mem_set_helper hh with e1 | h1
        · exact ⟨g, hgm, by rw [e1], by rw [e1], by rw [e1]⟩
        · exact ⟨h, h1, rfl, rfl, rfl⟩
      obtain ⟨h0, hm0, e1, e2, e3⟩ := hfield
      obtain ⟨a1, a2, a3⟩ := hw.handles h0 hm0
      rw [e1, e2, e3] at *
      exact ⟨by show h.ch < chans.length; omega, by show h.c < chans.length; omega,
        by simpa using a3⟩
    · intro h hh x hx
      obtain ⟨y, hy, ey⟩ := w.clock.timers.remove_rest_mem g.id hinv.queue x hx
      rw [← item.ent_ch ey]
      rcases mem_set_helper hh with e1 | h1
      · rw [e1]
        exact hap y hy
      · exact hw.apart h h1 y hy
  · obtain ⟨hl, _⟩ := send_frame _ _ _ _ hsend
    have hrecv : (w.clock.recv g.ch).2 =
        ({ w.clock with chans := w.clock.chans.set g.ch rest } : faketime) := by
      unfold faketime.recv
      rw [hb]
    have hr1 : ({ w.clock with chans := w.clock.chans.set g.ch rest } : faketime).Reachable := by
      rw [← hrecv]
      exact faketime.Reachable.recv g.ch hw.clock
    have hr2 := faketime.Reachable.forward g.c v chans hr1 hap hsend
    refine ⟨hr2, ?_, ?_⟩
    · intro h hh
      have hfield : ∃ h0 ∈ w.helpers, h0.ch = h.ch ∧ h0.c = h.c ∧ h0.done = h.done := by
        rcases mem_set_helper hh with e1 | h1
        · exact ⟨g, hgm, by rw [e1], by rw [e1], by rw [e1]⟩
        · exact ⟨h, h1, rfl, rfl, rfl⟩
      obtain ⟨h0, hm0, e1, e2, e3⟩ := hfield
      obtain ⟨a1, a2, a3⟩ := hw.handles h0 hm0
      rw [e1, e2, e3] at *
      have hl2 : chans.length = w.clock.chans.length := by
        rw [hl]
        simp
      exact ⟨by show h.ch < chans.length; omega, by show h.c < chans.length; omega,
        by simpa using a3⟩
    · intro h hh x hx
      rcases mem_set_helper hh with e1 | h1
      · rw [e1]
        exact hap x hx
      · exact hw.apart h h1 x hx

theorem fakeClock.WF.wf_recv {w : fakeClock} (hw : w.WF) (c : Nat) :
    ({ w with clock := (w.clock.recv c).2 } : fakeClock).WF := by
  refine ⟨faketime.Reachable.recv c hw.clock, ?_, ?_⟩
  · intro h hh
    have := hw.handles h hh
    unfold faketime.recv
    cases hb : w.clock.buf c with
    | nil => exact this
    | cons v rest => simpa using this
  · intro h hh x hx
    have hx2 : x ∈ w.clock.timers.items := by
      unfold faketime.recv at hx
      cases hb : w.clock.buf c with
      | nil =>
        rw [hb] at hx
        exact hx
      | cons v rest =>
        rw [hb] at hx
        exact hx
    exact hw.apart h hh x hx2

theorem fakeClock.Reachable.wf {w : fakeClock} (h : w.Reachable) : w.WF := by
  induction h with
  | new => exact fakeClock.WF.wf_new
  | SetNow t _ e ih => exact ih.wf_setNow t _ e
  | After d ch _ e ih => exact ih.wf_after d ch _ e
  | newTimer d t _ e ih => exact ih.newTimer d t e
  | Stop t r _ e ih => exact ih.stop t r e
  | helperRun k closed _ e ih => exact ih.helperRun k closed e
  | recv c _ ih => exact ih.wf_recv c

end gotime

/-! ## One goroutine of `newTimer`, followed through a run -/

namespace gotime

open queue

theorem getD_append_add {α : Type} (l r : List α) (i : Nat) (d : α) :
    (l ++ r).getD (l.length + i) d = r.getD i d := by
  induction l with
  | nil => simp
  | cons a l ih =>
    have e : (a :: l).length + i = (l.length + i) + 1 := by simp; omega
    rw [e, List.cons_append, List.getD_cons_succ]
    exact ih

theorem getD_append_len {α : Type} (l r : List α) (d : α) :
    (l ++ r).getD l.length d = r.getD 0 d :=
  getD_append_add l r 0 d

/-- After `newTimer(d)` with `d > 0` on a well-formed clock, the goroutine started is the only
one to work on the two channels made for it, both buffers are empty and the entry is pending. -/
theorem fakeClock.newTimer_tracks (w : fakeClock) (d : Int) (hd : 0 < d) (hw : w.WF) :
    ∃ t w1 h, w.newTimer d = some (t, w1) ∧ w1.WF ∧ h.c = t.c ∧
      w1.Tracks w.helpers.length h (w.clock.now + d) false ∧
      w1.clock.buf h.c = [] ∧ w1.clock.buf h.ch = [] ∧
      (∃ x ∈ w1.clock.timers.items, x.ch = h.ch ∧ x.t = w.clock.now + d) ∧
      w1.clock.now = w.clock.now ∧ w1.helpers.length = w.helpers.length + 1 := by
  have e := w.newTimer_pos d hd
  have hwf := hw.newTimer d _ e
  have hinv := hw.clock.clock_inv
  have hperm := (w.clock.timers.Add_spec (w.clock.now + d) (w.clock.chans.length + 1)
    hinv.queue).2.2.2.2
  refine ⟨_, _, helper.mk (w.clock.chans.length + 1) w.clock.chans.length w.signals.length
      (w.signals.length + 1) w.clock.timers.counter false, e, hwf, rfl, ?_, ?_, ?_, ?_, rfl, ?_⟩
  · refine ⟨hwf.clock.clock_inv, ?_, ?_, hwf.apart, ?_, ?_, ?_, ?_⟩
    · simp
    · intro j g hj hne
      have hlt : j < w.helpers.length := by
        by_contra hc
        have hgt : w.helpers.length < j := by omega
        rw [List.getElem?_eq_none (by simp; omega)] at hj
        exact Option.noConfusion hj
      have hj2 : w.helpers[j]? = some g := by
        rw [List.getElem?_append_left hlt] at hj
        exact hj
      obtain ⟨a1, a2, a3⟩ := hw.handles g (List.getElem?_mem hj2)
      dsimp only
      exact ⟨by omega, by omega, by omega, by omega, by omega⟩
    · show (w.signals ++ [false, false]).getD w.signals.length false = false
      rw [getD_append_len]
      rfl
    · dsimp only
      exact ⟨by omega, by omega⟩
    · simp only [List.length_append, List.length_singleton]
      exact ⟨by omega, by omega⟩
    · intro x hx hch
      have hmx := hperm.subset (timeQueue.mem_ents.2 ⟨x, hx, rfl⟩)
      rcases List.mem_cons.1 hmx with e3 | hm2
      · have := congrArg (fun e : Nat × Int × Nat => e.2.1) e3
        have hxt : x.t = w.clock.now + d := by simpa [item.ent] using this
        omega
      · exfalso
        obtain ⟨y, hy, ey⟩ := timeQueue.mem_ents.1 hm2
        have h1 := (hinv.fresh y hy).1
        have h2 := item.ent_ch ey
        have h3 : x.ch = w.clock.chans.length + 1 := hch
        omega
  · show (w.clock.chans ++ [[]] ++ [[]]).getD w.clock.chans.length [] = []
    rw [List.append_assoc, getD_append_len]
    rfl
  · show (w.clock.chans ++ [[]] ++ [[]]).getD (w.clock.chans.length + 1) [] = []
    rw [List.append_assoc, getD_append_add]
    rfl
  · have hm := hperm.symm.subset (List.mem_cons_self _ _)
    obtain ⟨x, hx, ex⟩ := timeQueue.mem_ents.1 hm
    refine ⟨x, hx, ?_, ?_⟩
    · have := congrArg (fun e : Nat × Int × Nat => e.2.2) ex
      simpa [item.ent] using this
    · have := congrArg (fun e : Nat × Int × Nat => e.2.1) ex
      simpa [item.ent] using this
  · simp

theorem fakeClock.Tracks.own_apart {w : fakeClock} {k : Nat} {h : helper} {D : Int} {r : Bool}
    (hT : w.Tracks k h D r) : ∀ x ∈ w.clock.timers.items, x.ch ≠ h.c :=
  fun x hx => hT.apart _ (List.getElem?_mem hT.mine) x hx

/-- A `SetNow(t)` keeps the goroutine tracked, leaves the channel of its timer alone, and either
leaves its sink alone or fills it, empty before, with `t`, which is then `D` or later. -/
theorem fakeClock.Tracks.tracks_setNow {w : fakeClock} {k : Nat} {h : helper} {D : Int} {r : Bool}
    (hT : w.Tracks k h D r) (t : Int) (f : faketime) (e : w.clock.SetNow t = some f) :
    ({ w with clock := f } : fakeClock).Tracks k h D r ∧ f.buf h.c = w.clock.buf h.c ∧
    (f.buf h.ch = w.clock.buf h.ch ∨
      (w.clock.buf h.ch = [] ∧ f.buf h.ch = [t] ∧ D ≤ t)) ∧
    ((∃ x ∈ w.clock.timers.items, x.ch = h.ch ∧ x.t ≤ t) → f.buf h.ch = [t]) := by
  obtain ⟨f1, e1, _, ht, _, hl, hin, hout, hinv⟩ := w.clock.SetNow_spec t hT.inv
  rw [e] at e1
  have ef : f = f1 := Option.some.inj e1
  subst ef
  have hrest : ∀ x ∈ f.timers.items, ∃ y ∈ w.clock.timers.items, y.ent = x.ent := by
    intro x hx
    rw [ht] at hx
    exact w.clock.timers.popItems_rest_mem t hT.inv.queue x hx
  have hcnot : h.c ∉ (w.clock.timers.popItems t).1.map item.ch := by
    intro hm
    obtain ⟨p, hp, ep⟩ := List.mem_map.1 hm
    obtain ⟨x, hx, ex, _⟩ := hT.inv.popped_mem t p hp
    exact hT.own_apart x hx ((item.ent_ch ex).trans ep)
  refine ⟨⟨hinv, hT.mine, hT.others, ?_, hT.isOpen, hT.own, ?_, ?_⟩, hout _ hcnot, ?_, ?_⟩
  · intro g hg x hx
    obtain ⟨y, hy, ey⟩ := hrest x hx
    rw [← item.ent_ch ey]
    exact hT.apart g hg y hy
  · show h.c < f.chans.length ∧ h.ch < f.chans.length
    rw [hl]
    exact hT.range
  · intro x hx hch
    obtain ⟨y, hy, ey⟩ := hrest x hx
    rw [← item.ent_t ey]
    exact hT.due y hy ((item.ent_ch ey).trans hch)
  · by_cases hm : h.ch ∈ (w.clock.timers.popItems t).1.map item.ch
    · right
      obtain ⟨p, hp, ep⟩ := List.mem_map.1 hm
      obtain ⟨x, hx, ex, hle⟩ := hT.inv.popped_mem t p hp
      have hxc : x.ch = h.ch := (item.ent_ch ex).trans ep
      have hfr := (hT.inv.fresh x hx).2
      rw [hxc] at hfr
      have := hT.due x hx hxc
      exact ⟨hfr, hin _ hm, by omega⟩
    · exact Or.inl (hout _ hm)
  · rintro ⟨x, hx, hxc, hle⟩
    have := hT.inv.due_popped t x hx hle
    rw [hxc] at this
    exact hin _ this

/-- A run of another goroutine keeps the goroutine tracked and leaves its two channels alone. -/
theorem fakeClock.Tracks.helperOther {w w1 : fakeClock} {k : Nat} {h : helper} {D : Int}
    {r : Bool} (hT : w.Tracks k h D r) (j : Nat) (closed : Bool) (hj : j ≠ k)
    (e : w.helperRun j closed = some w1) :
    w1.Tracks k h D r ∧ w1.clock.buf h.c = w.clock.buf h.c ∧
      w1.clock.buf h.ch = w.clock.buf h.ch := by
  obtain ⟨g, hg, _, hcase⟩ := w.helperRun_some w1 j closed e
  have hgm : g ∈ w.helpers := List.getElem?_mem hg
  obtain ⟨o1, o2, o3, o4, o5⟩ := hT.others j g hg hj
  have hmine : (w.helpers.set j { g with returned := true })[k]? =
      some { h with returned := r } := by
    rw [List.getElem?_set_ne hj]
    exact hT.mine
  have hothers : ∀ i g1, (w.helpers.set j { g with returned := true })[i]? = some g1 → i ≠ k →
      g1.c ≠ h.c ∧ g1.ch ≠ h.c ∧ g1.c ≠ h.ch ∧ g1.ch ≠ h.ch ∧ g1.done ≠ h.close := by
    intro i g1 hi hik
    by_cases hij : j = i
    · subst hij
      have hlt : j < w.helpers.length := by
        by_contra hc
        rw [List.getElem?_eq_none (by omega)] at hg
        exact Option.noConfusion hg
      rw [List.getElem?_set_self hlt] at hi
      rw [← Option.some.inj hi]
      exact ⟨o1, o2, o3, o4, o5⟩
    · rw [List.getElem?_set_ne hij] at hi
      exact hT.others i g1 hi hik
  have hopen : (w.signals.set g.done true).getD h.close false = false := by
    rw [getD_set_ne_bool _ _ _ _ o5]
    exact hT.isOpen
  have hapart0 : ∀ g1 ∈ w.helpers.set j { g with returned := true },
      ∃ g0 ∈ w.helpers, g0.c = g1.c := by
    intro g1 hg1
    rcases mem_set_helper hg1 with e1 | h1
    · exact ⟨g, hgm, by rw [e1]⟩
    · exact ⟨g1, h1, rfl⟩
  rcases hcase with ⟨_, _, chans, hsend, rfl⟩ | ⟨_, v, rest, chans, hb, hsend, rfl⟩
  · obtain ⟨hl, hk⟩ := send_frame _ _ _ _ hsend
    have hinv1 : ({ w.clock with chans := chans } : faketime).Inv :=
      hT.inv.of_chans chans (by omega)
        (fun x hx => hk x.ch (hT.apart g hgm x hx))
    have hinv2 := hinv1.cancel g.id
    refine ⟨⟨hinv2, hmine, hothers, ?_, hopen, hT.own, ?_, ?_⟩, ?_, ?_⟩
    · intro g1 hg1 x hx
      obtain ⟨g0, hg0, e0⟩ := hapart0 g1 hg1
      obtain ⟨y, hy, ey⟩ := w.clock.timers.remove_rest_mem g.id hT.inv.queue x hx
      rw [← item.ent_ch ey, ← e0]
      exact hT.apart g0 hg0 y hy
    · show h.c < chans.length ∧ h.ch < chans.length
      rw [hl]
      exact hT.range
    · intro x hx hch
      obtain ⟨y, hy, ey⟩ := w.clock.timers.remove_rest_mem g.id hT.inv.queue x hx
      rw [← item.ent_t ey]
      exact hT.due y hy ((item.ent_ch ey).trans hch)
    · exact hk h.c (fun e => o1 e.symm)
    · exact hk h.ch (fun e => o3 e.symm)
  · obtain ⟨hl, hk⟩ := send_frame _ _ _ _ hsend
    have hbuf : ∀ c, c ≠ g.c → c ≠ g.ch → chans.getD c [] = w.clock.chans.getD c [] := by
      intro c h1 h2
      rw [hk c h1]
      exact getD_set_ne _ _ _ _ (fun e => h2 e.symm)
    have hnotsink : ∀ x ∈ w.clock.timers.items, x.ch ≠ g.ch := by
      intro x hx hc
      have := (hT.inv.fresh x hx).2
      rw [hc, hb] at this
      exact List.noConfusion this
    have hinv1 : ({ w.clock with chans := chans } : faketime).Inv :=
      hT.inv.of_chans chans (by rw [hl]; simp)
        (fun x hx => hbuf x.ch (hT.apart g hgm x hx) (hnotsink x hx))
    refine ⟨⟨hinv1, hmine, hothers, ?_, hopen, hT.own, ?_, hT.due⟩, ?_, ?_⟩
    · intro g1 hg1 x hx
      obtain ⟨g0, hg0, e0⟩ := hapart0 g1 hg1
      rw [← e0]
      exact hT.apart g0 hg0 x hx
    · show h.c < chans.length ∧ h.ch < chans.length
      rw [hl]
      simpa using hT.range
    · exact hbuf h.c (fun e => o1 e.symm) (fun e => o2 e.symm)
    · exact hbuf h.ch (fun e => o3 e.symm) (fun e => o4 e.symm)

/-- A run of the tracked goroutine, which has not returned: it takes the case `now := <-ch`, its
sink held a value and the channel of its timer was empty; afterwards the goroutine has returned
and the channel of its timer holds that value. -/
theorem fakeClock.Tracks.helperMine {w w1 : fakeClock} {k : Nat} {h : helper} {D : Int}
    (hT : w.Tracks k h D false) (closed : Bool) (e : w.helperRun k closed = some w1) :
    ∃ v rest, w.clock.buf h.ch = v :: rest ∧ w.clock.buf h.c = [] ∧
      w1.Tracks k h D true ∧ w1.clock.buf h.c = [v] := by
  obtain ⟨g, hg, _, hcase⟩ := w.helperRun_some w1 k closed e
  have eg : g = { h with returned := false } := by
    rw [hT.mine] at hg
    exact (Option.some.inj hg).symm
  have hlt : k < w.helpers.length := by
    by_contra hc
    have hm := hT.mine
    rw [List.getElem?_eq_none (by omega)] at hm
    exact Option.noConfusion hm
  subst eg
  rcases hcase with ⟨_, hs, _⟩ | ⟨_, v, rest, chans, hb, hsend, rfl⟩
  · exfalso
    have := hT.isOpen
    rw [this] at hs
    exact Bool.noConfusion hs
  · obtain ⟨hl, hk⟩ := send_frame _ _ _ _ hsend
    obtain ⟨_, s2, s3⟩ := send_some _ _ _ _ hsend
    have hb' : w.clock.buf h.ch = v :: rest := hb
    have hcb : w.clock.buf h.c = [] := by
      have : (w.clock.chans.set h.ch rest).getD h.c [] = [] := s2
      rw [getD_set_ne _ _ _ _ (fun e => hT.own.2 e.symm)] at this
      exact this
    have hnotsink : ∀ x ∈ w.clock.timers.items, x.ch ≠ h.ch := by
      intro x hx hc
      have := (hT.inv.fresh x hx).2
      rw [hc, hb'] at this
      exact List.noConfusion this
    have hinv1 : ({ w.clock with chans := chans } : faketime).Inv :=
      hT.inv.of_chans chans (by rw [hl]; simp)
        (fun x hx => by
          rw [hk x.ch (hT.own_apart x hx)]
          exact getD_set_ne _ _ _ _ (fun e => hnotsink x hx e.symm))
    refine ⟨v, rest, hb', hcb, ⟨hinv1, ?_, ?_, ?_, ?_, hT.own, ?_, hT.due⟩, s3⟩
    · show (w.helpers.set k _)[k]? = _
      rw [List.getElem?_set_self hlt]
    · intro i g1 hi hik
      rw [List.getElem?_set_ne (fun e => hik e.symm)] at hi
      exact hT.others i g1 hi hik
    · intro g1 hg1 x hx
      rcases mem_set_helper hg1 with e1 | h1
      · rw [e1]
        exact hT.own_apart x hx
      · exact hT.apart g1 h1 x hx
    · show (w.signals.set h.done true).getD h.close false = false
      rw [getD_set_ne_bool _ _ _ _ hT.own.1]
      exact hT.isOpen
    · show h.c < chans.length ∧ h.ch < chans.length
      rw [hl]
      simpa using hT.range

/-- The tracked goroutine does not run twice. -/
theorem fakeClock.Tracks.returned_blocks {w : fakeClock} {k : Nat} {h : helper} {D : Int}
    (hT : w.Tracks k h D true) (closed : Bool) : w.helperRun k closed = none := by
  unfold fakeClock.helperRun
  rw [hT.mine]
  simp

/-- A receive from the channel of the timer keeps the goroutine tracked and leaves its sink
alone. -/
theorem fakeClock.Tracks.recvC {w : fakeClock} {k : Nat} {h : helper} {D : Int} {r : Bool}
    (hT : w.Tracks k h D r) :
    ({ w with clock := (w.clock.recv h.c).2 } : fakeClock).Tracks k h D r ∧
      (w.clock.recv h.c).2.buf h.ch = w.clock.buf h.ch := by
  unfold faketime.recv
  cases hb : w.clock.buf h.c with
  | nil => exact ⟨hT, rfl⟩
  | cons v rest =>
    have hinv1 : ({ w.clock with chans := w.clock.chans.set h.c rest } : faketime).Inv :=
      hT.inv.of_chans _ (by simp)
        (fun x hx => getD_set_ne _ _ _ _ (fun e => hT.own_apart x hx e.symm))
    refine ⟨⟨hinv1, hT.mine, hT.others, hT.apart, hT.isOpen, hT.own, ?_, hT.due⟩, ?_⟩
    · show h.c < (w.clock.chans.set h.c rest).length ∧ h.ch < (w.clock.chans.set h.c rest).length
      simpa using hT.range
    · exact getD_set_ne _ _ _ _ hT.own.2

/-- Once the tracked goroutine has returned, an act leaves unchanged what the channel of the
timer has given and holds, taken together. -/
theorem fakeClock.act_done {w : fakeClock} {k : Nat} {h : helper} {D : Int}
    (hT : w.Tracks k h D true) (pre : List Int) (t : Int)
    (hy : pre ++ w.clock.buf h.c = [t]) (a : timerAct) (r1 : fakeClock × List Int)
    (e : w.act h.c a = some r1) :
    r1.1.Tracks k h D true ∧ (pre ++ r1.2) ++ r1.1.clock.buf h.c = [t] := by
  cases a with
  | SetNow u =>
    simp only [fakeClock.act] at e
    cases hs : w.clock.SetNow u with
    | none =>
      rw [hs] at e
      exact Option.noConfusion e
    | some f =>
      rw [hs] at e
      rw [← Option.some.inj e]
      obtain ⟨h1, h2, _⟩ := hT.tracks_setNow u f hs
      refine ⟨h1, ?_⟩
      show (pre ++ []) ++ f.buf h.c = [t]
      rw [List.append_nil, h2]
      exact hy
  | helper j closed =>
    simp only [fakeClock.act] at e
    cases hs : w.helperRun j closed with
    | none =>
      rw [hs] at e
      exact Option.noConfusion e
    | some w1 =>
      rw [hs] at e
      rw [← Option.some.inj e]
      by_cases hj : j = k
      · subst hj
        rw [hT.returned_blocks closed] at hs
        exact Option.noConfusion hs
      · obtain ⟨h1, h2, _⟩ := hT.helperOther j closed hj hs
        refine ⟨h1, ?_⟩
        show (pre ++ []) ++ w1.clock.buf h.c = [t]
        rw [List.append_nil, h2]
        exact hy
  | recv =>
    simp only [fakeClock.act] at e
    have hrec := hT.recvC
    unfold faketime.recv at e hrec
    cases hb : w.clock.buf h.c with
    | nil =>
      rw [hb] at e
      simp only at e
      rw [← Option.some.inj e]
      refine ⟨hT, ?_⟩
      show (pre ++ []) ++ w.clock.buf h.c = [t]
      rw [List.append_nil]
      exact hy
    | cons v rest =>
      rw [hb] at e hrec
      simp only at e hrec
      rw [← Option.some.inj e]
      refine ⟨hrec.1, ?_⟩
      show (pre ++ [v]) ++ (w.clock.chans.set h.c rest).getD h.c [] = [t]
      rw [getD_set_self _ _ _ hT.range.1]
      rw [hb] at hy
      simpa using hy

theorem fakeClock.acts_done {k : Nat} {h : helper} {D : Int} (t : Int) :
    ∀ (as : List timerAct) (w : fakeClock) (pre : List Int) (r : fakeClock × List Int),
      w.Tracks k h D true → pre ++ w.clock.buf h.c = [t] → w.acts h.c as = some r →
      (pre ++ r.2) ++ r.1.clock.buf h.c = [t]
  | [], w, pre, r, _, hy, e => by
    simp only [fakeClock.acts] at e
    rw [← Option.some.inj e]
    simpa using hy
  | a :: rest, w, pre, r, hT, hy, e => by
    simp only [fakeClock.acts] at e
    cases ha : w.act h.c a with
    | none =>
      rw [ha] at e
      exact Option.noConfusion e
    | some r1 =>
      rw [ha] at e
      simp only at e
      cases hr : fakeClock.acts r1.1 h.c rest with
      | none =>
        rw [hr] at e
        exact Option.noConfusion e
      | some r2 =>
        rw [hr] at e
        simp only at e
        rw [← Option.some.inj e]
        obtain ⟨h1, h2⟩ := fakeClock.act_done hT pre t hy a r1 ha
        have := fakeClock.acts_done t rest r1.1 (pre ++ r1.2) r2 h1 h2 hr
        simpa [List.append_assoc] using this

/-- While the tracked goroutine has not returned, an act gives nothing from the channel of the
timer, and afterwards either the goroutine is as before, the sink holding nothing or one
acceptable value, or it has returned and the channel of the timer holds one acceptable value. -/
theorem fakeClock.act_pending {w : fakeClock} {k : Nat} {h : helper} {D : Int}
    (hT : w.Tracks k h D false) (ok : Int → Prop) (hc : w.clock.buf h.c = [])
    (hch : w.clock.buf h.ch = [] ∨ ∃ t, ok t ∧ w.clock.buf h.ch = [t]) (a : timerAct)
    (hok : ∀ t, a = timerAct.SetNow t → D ≤ t → ok t) (r1 : fakeClock × List Int)
    (e : w.act h.c a = some r1) :
    r1.2 = [] ∧
    ((r1.1.Tracks k h D false ∧ r1.1.clock.buf h.c = [] ∧
        (r1.1.clock.buf h.ch = [] ∨ ∃ t, ok t ∧ r1.1.clock.buf h.ch = [t])) ∨
      (∃ t, ok t ∧ r1.1.Tracks k h D true ∧ r1.1.clock.buf h.c = [t])) := by
  cases a with
  | SetNow u =>
    simp only [fakeClock.act] at e
    cases hs : w.clock.SetNow u with
    | none =>
      rw [hs] at e
      exact Option.noConfusion e
    | some f =>
      rw [hs] at e
      rw [← Option.some.inj e]
      obtain ⟨h1, h2, h3, _⟩ := hT.tracks_setNow u f hs
      refine ⟨rfl, Or.inl ⟨h1, h2.trans hc, ?_⟩⟩
      rcases h3 with h3 | ⟨_, h4, h5⟩
      · show f.buf h.ch = [] ∨ ∃ t, ok t ∧ f.buf h.ch = [t]
        rw [h3]
        exact hch
      · exact Or.inr ⟨u, hok u rfl h5, h4⟩
  | helper j closed =>
    simp only [fakeClock.act] at e
    cases hs : w.helperRun j closed with
    | none =>
      rw [hs] at e
      exact Option.noConfusion e
    | some w1 =>
      rw [hs] at e
      rw [← Option.some.inj e]
      refine ⟨rfl, ?_⟩
      by_cases hj : j = k
      · subst hj
        obtain ⟨v, rest, hb, _, h1, h2⟩ := hT.helperMine closed hs
        right
        rcases hch with hch | ⟨t, hokt, hch⟩
        · rw [hch] at hb
          exact List.noConfusion hb
        · rw [hch] at hb
          have hv : t = v := (List.cons.inj hb).1
          exact ⟨t, hokt, h1, by rw [hv]; exact h2⟩
      · obtain ⟨h1, h2, h3⟩ := hT.helperOther j closed hj hs
        left
        refine ⟨h1, h2.trans hc, ?_⟩
        show w1.clock.buf h.ch = [] ∨ ∃ t, ok t ∧ w1.clock.buf h.ch = [t]
        rw [h3]
        exact hch
  | recv =>
    simp only [fakeClock.act] at e
    unfold faketime.recv at e
    rw [hc] at e
    simp only at e
    rw [← Option.some.inj e]
    exact ⟨rfl, Or.inl ⟨hT, hc, hch⟩⟩

theorem fakeClock.acts_pending {k : Nat} {h : helper} {D : Int} (ok : Int → Prop) :
    ∀ (as : List timerAct) (w : fakeClock) (r : fakeClock × List Int),
      w.Tracks k h D false → w.clock.buf h.c = [] →
      (w.clock.buf h.ch = [] ∨ ∃ t, ok t ∧ w.clock.buf h.ch = [t]) →
      (∀ t, timerAct.SetNow t ∈ as → D ≤ t → ok t) → w.acts h.c as = some r →
      (r.2 ++ r.1.clock.buf h.c = [] ∨ ∃ t, ok t ∧ r.2 ++ r.1.clock.buf h.c = [t])
  | [], w, r, _, hc, _, _, e => by
    simp only [fakeClock.acts] at e
    rw [← Option.some.inj e]
    left
    simpa using hc
  | a :: rest, w, r, hT, hc, hch, hok, e => by
    simp only [fakeClock.acts] at e
    cases ha : w.act h.c a with
    | none =>
      rw [ha] at e
      exact Option.noConfusion e
    | some r1 =>
      rw [ha] at e
      simp only at e
      cases hr : fakeClock.acts r1.1 h.c rest with
      | none =>
        rw [hr] at e
        exact Option.noConfusion e
      | some r2 =>
        rw [hr] at e
        simp only at e
        rw [← Option.some.inj e]
        obtain ⟨hg, hcase⟩ := fakeClock.act_pending hT ok hc hch a
          (fun t ht hD => hok t (ht ▸ List.mem_cons_self _ _) hD) r1 ha
        rw [hg]
        rcases hcase with ⟨h1, h2, h3⟩ | ⟨t, hokt, h1, h2⟩
        · have := fakeClock.acts_pending ok rest r1.1 r2 h1 h2 h3
            (fun t ht hD => hok t (List.mem_cons_of_mem _ ht) hD) hr
          simpa using this
        · right
          have := fakeClock.acts_done t rest r1.1 [] r2 h1 (by simpa using h2) hr
          exact ⟨t, hokt, by simpa using this⟩

/-- An act around a timer leads from a reached clock to a reached clock. -/
theorem fakeClock.act_reached {w : fakeClock} (hw : w.Reachable) (c : Nat) (a : timerAct)
    (r : fakeClock × List Int) (e : w.act c a = some r) : r.1.Reachable := by
  cases a with
  | SetNow t =>
    simp only [fakeClock.act] at e
    cases hs : w.clock.SetNow t with
    | none =>
      rw [hs] at e
      exact Option.noConfusion e
    | some f =>
      rw [hs] at e
      rw [← Option.some.inj e]
      exact fakeClock.Reachable.SetNow t hw hs
  | helper k closed =>
    simp only [fakeClock.act] at e
    cases hs : w.helperRun k closed with
    | none =>
      rw [hs] at e
      exact Option.noConfusion e
    | some w1 =>
      rw [hs] at e
      rw [← Option.some.inj e]
      exact fakeClock.Reachable.helperRun k closed hw hs
  | recv =>
    simp only [fakeClock.act] at e
    cases hv : (w.clock.recv c).1 with
    | none =>
      rw [hv] at e
      rw [← Option.some.inj e]
      exact hw
    | some v =>
      rw [hv] at e
      rw [← Option.some.inj e]
      exact fakeClock.Reachable.recv c hw

theorem fakeClock.acts_reached (c : Nat) :
    ∀ (as : List timerAct) (w : fakeClock) (r : fakeClock × List Int),
      w.Reachable → w.acts c as = some r → r.1.Reachable
  | [], w, r, hw, e => by
    simp only [fakeClock.acts] at e
    rw [← Option.some.inj e]
    exact hw
  | a :: rest, w, r, hw, e => by
    simp only [fakeClock.acts] at e
    cases ha : w.act c a with
    | none =>
      rw [ha] at e
      exact Option.noConfusion e
    | some r1 =>
      rw [ha] at e
      simp only at e
      cases hr : fakeClock.acts r1.1 c rest with
      | none =>
        rw [hr] at e
        exact Option.noConfusion e
      | some r2 =>
        rw [hr] at e
        simp only at e
        rw [← Option.some.inj e]
        exact fakeClock.acts_reached c rest r1.1 r2 (fakeClock.act_reached hw c a r1 ha) hr

/-- On a well-formed clock `Reset(d)` with `d > 0`, whatever the timer, returns `false`; the
channel of the timer is a new one, empty; whatever acts follow, that channel gives and holds,
taken together, nothing, or one value, the time of a `SetNow` call at or after now `+ d`; after
`SetNow(now + d)` and the run of the goroutine of the reset it is now `+ d`; and these two acts
can be done. -/
theorem fakeClock.Reset_once (w1 : fakeClock) (t1 : fakeTimer) (d2 : Int) (h2 : 0 < d2)
    (hwf1 : w1.WF) :
    ∃ t2 w2, w1.Reset t1 d2 = some (false, t2, w2) ∧
      w2.clock.buf t2.c = [] ∧
      (∀ as r, w2.acts t2.c as = some r →
        (r.2 ++ r.1.clock.buf t2.c = [] ∨
          ∃ t, timerAct.SetNow t ∈ as ∧ w1.clock.now + d2 ≤ t ∧
            r.2 ++ r.1.clock.buf t2.c = [t])) ∧
      (∀ rest r,
        w2.acts t2.c (timerAct.SetNow (w1.clock.now + d2) ::
          timerAct.helper w1.helpers.length false :: rest) = some r →
        r.2 ++ r.1.clock.buf t2.c = [w1.clock.now + d2]) ∧
      (∃ r, w2.acts t2.c [timerAct.SetNow (w1.clock.now + d2),
          timerAct.helper w1.helpers.length false] = some r) := by
  obtain ⟨t2, w2, g, e2, hwf2, hgc, hT, hbc, hbch, hpend, hnow2, _⟩ :=
    w1.newTimer_tracks d2 h2 hwf1
  have eR : w1.Reset t1 d2 = some (false, t2, w2) := by
    unfold fakeClock.Reset
    rw [e2]
  have hc12 : t2.c = g.c := hgc.symm
  have hsched : ∀ f, w2.clock.SetNow (w1.clock.now + d2) = some f →
      ∃ w3, ({ w2 with clock := f } : fakeClock).helperRun w1.helpers.length false =
          some w3 ∧ w3.Tracks w1.helpers.length g (w1.clock.now + d2) true ∧
        w3.clock.buf g.c = [w1.clock.now + d2] := by
    intro f hf
    obtain ⟨hT1, hc1, _, hfill⟩ := hT.tracks_setNow (w1.clock.now + d2) f hf
    obtain ⟨x, hx, hxc, hxt⟩ := hpend
    have hb1 : f.buf g.ch = [w1.clock.now + d2] := hfill ⟨x, hx, hxc, by omega⟩
    have hc2 : f.buf g.c = [] := hc1.trans hbc
    have hsend : send (f.chans.set g.ch []) g.c (w1.clock.now + d2) =
        some ((f.chans.set g.ch []).set g.c [w1.clock.now + d2]) := by
      apply send_spec
      · simpa using hT1.range.1
      · rw [getD_set_ne _ _ _ _ (fun e => hT1.own.2 e.symm)]
        exact hc2
    have hrun : ({ w2 with clock := f } : fakeClock).helperRun w1.helpers.length false =
        some { clock := { f with chans := (f.chans.set g.ch []).set g.c [w1.clock.now + d2] },
               signals := w2.signals.set g.done true,
               helpers := w2.helpers.set w1.helpers.length { g with returned := true } } := by
      unfold fakeClock.helperRun
      have hm := hT1.mine
      simp only [] at hm
      rw [hm]
      simp only [Bool.false_eq_true, if_false]
      have hb2 : f.buf g.ch = [w1.clock.now + d2] := hb1
      rw [hb2]
      simp only [hsend]
    obtain ⟨v, rest, hv, _, hT2, hc3⟩ := hT1.helperMine false hrun
    have hv2 : f.buf g.ch = v :: rest := hv
    rw [hb1] at hv2
    have hvv : w1.clock.now + d2 = v := (List.cons.inj hv2).1
    exact ⟨_, hrun, hT2, hc3.trans (by rw [hvv])⟩
  refine ⟨t2, w2, eR, ?_, ?_, ?_, ?_⟩
  · rw [hc12]
    exact hbc
  · rw [hc12]
    intro as r hr
    have := fakeClock.acts_pending
      (fun t => timerAct.SetNow t ∈ as ∧ w1.clock.now + d2 ≤ t) as w2 r hT hbc (Or.inl hbch)
      (fun t ht hD => ⟨ht, hD⟩) hr
    rcases this with h | ⟨t, ⟨h3, h4⟩, h5⟩
    · exact Or.inl h
    · exact Or.inr ⟨t, h3, h4, h5⟩
  · rw [hc12]
    intro rest r hr
    simp only [fakeClock.acts, fakeClock.act] at hr
    cases hs : w2.clock.SetNow (w1.clock.now + d2) with
    | none =>
      rw [hs] at hr
      exact Option.noConfusion hr
    | some f =>
      rw [hs] at hr
      simp only at hr
      obtain ⟨w3, hrun, hT3, hc3⟩ := hsched f hs
      rw [hrun] at hr
      simp only at hr
      cases hrest : fakeClock.acts w3 g.c rest with
      | none =>
        rw [hrest] at hr
        exact Option.noConfusion hr
      | some r2 =>
        rw [hrest] at hr
        simp only at hr
        rw [← Option.some.inj hr]
        have := fakeClock.acts_done (w1.clock.now + d2) rest w3 [] r2 hT3 (by simpa using hc3)
          hrest
        simpa using this
  · rw [hc12]
    obtain ⟨f, hf, _⟩ := w2.clock.SetNow_spec (w1.clock.now + d2) hT.inv
    obtain ⟨w3, hrun, _, _⟩ := hsched f hf
    refine ⟨(w3, []), ?_⟩
    simp only [fakeClock.acts, fakeClock.act, hf, hrun]
    rfl

/-- C23: on every reached settable clock with timers, for `d1 > d2 > 0`, `Timer(d1)` returns a
timer; whatever `SetNow` calls, runs of goroutines and receives from `C()` come next (the timer
having fired or not), `Reset(d2)` then returns `false`, the channel `C()` of the timer being a
new, empty one.  Whatever `SetNow` calls, runs of goroutines and receives from `C()` follow, the
values that `C()` has given and holds, taken together, are none, or exactly one, the time of a
`SetNow` call at or after the now of the reset `+ d2`.  When `SetNow(now + d2)` and the run of
the goroutine of the reset come first, that one value is now `+ d2`, whatever follows (a `SetNow`
past the deadline of `Timer(d1)` and a run of its goroutine included); and these two acts can be
done. -/
theorem Reset_fires_once (w : fakeClock) (d1 d2 : Int) (mid : List timerAct)
    (hw : w.Reachable) (h2 : 0 < d2) (h12 : d2 < d1) :
    ∃ t1 w1, w.Timer d1 = some (t1, w1) ∧
      ∀ m, w1.acts t1.c mid = some m →
        ∃ t2 w2, m.1.Reset t1 d2 = some (false, t2, w2) ∧
          w2.clock.buf t2.c = [] ∧
          (∀ as r, w2.acts t2.c as = some r →
            (r.2 ++ r.1.clock.buf t2.c = [] ∨
              ∃ t, timerAct.SetNow t ∈ as ∧ m.1.clock.now + d2 ≤ t ∧
                r.2 ++ r.1.clock.buf t2.c = [t])) ∧
          (∀ rest r,
            w2.acts t2.c (timerAct.SetNow (m.1.clock.now + d2) ::
              timerAct.helper m.1.helpers.length false :: rest) = some r →
            r.2 ++ r.1.clock.buf t2.c = [m.1.clock.now + d2]) ∧
          (∃ r, w2.acts t2.c [timerAct.SetNow (m.1.clock.now + d2),
              timerAct.helper m.1.helpers.length false] = some r) := by
  have hd1 : 0 < d1 := by omega
  have e1 := w.newTimer_pos d1 hd1
  refine ⟨_, _, e1, ?_⟩
  intro m hm
  have hr1 := fakeClock.Reachable.newTimer d1 _ hw e1
  exact fakeClock.Reset_once m.1 _ d2 h2 (fakeClock.acts_reached _ mid _ m hr1 hm).wf

set_option maxRecDepth 20000 in
/-- On a new settable clock: `Timer(60)`; `SetNow(epoch + 10)` and a receive; `Reset(30)`; then
`SetNow(epoch + 40)`, the goroutine of the reset, a receive, `SetNow(epoch + 60)`, the goroutine
of the first timer, a receive, `SetNow(epoch + 100)` and a receive: `C()` gives `epoch + 40` and
nothing more. -/
theorem Reset_fires_once_witness :
    NewFakeClock.Reachable ∧ (0 : Int) < 30 ∧ (30 : Int) < 60 ∧
    ((NewFakeClock.Timer 60).bind (fun p =>
      (p.2.acts p.1.c [timerAct.SetNow (unixEpoch + 10), timerAct.recv]).bind (fun m =>
        (m.1.Reset p.1 30).bind (fun q =>
          (q.2.2.acts q.2.1.c
            [timerAct.SetNow (unixEpoch + 40), timerAct.helper 1 false, timerAct.recv,
             timerAct.SetNow (unixEpoch + 60), timerAct.helper 0 false, timerAct.recv,
             timerAct.SetNow (unixEpoch + 100), timerAct.recv]).map
            (fun r => (q.1, m.1.clock.now, r.2 ++ r.1.clock.buf q.2.1.c)))))) =
      some (false, unixEpoch + 10, [unixEpoch + 40]) ∧
    ∃ t1 w1, NewFakeClock.Timer 60 = some (t1, w1) ∧
      ∀ m, w1.acts t1.c [timerAct.SetNow (unixEpoch + 10), timerAct.recv] = some m →
        ∃ t2 w2, m.1.Reset t1 30 = some (false, t2, w2) ∧
          ∀ rest r, w2.acts t2.c (timerAct.SetNow (m.1.clock.now + 30) ::
              timerAct.helper m.1.helpers.length false :: rest) = some r →
            r.2 ++ r.1.clock.buf t2.c = [m.1.clock.now + 30] :=
  ⟨fakeClock.Reachable.new, by decide, by decide, by decide, by
    obtain ⟨t1, w1, e1, h⟩ :=
      Reset_fires_once NewFakeClock 60 30 [timerAct.SetNow (unixEpoch + 10), timerAct.recv]
        fakeClock.Reachable.new (by decide) (by decide)
    refine ⟨t1, w1, e1, fun m hm => ?_⟩
    obtain ⟨t2, w2, e2, _, _, h3, _⟩ := h m hm
    exact ⟨t2, w2, e2, h3⟩⟩

end gotime

namespace gotime

open queue

/-- The call `After` leaves the simulated now as it was, at every backing time. -/
theorem simulation.After_Now (s : simulation) (b d b1 : Int) :
    (s.After b d).2.Now b1 = s.Now b1 := by
  obtain ⟨_, _, _, h1, h2, h3⟩ := s.After_fields b d
  simp only [simulation.Now, simulation.lockedNow, simulation.toSimulatedDuration, h1, h2, h3]

/-- C21: on a new warping clock made at backing time `0`, `After(-1)` and `After(0)` return with
the buffer of the channel returned empty; `After(-1)` has queued an entry for `-1` and made a
backing timer for `-1`. -/
theorem After_nonpositive_warping_counterexample :
    ((NewTimeWarpableClock 0).After 0 (-1)).1 = 0 ∧
    ((NewTimeWarpableClock 0).After 0 (-1)).2.buf 0 = [] ∧
    ((NewTimeWarpableClock 0).After 0 (-1)).2.timers.ents = [(0, -1, 0)] ∧
    ((NewTimeWarpableClock 0).After 0 (-1)).2.wakes =
      [{ made := 0, interval := -1, cancelled := false }] ∧
    ((NewTimeWarpableClock 0).After 0 0).1 = 0 ∧
    ((NewTimeWarpableClock 0).After 0 0).2.buf 0 = [] :=
  ⟨by decide, by decide, by decide, by decide, by decide, by decide⟩

/-- C21, as amended: on every reached warping clock, for `d ≤ 0`, `After(d)` writes into no
channel: when the call returns every buffer is as before and the buffer of the channel returned
is empty; the entry (next id, simulated now `+ d`, that channel) is pending; and the wake-up
handler, run with the backing clock where it was, returns and leaves exactly one value in that
buffer, the simulated now. -/
theorem After_nonpositive_warping (s : simulation) (b d : Int) (h : s.Reachable) (hd : d ≤ 0) :
    (∀ c, (s.After b d).2.buf c = s.buf c) ∧ (s.After b d).2.buf (s.After b d).1 = [] ∧
    (s.timers.counter, s.Now b + d, (s.After b d).1) ∈ (s.After b d).2.timers.ents ∧
    ∃ s1, (s.After b d).2.wakeUp b = some s1 ∧ s1.buf (s.After b d).1 = [s.Now b] := by
  obtain ⟨h1, ht, _⟩ := s.After_fields b d
  have hinv := (simulation.Reachable.After b b d h).sim_inv
  have hperm := (s.timers.Add_spec (s.Now b + d) s.chans.length h.sim_inv.queue).2.2.2.2
  have hm : (s.timers.counter, s.Now b + d, (s.After b d).1) ∈ (s.After b d).2.timers.ents := by
    rw [ht, h1]
    exact hperm.symm.subset (List.mem_cons_self _ _)
  refine ⟨(s.After_buf b d).1, (s.After_buf b d).2, hm, ?_⟩
  obtain ⟨x, hx, ex⟩ := timeQueue.mem_ents.1 hm
  have hxt : x.t = s.Now b + d := by
    have := congrArg (fun e : Nat × Int × Nat => e.2.1) ex
    simpa [item.ent] using this
  have hxc : x.ch = (s.After b d).1 := by
    have := congrArg (fun e : Nat × Int × Nat => e.2.2) ex
    simpa [item.ent] using this
  obtain ⟨s1, e, _, _, hin, _⟩ := (s.After b d).2.wakeUp_spec b hinv
  have hdue : x.t ≤ (s.After b d).2.Now b := by
    rw [s.After_Now b d b, hxt]
    omega
  have hpop := (hinv.toFake 0).due_popped ((s.After b d).2.Now b) x hx hdue
  rw [hxc] at hpop
  have := hin _ hpop
  rw [s.After_Now b d b] at this
  exact ⟨s1, e, this⟩

/-- On a new warping clock made at backing time `0`, `After(-1)` returns channel `0` with an
empty buffer, and the wake-up handler then leaves the simulated now, `0`, in it. -/
theorem After_nonpositive_warping_witness :
    (NewTimeWarpableClock 0).Reachable ∧ (-1 : Int) ≤ 0 ∧
    ((NewTimeWarpableClock 0).After 0 (-1)).2.buf ((NewTimeWarpableClock 0).After 0 (-1)).1 = [] ∧
    ∃ s1, ((NewTimeWarpableClock 0).After 0 (-1)).2.wakeUp 0 = some s1 ∧
      s1.buf ((NewTimeWarpableClock 0).After 0 (-1)).1 = [(NewTimeWarpableClock 0).Now 0] :=
  have hw := After_nonpositive_warping (NewTimeWarpableClock 0) 0 (-1)
    (simulation.Reachable.new 0) (by decide)
  ⟨simulation.Reachable.new 0, by decide, hw.2.1, hw.2.2.2⟩

end gotime

/-! ## `Stop` called twice -/

namespace gotime

open queue

theorem getD_set_self_bool (l : List Bool) (i : Nat) (v : Bool) (h : i < l.length) :
    (l.set i v).getD i false = v := by
  simp [List.getD_eq_getElem?_getD, List.getElem?_set, h]

/-- The two `chan struct{}` values that `newTimer` makes are open, and after `close(closeCh)`
the first is closed and the second still open. -/
theorem signals_fresh (l : List Bool) :
    (l ++ [false, false]).getD l.length false = false ∧
    (l ++ [false, false]).getD (l.length + 1) false = false ∧
    ((l ++ [false, false]).set l.length true).getD l.length false = true ∧
    ((l ++ [false, false]).set l.length true).getD (l.length + 1) false = false ∧
    (((l ++ [false, false]).set l.length true).set (l.length + 1) true).getD (l.length + 1)
      false = true := by
  have h0 : (l ++ [false, false]).getD l.length false = false := by
    rw [getD_append_len]
    rfl
  have h1 : (l ++ [false, false]).getD (l.length + 1) false = false := by
    rw [getD_append_add]
    rfl
  refine ⟨h0, h1, ?_, ?_, ?_⟩
  · exact getD_set_self_bool _ _ _ (by simp)
  · rw [getD_set_ne_bool _ _ _ _ (by omega)]
    exact h1
  · exact getD_set_self_bool _ _ _ (by simp)

/-- The first `Stop()` on a timer whose `done` and `close` are open: `close` is closed and the
result is `false`. -/
theorem fakeClock.Stop_first (w : fakeClock) (t : fakeTimer) (cl : Nat)
    (hd : w.signals.getD t.done false = false) (hc : t.close = some cl)
    (ho : w.signals.getD cl false = false) :
    w.Stop t = some (false, { w with signals := w.signals.set cl true }) := by
  unfold fakeClock.Stop
  rw [hd, hc]
  simp only [Bool.false_eq_true, if_false, ho, if_true]

/-- A `Stop()` on a timer whose `close` is closed and whose `done` is open panics. -/
theorem fakeClock.Stop_again (w : fakeClock) (t : fakeTimer) (cl : Nat)
    (hd : w.signals.getD t.done false = false) (hc : t.close = some cl)
    (ho : w.signals.getD cl false = true) : w.Stop t = none := by
  unfold fakeClock.Stop
  rw [hd, hc]
  simp only [Bool.false_eq_true, if_false, ho, if_true]

/-- A `Stop()` on a timer whose `done` is closed returns `true` and changes nothing. -/
theorem fakeClock.Stop_returned (w : fakeClock) (t : fakeTimer)
    (hd : w.signals.getD t.done false = true) : w.Stop t = some (true, w) := by
  unfold fakeClock.Stop
  rw [hd]
  rfl

theorem warpClock.warp_Stop_first (w : warpClock) (t : fakeTimer) (cl : Nat)
    (hd : w.signals.getD t.done false = false) (hc : t.close = some cl)
    (ho : w.signals.getD cl false = false) :
    w.Stop t = some (false, { w with signals := w.signals.set cl true }) := by
  unfold warpClock.Stop
  rw [hd, hc]
  simp only [Bool.false_eq_true, if_false, ho, if_true]

theorem warpClock.warp_Stop_again (w : warpClock) (t : fakeTimer) (cl : Nat)
    (hd : w.signals.getD t.done false = false) (hc : t.close = some cl)
    (ho : w.signals.getD cl false = true) : w.Stop t = none := by
  unfold warpClock.Stop
  rw [hd, hc]
  simp only [Bool.false_eq_true, if_false, ho, if_true]

theorem warpClock.warp_Stop_returned (w : warpClock) (t : fakeTimer)
    (hd : w.signals.getD t.done false = true) : w.Stop t = some (true, w) := by
  unfold warpClock.Stop
  rw [hd]
  rfl

/-- The goroutine of `newTimer` taking the case `<-closeCh`, when `closeCh` is closed and the
channel `c` is empty: it returns, and `done` is closed. -/
theorem fakeClock.helperRun_closed (w : fakeClock) (k : Nat) (h : helper)
    (hk : w.helpers[k]? = some h) (hr : h.returned = false)
    (hs : w.signals.getD h.close false = true) (hc : h.c < w.clock.chans.length)
    (hb : w.clock.chans.getD h.c [] = []) :
    ∃ w1, w.helperRun k true = some w1 ∧ w1.signals = w.signals.set h.done true := by
  unfold fakeClock.helperRun
  rw [hk]
  simp only [hr, Bool.false_eq_true, if_false, if_true, hs, send_spec _ _ _ hc hb]
  exact ⟨_, rfl, rfl⟩

/-- The goroutine of `simulation.newTimer` entering its `select`. -/
theorem warpClock.helperEnter_fresh (w : warpClock) (b : Int) (k : Nat) (h : warpHelper)
    (hk : w.helpers[k]? = some h) (hr : h.returned = false) (hch : h.ch = none) :
    w.helperEnter b k =
      some { w with clock := (w.clock.After b h.d).2,
                    helpers := w.helpers.set k { h with ch := some (w.clock.After b h.d).1 } } := by
  unfold warpClock.helperEnter
  rw [hk]
  simp only [hr, hch, Option.isSome_none, Bool.or_self, Bool.false_eq_true, if_false]

/-- The goroutine of `simulation.newTimer` taking the case `<-closeCh`, when `closeCh` is
closed: it returns, and `done` is closed. -/
theorem warpClock.warp_helperRun_closed (w : warpClock) (k : Nat) (h : warpHelper) (ch : Nat)
    (hk : w.helpers[k]? = some h) (hr : h.returned = false) (hch : h.ch = some ch)
    (hs : w.signals.getD h.close false = true) :
    ∃ w1, w.helperRun k true = some w1 ∧ w1.signals = w.signals.set h.done true := by
  unfold warpClock.helperRun
  rw [hk]
  simp only [hr, hch, Bool.false_eq_true, if_false, if_true, hs]
  exact ⟨_, rfl, rfl⟩

/-- On the settable clock, whatever its state, for `d > 0`: `Timer(d)` returns a timer; the first
`Stop()` returns `false` and closes `close`; a second `Stop()` right after it panics; if the
goroutine of the timer runs in between (it takes the case `<-closeCh`), the second `Stop()`
returns `true` and changes nothing. -/
theorem fakeClock.Stop_Stop (w : fakeClock) (d : Int) (hd : 0 < d) :
    ∃ t w1 w2, w.Timer d = some (t, w1) ∧ w1.Stop t = some (false, w2) ∧ w2.Stop t = none ∧
      ∃ w3, w2.helperRun w.helpers.length true = some w3 ∧ w3.Stop t = some (true, w3) := by
  obtain ⟨s0, s1, s2, s3, s4⟩ := signals_fresh w.signals
  refine ⟨_, _, _, w.newTimer_pos d hd, fakeClock.Stop_first _ _ w.signals.length s1 rfl s0,
    fakeClock.Stop_again _ _ w.signals.length s3 rfl s2, ?_⟩
  have hk : (w.helpers ++
      [helper.mk (w.clock.chans.length + 1) w.clock.chans.length w.signals.length
        (w.signals.length + 1) w.clock.timers.counter false])[w.helpers.length]? =
      some (helper.mk (w.clock.chans.length + 1) w.clock.chans.length w.signals.length
        (w.signals.length + 1) w.clock.timers.counter false) := by
    simp
  have hb : (w.clock.chans ++ [[]] ++ [[]]).getD w.clock.chans.length [] = [] := by
    rw [List.append_assoc, getD_append_len]
    rfl
  obtain ⟨w3, e3, hsig⟩ := fakeClock.helperRun_closed
    { clock := { w.clock with
                 chans := w.clock.chans ++ [[]] ++ [[]],
                 timers := (w.clock.timers.Add (w.clock.now + d) (w.clock.chans.length + 1)).2,
                 timerAdded := true },
      signals := (w.signals ++ [false, false]).set w.signals.length true,
      helpers := w.helpers ++
        [helper.mk (w.clock.chans.length + 1) w.clock.chans.length w.signals.length
          (w.signals.length + 1) w.clock.timers.counter false] }
    w.helpers.length _ hk rfl s2 (by simp) hb
  refine ⟨w3, e3, fakeClock.Stop_returned _ _ ?_⟩
  rw [hsig]
  exact s4

/-- On the warping clock, whatever its state, for every `d`: the first `Stop()` on the timer
that `Timer(d)` returns is `false` and closes `close`; a second `Stop()` right after it panics,
also when the goroutine of the timer has entered its `select` in between; if the goroutine has
returned in between (it takes the case `<-closeCh`), the second `Stop()` returns `true` and
changes nothing. -/
theorem warpClock.warp_Stop_Stop (w : warpClock) (d b : Int) :
    ∃ w2, (w.Timer d).2.Stop (w.Timer d).1 = some (false, w2) ∧
      w2.Stop (w.Timer d).1 = none ∧
      ∃ w3 w4, w2.helperEnter b w.helpers.length = some w3 ∧ w3.Stop (w.Timer d).1 = none ∧
        w3.helperRun w.helpers.length true = some w4 ∧
        w4.Stop (w.Timer d).1 = some (true, w4) := by
  obtain ⟨s0, s1, s2, s3, s4⟩ := signals_fresh w.signals
  refine ⟨_, warpClock.warp_Stop_first _ _ w.signals.length s1 rfl s0,
    warpClock.warp_Stop_again _ _ w.signals.length s3 rfl s2, ?_⟩
  have hk : (w.helpers ++
      [warpHelper.mk d w.clock.chans.length w.signals.length (w.signals.length + 1) none
        false])[w.helpers.length]? =
      some (warpHelper.mk d w.clock.chans.length w.signals.length (w.signals.length + 1) none
        false) := by
    simp
  have e3 := warpClock.helperEnter_fresh
    { clock := { w.clock with chans := w.clock.chans ++ [[]] },
      signals := (w.signals ++ [false, false]).set w.signals.length true,
      helpers := w.helpers ++
        [warpHelper.mk d w.clock.chans.length w.signals.length (w.signals.length + 1) none
          false] }
    b w.helpers.length _ hk rfl rfl
  have hk2 : ((w.helpers ++
      [warpHelper.mk d w.clock.chans.length w.signals.length (w.signals.length + 1) none
        false]).set w.helpers.length
      (warpHelper.mk d w.clock.chans.length w.signals.length (w.signals.length + 1)
        (some (simulation.After { w.clock with chans := w.clock.chans ++ [[]] } b d).1)
        false))[w.helpers.length]? =
      some (warpHelper.mk d w.clock.chans.length w.signals.length (w.signals.length + 1)
        (some (simulation.After { w.clock with chans := w.clock.chans ++ [[]] } b d).1)
        false) := by
    rw [List.getElem?_set_self (by simp)]
  obtain ⟨w4, e4, hsig⟩ := warpClock.warp_helperRun_closed
    { clock := (simulation.After { w.clock with chans := w.clock.chans ++ [[]] } b d).2,
      signals := (w.signals ++ [false, false]).set w.signals.length true,
      helpers := (w.helpers ++
        [warpHelper.mk d w.clock.chans.length w.signals.length (w.signals.length + 1) none
          false]).set w.helpers.length
        (warpHelper.mk d w.clock.chans.length w.signals.length (w.signals.length + 1)
          (some (simulation.After { w.clock with chans := w.clock.chans ++ [[]] } b d).1)
          false) }
    w.helpers.length _ _ hk2 rfl rfl s2
  refine ⟨_, w4, e3, warpClock.warp_Stop_again _ _ w.signals.length s3 rfl s2, e4,
    warpClock.warp_Stop_returned _ _ ?_⟩
  rw [hsig]
  exact s4

/-- C31: on the settable clock (for `d > 0`) and on the warping clock, whatever the state of the
clock, the first `Stop()` on a timer just made returns `false`, and a second `Stop()` right
after it panics: `done` is still open, so the call closes `close` a second time.  Only when the
goroutine of the timer has returned in between does the second `Stop()` return `true` and change
nothing.  On a new settable clock and on a new warping clock, `Timer(1)` followed by two calls
of `Stop()` panics in the second. -/
theorem Stop_twice_panics :
    (∀ (w : fakeClock) (d : Int), 0 < d →
      ∃ t w1 w2, w.Timer d = some (t, w1) ∧ w1.Stop t = some (false, w2) ∧ w2.Stop t = none ∧
        ∃ w3, w2.helperRun w.helpers.length true = some w3 ∧ w3.Stop t = some (true, w3)) ∧
    (∀ (w : warpClock) (d b : Int),
      ∃ w2, (w.Timer d).2.Stop (w.Timer d).1 = some (false, w2) ∧
        w2.Stop (w.Timer d).1 = none ∧
        ∃ w3 w4, w2.helperEnter b w.helpers.length = some w3 ∧
          w3.Stop (w.Timer d).1 = none ∧
          w3.helperRun w.helpers.length true = some w4 ∧
          w4.Stop (w.Timer d).1 = some (true, w4)) ∧
    (NewFakeClock.Timer 1).map (fun p => (p.1, p.2.signals)) =
      some ({ c := 0, close := some 0, done := 1 }, [false, false]) ∧
    (NewFakeClock.Timer 1).map (fun p => (p.2.Stop p.1).map (fun q => (q.1, q.2.signals))) =
      some (some (false, [true, false])) ∧
    stopTwice 1 = none ∧ stopTwiceWarping 1 = none :=
  ⟨fun w d hd => w.Stop_Stop d hd, fun w d b => w.warp_Stop_Stop d b, by decide, by decide,
    by decide, by decide⟩

end gotime
